import Mathlib

/-!
A shallow embedding of jsondb: the encryption codec, the memory engine with
its snapshots, and the connection handler.

Modelling conventions.

* A Go `string` is a Lean `String` (Go strings that are valid UTF-8); a Go
  `[]byte` is a `List Nat` of byte values, and `[]byte(s)` is `toBytes s`.
* `time.Time` is an `Int`: nanoseconds since the zero time instant, so that
  `IsZero` is `= 0`.  `time.Duration` is an `Int` number of nanoseconds.
  The clock reading `time.Now()` is an explicit argument `now`.
* The AES block function of `crypto/aes` is a parameter (`Block`); the CTR
  mode of `crypto/cipher` is modelled on top of it.  The nonce that
  `rand.Read` fills is an explicit argument.
* The values `Set` receives are JSON values whose numbers are integers and
  whose strings are valid UTF-8 (`GoValue.json`); a Go string that need not be
  valid UTF-8 is given by its bytes (`GoValue.rawString`), and a value of any
  other Go type, a `float64` for one, by the bytes `json.Marshal` returns for
  it (`GoValue.encoded`).  `json.Marshal` and the decoding of a JSON string
  are modelled after encoding/json.
* A run-time panic of Go (an index out of range, a division by zero, a nil
  pointer) is the error `GoError.panic`.
* A method that mutates the engine returns its Go result together with the
  engine after the call.
* The file system under `DumpToDisk` and `RestoreFromDisk` is what is at the
  canonical dump path (`DumpFile`) and the errors of the I/O steps (`DumpIO`);
  a dump that was written decodes to the `DumpData` that was encoded.
* `regexp.Compile` is a parameter `compile`; `GoRegexp compile` says that it
  behaves as Go's on the expressions made of literal characters, dots and
  stars, and `simpleCompile` is a model of exactly that fragment.
* The connection handler is modelled one line at a time (`handleLine`), and
  its read loop as the run over the lines of a connection (`handleLines`); the
  bytes it writes are `List Nat`, a failure of the transport is not modelled.
* `specJoin` and `specStripQuotes` state the value of a `SET` line in the words
  of the specification and are compared with what the code computes;
  `writtenBySet` describes the engine states whose values `SET` commands wrote.
-/

namespace JsonDB

/-! ## Bytes and strings -/

/-- The UTF-8 encoding of one character, as byte values. -/
def utf8EncodeChar (c : Char) : List Nat :=
  if c.toNat < 128 then [c.toNat]
  else if c.toNat < 2048 then [192 + c.toNat / 64, 128 + c.toNat % 64]
  else if c.toNat < 65536 then
    [224 + c.toNat / 4096, 128 + c.toNat / 64 % 64, 128 + c.toNat % 64]
  else
    [240 + c.toNat / 262144, 128 + c.toNat / 4096 % 64, 128 + c.toNat / 64 % 64,
      128 + c.toNat % 64]

/-- The conversion `[]byte(s)`: the UTF-8 bytes of `s`. -/
def toBytes (s : String) : List Nat :=
  s.data.flatMap utf8EncodeChar

/-- The Go builtin `len(s)` of a string: its length in bytes. -/
def goLen (s : String) : Nat := (toBytes s).length

/-- A continuation byte of UTF-8. -/
def isCont (b : Nat) : Prop := 128 ≤ b ∧ b < 192

instance (b : Nat) : Decidable (isCont b) := by unfold isCont; infer_instance

/-- The function `utf8.DecodeRune` on a non-empty byte string: the code point
and its width; bytes that start no valid encoding give U+FFFD of width 1. -/
def decodeRune (bs : List Nat) : Nat × Nat :=
  if bs.getD 0 0 < 128 then (bs.getD 0 0, 1)
  else if 194 ≤ bs.getD 0 0 ∧ bs.getD 0 0 < 224 ∧ isCont (bs.getD 1 0) then
    ((bs.getD 0 0 - 192) * 64 + (bs.getD 1 0 - 128), 2)
  else if 224 ≤ bs.getD 0 0 ∧ bs.getD 0 0 < 240 ∧ isCont (bs.getD 1 0) ∧ isCont (bs.getD 2 0) ∧
      2048 ≤ (bs.getD 0 0 - 224) * 4096 + (bs.getD 1 0 - 128) * 64 + (bs.getD 2 0 - 128) ∧
      ¬ (55296 ≤ (bs.getD 0 0 - 224) * 4096 + (bs.getD 1 0 - 128) * 64 + (bs.getD 2 0 - 128) ∧
        (bs.getD 0 0 - 224) * 4096 + (bs.getD 1 0 - 128) * 64 + (bs.getD 2 0 - 128) < 57344) then
    ((bs.getD 0 0 - 224) * 4096 + (bs.getD 1 0 - 128) * 64 + (bs.getD 2 0 - 128), 3)
  else if 240 ≤ bs.getD 0 0 ∧ bs.getD 0 0 < 248 ∧ isCont (bs.getD 1 0) ∧ isCont (bs.getD 2 0) ∧
      isCont (bs.getD 3 0) ∧
      65536 ≤ (bs.getD 0 0 - 240) * 262144 + (bs.getD 1 0 - 128) * 4096
        + (bs.getD 2 0 - 128) * 64 + (bs.getD 3 0 - 128) ∧
      (bs.getD 0 0 - 240) * 262144 + (bs.getD 1 0 - 128) * 4096
        + (bs.getD 2 0 - 128) * 64 + (bs.getD 3 0 - 128) < 1114112 then
    ((bs.getD 0 0 - 240) * 262144 + (bs.getD 1 0 - 128) * 4096
      + (bs.getD 2 0 - 128) * 64 + (bs.getD 3 0 - 128), 4)
  else (65533, 1)

/-- The runes of a byte string, read with `decodeRune`; each step consumes a
byte or more, so a fuel of the length of the bytes is enough. -/
def fromBytesFuel : Nat → List Nat → List Char
  | 0, _ => []
  | _ + 1, [] => []
  | fuel + 1, b :: bs =>
    Char.ofNat (decodeRune (b :: bs)).1 ::
      fromBytesFuel fuel ((b :: bs).drop (decodeRune (b :: bs)).2)

/-- The conversion `string(b)` as the JSON decoder reads it, rune by rune. -/
def fromBytes (bs : List Nat) : List Char := fromBytesFuel bs.length bs

/-- The function `strings.HasPrefix(s, p)` for a Go string given by its bytes
and a `p` of the one byte `b`. -/
def bytesStartWith (s : List Nat) (b : Nat) : Bool := s.head? = some b

/-- The function `strings.HasSuffix(s, p)` for a Go string given by its bytes
and a `p` of the one byte `b`. -/
def bytesEndWith (s : List Nat) (b : Nat) : Bool := s.getLast? = some b

/-- The function `strings.HasPrefix(s, p)`. -/
def startsWithStr (s p : String) : Bool := p.data.isPrefixOf s.data

/-- The function `strings.HasSuffix(s, p)`. -/
def endsWithStr (s p : String) : Bool := p.data.isSuffixOf s.data

/-! ## internal/encryption -/

/-- The `cipher.Block` built by `aes.NewCipher`: the keyed permutation of
16-byte blocks, taken as a parameter. -/
structure Block where
  encrypt : List Nat → List Nat

/-- Big-endian value of a byte string. -/
def beToNat (bs : List Nat) : Nat := bs.foldl (fun acc b => acc * 256 + b % 256) 0

/-- The `len` low-order bytes of `n`, big-endian. -/
def natToBE : Nat → Nat → List Nat
  | 0, _ => []
  | len + 1, n => natToBE len (n / 256) ++ [n % 256]

/-- Counter block number `i` of a CTR stream started at `iv`: the IV read as a
big-endian 128-bit integer, incremented `i` times with wrap-around. -/
def ctrBlock (iv : List Nat) (i : Nat) : List Nat :=
  natToBE 16 ((beToNat iv + i) % 2 ^ 128)

/-- Byte `i` of the key stream of `cipher.NewCTR(block, iv)`. -/
def keystreamByte (block : Block) (iv : List Nat) (i : Nat) : Nat :=
  ((block.encrypt (ctrBlock iv (i / 16))).getD (i % 16) 0) % 256

/-- XOR of `src` with the stream `ks`, the first byte of `src` meeting `ks i`. -/
def xorFrom (ks : Nat → Nat) : Nat → List Nat → List Nat
  | _, [] => []
  | i, x :: xs => (x ^^^ ks i) :: xorFrom ks (i + 1) xs

/-- The call `stream.XORKeyStream(dst, src)` on a fresh CTR stream, `dst` having
the length of `src`. -/
def XORKeyStream (block : Block) (iv : List Nat) (src : List Nat) : List Nat :=
  xorFrom (keystreamByte block iv) 0 src

/-- The struct `Encryptor`. -/
structure Encryptor where
  block : Block

/-- The function `aes.NewCipher`: a key of 16, 24 or 32 bytes yields a block,
any other size is a `KeySizeError`.  The argument `aes` is the AES block
function, from key and block to block. -/
def aesNewCipher (aes : List Nat → List Nat → List Nat) (key : List Nat) :
    Except String Block :=
  if key.length = 16 ∨ key.length = 24 ∨ key.length = 32 then
    .ok ⟨aes key⟩
  else
    .error "crypto/aes: invalid key size"

/-- The constructor `NewEncryptor(key)`. -/
def NewEncryptor (aes : List Nat → List Nat → List Nat) (key : String) :
    Except String Encryptor :=
  if goLen key ≠ 32 then
    .error ("encryption key must be exactly 32 bytes, got " ++ toString (goLen key))
  else
    match aesNewCipher aes (toBytes key) with
    | .error err => .error ("failed to create AES cipher: " ++ err)
    | .ok block => .ok ⟨block⟩

/-- The method `Encryptor.Encrypt(data)`; `nonce` is what `rand.Read` wrote
into the 16-byte nonce buffer. -/
def Encryptor.Encrypt (e : Encryptor) (nonce : List Nat) (data : List Nat) :
    Except String (List Nat) :=
  let encrypted := XORKeyStream e.block nonce data
  .ok (nonce ++ encrypted)

/-- The method `Encryptor.Decrypt(data)`. -/
def Encryptor.Decrypt (e : Encryptor) (data : List Nat) : Except String (List Nat) :=
  if data.length < 16 then
    .error ("encrypted data too short: " ++ toString data.length ++ " bytes")
  else
    let nonce := data.take 16
    let ciphertext := data.drop 16
    .ok (XORKeyStream e.block nonce ciphertext)

/-! ## encoding/json, as far as `Set` uses it -/

/-- A JSON value: what the claim calls null, string, number, boolean, array
or object.  Numbers are Go integers; the fields of an object are listed in the
order `json.Marshal` writes them (sorted by key). -/
inductive JSON where
  | null
  | bool (b : Bool)
  | num (n : Int)
  | str (s : String)
  | arr (items : List JSON)
  | obj (fields : List (String × JSON))

/-- A value of type `interface{}` handed to `Set`: a JSON value (the untyped
`nil` is `JSON.null`, a Go `string` of valid UTF-8 is `JSON.str`); a value of a
type `json.Marshal` does not support (a channel, a function); a Go `string`
given by its bytes, which need not be valid UTF-8; or a value of any other Go
type (a `float64`, a struct, a map or slice of such) that `json.Marshal`
encodes as the bytes `text`. -/
inductive GoValue where
  | json (j : JSON)
  | unsupported
  | rawString (bytes : List Nat)
  | encoded (text : List Nat)

/-- The table `hex` of encoding/json. -/
def hexDigit (n : Nat) : Char := "0123456789abcdef".data.getD n '0'

/-- One step of `appendString` with `escapeHTML` set: how `json.Marshal`
writes the character `c` inside a string literal. -/
def escapeChar (c : Char) : List Char :=
  if c = '\\' ∨ c = '"' then ['\\', c]
  else if c.toNat = 8 then ['\\', 'b']
  else if c.toNat = 12 then ['\\', 'f']
  else if c = '\n' then ['\\', 'n']
  else if c = '\r' then ['\\', 'r']
  else if c = '\t' then ['\\', 't']
  else if c.toNat < 32 ∨ c = '<' ∨ c = '>' ∨ c = '&' then
    ['\\', 'u', '0', '0', hexDigit (c.toNat / 16), hexDigit (c.toNat % 16)]
  else if c.toNat = 8232 ∨ c.toNat = 8233 then
    ['\\', 'u', '2', '0', '2', hexDigit (c.toNat % 16)]
  else [c]

/-- The string literal `json.Marshal` writes for the Go string `s`. -/
def quote (s : String) : List Char :=
  '"' :: (s.data.flatMap escapeChar ++ ['"'])

mutual
/-- The text `json.Marshal` writes for a JSON value (compact form). -/
def marshalText : JSON → List Char
  | .null => "null".data
  | .bool true => "true".data
  | .bool false => "false".data
  | .num n => (toString n).data
  | .str s => quote s
  | .arr items => '[' :: (marshalItems items ++ [']'])
  | .obj fields => '{' :: (marshalFields fields ++ ['}'])
/-- The comma-separated elements of an array. -/
def marshalItems : List JSON → List Char
  | [] => []
  | [j] => marshalText j
  | j :: rest => marshalText j ++ (',' :: marshalItems rest)
/-- The comma-separated members of an object. -/
def marshalFields : List (String × JSON) → List Char
  | [] => []
  | [(k, j)] => quote k ++ (':' :: marshalText j)
  | (k, j) :: rest => quote k ++ (':' :: marshalText j) ++ (',' :: marshalFields rest)
end

/-- The loop of `appendString` with `escapeHTML` set over the bytes of a Go
string: an ASCII byte is written as `escapeChar` says; a byte that starts no
valid encoding (`utf8.DecodeRuneInString` gives `RuneError` of size 1) is
written as the six characters of the escape of U+FFFD; U+2028 and U+2029 are
escaped; any other rune is copied.  Each step consumes a byte or more. -/
def appendStringFuel : Nat → List Nat → List Nat
  | 0, _ => []
  | _ + 1, [] => []
  | fuel + 1, b :: bs =>
    if b < 128 then
      toBytes (String.mk (escapeChar (Char.ofNat b))) ++ appendStringFuel fuel bs
    else if (decodeRune (b :: bs)).1 = 65533 ∧ (decodeRune (b :: bs)).2 = 1 then
      [92, 117, 102, 102, 102, 100] ++ appendStringFuel fuel bs
    else if (decodeRune (b :: bs)).1 = 8232 ∨ (decodeRune (b :: bs)).1 = 8233 then
      toBytes (String.mk (escapeChar (Char.ofNat (decodeRune (b :: bs)).1))) ++
        appendStringFuel fuel ((b :: bs).drop (decodeRune (b :: bs)).2)
    else
      (b :: bs).take (decodeRune (b :: bs)).2 ++
        appendStringFuel fuel ((b :: bs).drop (decodeRune (b :: bs)).2)

/-- The string literal `json.Marshal` writes for a Go string given by its
bytes. -/
def marshalRawString (bytes : List Nat) : List Nat :=
  34 :: (appendStringFuel bytes.length bytes ++ [34])

/-- The function `json.Marshal`. -/
def jsonMarshal : GoValue → Except String (List Nat)
  | .json j => .ok (toBytes (String.mk (marshalText j)))
  | .unsupported => .error "json: unsupported type"
  | .rawString bytes => .ok (marshalRawString bytes)
  | .encoded text => .ok text

/-- The value of a hexadecimal digit, as `getu4` reads it. -/
def hexVal (c : Char) : Option Nat :=
  if 48 ≤ c.toNat ∧ c.toNat ≤ 57 then some (c.toNat - 48)
  else if 97 ≤ c.toNat ∧ c.toNat ≤ 102 then some (c.toNat - 87)
  else if 65 ≤ c.toNat ∧ c.toNat ≤ 70 then some (c.toNat - 55)
  else none

/-- The function `getu4` of encoding/json on the four characters after a
backslash and `u`. -/
def getu4 (cs : List Char) : Option Nat :=
  match cs with
  | a :: b :: c :: d :: _ =>
    match hexVal a, hexVal b, hexVal c, hexVal d with
    | some x, some y, some z, some w => some (((x * 16 + y) * 16 + z) * 16 + w)
    | _, _, _, _ => none
  | _ => none

/-- The function `utf16.DecodeRune`: the code point of a surrogate pair, `none`
when the two halves do not pair up. -/
def decodeSurrogates (r1 r2 : Nat) : Option Nat :=
  if 55296 ≤ r1 ∧ r1 < 56320 ∧ 56320 ≤ r2 ∧ r2 < 57344 then
    some ((r1 - 55296) * 1024 + (r2 - 56320) + 65536)
  else none

/-- The character a one-letter escape stands for. -/
def unescapeSimple (e : Char) : Option Char :=
  if e = '"' then some '"'
  else if e = '\\' then some '\\'
  else if e = '/' then some '/'
  else if e = 'b' then some (Char.ofNat 8)
  else if e = 'f' then some (Char.ofNat 12)
  else if e = 'n' then some '\n'
  else if e = 'r' then some '\r'
  else if e = 't' then some '\t'
  else none

/-- The value `out` with `c` put in front of its decoded characters. -/
def pushChar (c : Char) (out : Option (List Char × List Char)) :
    Option (List Char × List Char) :=
  match out with
  | none => none
  | some (decoded, rest) => some (c :: decoded, rest)

/-- The body of a JSON string literal, read after its opening quote as the
scanner and `unquote` of encoding/json read it: the decoded characters and the
text after the closing quote, `none` for a literal that is not valid.  Every
step consumes a character, so a fuel above the length of the text is enough. -/
def unquoteBody : Nat → List Char → Option (List Char × List Char)
  | 0, _ => none
  | _ + 1, [] => none
  | fuel + 1, c :: cs =>
    if c = '"' then some ([], cs)
    else if c = '\\' then
      match cs with
      | [] => none
      | e :: rest =>
        if e = 'u' then
          match getu4 rest with
          | none => none
          | some r =>
            if 55296 ≤ r ∧ r < 57344 then
              match rest.drop 4 with
              | '\\' :: 'u' :: second =>
                match (getu4 second).bind (decodeSurrogates r) with
                | some full => pushChar (Char.ofNat full) (unquoteBody fuel (second.drop 4))
                | none => pushChar (Char.ofNat 65533) (unquoteBody fuel (rest.drop 4))
              | _ => pushChar (Char.ofNat 65533) (unquoteBody fuel (rest.drop 4))
            else pushChar (Char.ofNat r) (unquoteBody fuel (rest.drop 4))
        else
          match unescapeSimple e with
          | none => none
          | some d => pushChar d (unquoteBody fuel rest)
    else if c.toNat < 32 then none
    else pushChar c (unquoteBody fuel cs)

/-- The white space of a JSON text. -/
def isSpace (c : Char) : Bool :=
  c = ' ' || c = '\t' || c = '\r' || c = '\n'

/-- The function `json.Unmarshal` on a text that is to give a Go string: the
string when the text is one string literal between optional white space,
`none` for any other text. -/
def decodeString (text : List Char) : Option String :=
  match text.dropWhile isSpace with
  | [] => none
  | c :: cs =>
    if c = '"' then
      match unquoteBody (cs.length + 1) cs with
      | none => none
      | some (decoded, rest) => if rest.all isSpace then some (String.mk decoded) else none
    else none

/-- The call `json.Unmarshal(data, &v)` that gives a Go string `v`: `none` when
`data` is not the text of one JSON string. -/
def unmarshalString (data : List Nat) : Option String :=
  decodeString (fromBytes data)

/-! ## internal/engine -/

/-- The constant `time.Second`, in nanoseconds. -/
def Second : Int := 1000000000

/-- The least `time.Duration`. -/
def minDuration : Int := -(2 ^ 63)

/-- The greatest `time.Duration`. -/
def maxDuration : Int := 2 ^ 63 - 1

/-- The method `t.Sub(u)`: the difference, saturated to the range of
`time.Duration`. -/
def timeSub (t u : Int) : Int :=
  if t - u < minDuration then minDuration
  else if maxDuration < t - u then maxDuration
  else t - u

/-- The function `time.Until(t)` read at the clock value `now`. -/
def timeUntil (t now : Int) : Int := timeSub t now

/-- A Go `error` value of the engine, or a run-time panic. -/
inductive GoError where
  | ErrKeyNotFound
  | errorf (msg : String)
  | panic (msg : String)
  deriving DecidableEq, Repr

/-- The struct `KeyData`. -/
structure KeyData where
  Value : List Nat
  ExpiresAt : Int
  deriving DecidableEq, Repr

/-- The lookup `m[key]` of a `map[string]*KeyData`. -/
def mapGet (m : List (String × KeyData)) (key : String) : Option KeyData :=
  match m with
  | [] => none
  | (k, v) :: rest => if k = key then some v else mapGet rest key

/-- The builtin `delete(m, key)`. -/
def mapDelete (m : List (String × KeyData)) (key : String) : List (String × KeyData) :=
  m.filter (fun p => decide (p.1 ≠ key))

/-- The assignment `m[key] = v`. -/
def mapSet (m : List (String × KeyData)) (key : String) (v : KeyData) :
    List (String × KeyData) :=
  (key, v) :: mapDelete m key

/-- The struct `engineShard` (its lock is not modelled). -/
structure engineShard where
  data : List (String × KeyData)
  deriving DecidableEq, Repr

/-- The struct `MemoryEngine`. -/
structure MemoryEngine where
  shards : List engineShard
  numShards : Nat
  encryptor : Option Encryptor
  useEncryption : Bool
  debug : Bool
  dumpPath : String

/-- The hash `fnv.New32a()` fed with `bs`, read by `Sum32`. -/
def fnv32a (bs : List Nat) : Nat :=
  bs.foldl (fun h b => ((h ^^^ (b % 256)) * 16777619) % 2 ^ 32) 2166136261

/-- The method `getShard`: the index `hash.Sum32() % uint32(me.numShards)` and
the shard found there; `none` where Go panics (division by zero, index out of
range). -/
def MemoryEngine.getShard (me : MemoryEngine) (key : String) : Option (Nat × engineShard) :=
  if me.numShards % 2 ^ 32 = 0 then none
  else
    match me.shards[fnv32a (toBytes key) % (me.numShards % 2 ^ 32)]? with
    | none => none
    | some shard => some (fnv32a (toBytes key) % (me.numShards % 2 ^ 32), shard)

/-- The engine after the map of shard `i` has become `data`. -/
def MemoryEngine.putShard (me : MemoryEngine) (i : Nat) (data : List (String × KeyData)) :
    MemoryEngine :=
  { me with shards := me.shards.set i ⟨data⟩ }

/-- The method `Set(key, value)`; `nonce` is the nonce `Encrypt` draws. -/
def MemoryEngine.Set (me : MemoryEngine) (key : String) (value : GoValue) (nonce : List Nat) :
    Option GoError × MemoryEngine :=
  let marshalled : Except String (List Nat) :=
    match value with
    | .json .null => .ok (toBytes "null")
    | .json (.str str) =>
      if (startsWithStr str "\x7b" && endsWithStr str "\x7d") ||
          (startsWithStr str "[" && endsWithStr str "]") then
        .ok (toBytes str)
      else
        jsonMarshal (.json (.str str))
    | .rawString bytes =>
      if (bytesStartWith bytes 123 && bytesEndWith bytes 125) ||
          (bytesStartWith bytes 91 && bytesEndWith bytes 93) then
        .ok bytes
      else
        jsonMarshal (.rawString bytes)
    | v => jsonMarshal v
  match marshalled with
  | .error err => (some (.errorf ("failed to marshal value: " ++ err)), me)
  | .ok jsonData =>
    let encrypted : Except String (List Nat) :=
      match me.useEncryption, me.encryptor with
      | true, some enc => enc.Encrypt nonce jsonData
      | _, _ => .ok jsonData
    match encrypted with
    | .error err => (some (.errorf ("encryption failed: " ++ err)), me)
    | .ok dataToStore =>
      match me.getShard key with
      | none => (some (.panic "getShard"), me)
      | some (i, shard) => (none, me.putShard i (mapSet shard.data key ⟨dataToStore, 0⟩))

/-- The method `SetWithTTL(key, value, ttl)` run at clock time `now`. -/
def MemoryEngine.SetWithTTL (me : MemoryEngine) (key : String) (value : List Nat) (ttl : Int)
    (now : Int) : Option GoError × MemoryEngine :=
  if ttl ≤ 0 then (some (.errorf "TTL must be positive"), me)
  else
    match me.getShard key with
    | none => (some (.panic "getShard"), me)
    | some (i, shard) => (none, me.putShard i (mapSet shard.data key ⟨value, now + ttl⟩))

/-- The method `Get(key)` run at clock time `now`. -/
def MemoryEngine.Get (me : MemoryEngine) (key : String) (now : Int) :
    Except GoError (List Nat) × MemoryEngine :=
  match me.getShard key with
  | none => (.error (.panic "getShard"), me)
  | some (i, shard) =>
    match mapGet shard.data key with
    | none => (.error .ErrKeyNotFound, me)
    | some data =>
      if data.ExpiresAt ≠ 0 ∧ data.ExpiresAt < now then
        (.error .ErrKeyNotFound, me.putShard i (mapDelete shard.data key))
      else
        match me.useEncryption, me.encryptor with
        | true, some enc =>
          match enc.Decrypt data.Value with
          | .error err => (.error (.errorf ("decryption failed: " ++ err)), me)
          | .ok decrypted => (.ok decrypted, me)
        | _, _ => (.ok data.Value, me)

/-- The method `Delete(key)`. -/
def MemoryEngine.Delete (me : MemoryEngine) (key : String) : Option GoError × MemoryEngine :=
  match me.getShard key with
  | none => (some (.panic "getShard"), me)
  | some (i, shard) =>
    match mapGet shard.data key with
    | none => (some .ErrKeyNotFound, me)
    | some _ => (none, me.putShard i (mapDelete shard.data key))

/-- The method `TTL(key)` run at clock time `now`. -/
def MemoryEngine.TTL (me : MemoryEngine) (key : String) (now : Int) :
    Except GoError Int × MemoryEngine :=
  match me.getShard key with
  | none => (.error (.panic "getShard"), me)
  | some (i, shard) =>
    match mapGet shard.data key with
    | none => (.ok (-2 * Second), me)
    | some data =>
      if data.ExpiresAt = 0 then (.ok (-1 * Second), me)
      else
        let ttl := timeUntil data.ExpiresAt now
        if ttl ≤ 0 then (.ok (-2 * Second), me.putShard i (mapDelete shard.data key))
        else (.ok ttl, me)

/-- The method `ResetMemory()`. -/
def MemoryEngine.ResetMemory (me : MemoryEngine) : Option GoError × MemoryEngine :=
  (none, { me with shards := me.shards.map (fun _ => ⟨[]⟩) })

/-- The struct `DumpData` as `json.Decoder` fills it: a record that the file
gives as `null` is a nil pointer, `none`. -/
structure DumpData where
  Version : Int
  Timestamp : Int
  Shards : List (Int × List (String × Option KeyData))

/-- What `RestoreFromDisk` finds at the canonical dump path: no file it can
open, a file that does not decode, or a decoded dump. -/
inductive DumpFile where
  | missing
  | malformed
  | decoded (dump : DumpData)

/-- The lookup `dump.Shards[i]`. -/
def lookupShard (shards : List (Int × List (String × Option KeyData))) (i : Int) :
    Option (List (String × Option KeyData)) :=
  match shards with
  | [] => none
  | (j, records) :: rest => if j = i then some records else lookupShard rest i

/-- The inner loop of `RestoreFromDisk` over the records of one dumped shard,
writing into the map `acc`; the flag is `false` when a nil record stops the
loop with a panic. -/
def restoreRecords (now : Int) :
    List (String × Option KeyData) → List (String × KeyData) → Bool × List (String × KeyData)
  | [], acc => (true, acc)
  | (_, none) :: _, acc => (false, acc)
  | (k, some v) :: rest, acc =>
    if v.ExpiresAt ≠ 0 ∧ v.ExpiresAt < now then restoreRecords now rest acc
    else restoreRecords now rest (mapSet acc k v)

/-- The outer loop of `RestoreFromDisk` over the shards from index `i` on. -/
def restoreShards (dump : DumpData) (now : Int) :
    Nat → List engineShard → Option GoError × List engineShard
  | _, [] => (none, [])
  | i, _ :: rest =>
    let records :=
      match lookupShard dump.Shards (Int.ofNat i) with
      | some records => records
      | none => []
    match restoreRecords now records [] with
    | (false, data) => (some (.panic "nil pointer dereference"), ⟨data⟩ :: rest)
    | (true, data) =>
      ((restoreShards dump now (i + 1) rest).1, ⟨data⟩ :: (restoreShards dump now (i + 1) rest).2)

/-- The method `RestoreFromDisk()` run at clock time `now`, `file` being what
is at the canonical dump path. -/
def MemoryEngine.RestoreFromDisk (me : MemoryEngine) (file : DumpFile) (now : Int) :
    Option GoError × MemoryEngine :=
  match file with
  | .missing => (some (.errorf "failed to open dump file"), me)
  | .malformed => (some (.errorf "failed to decode dump"), me)
  | .decoded dump =>
    ((restoreShards dump now 0 me.shards).1,
      { me with shards := (restoreShards dump now 0 me.shards).2 })

/-- The struct `config.Config`: the fields `NewMemoryEngine` reads. -/
structure Config where
  EncryptionKey : String
  EnableEncryption : Bool
  Debug : Bool
  DumpMemoryOn : Bool
  DumpMemoryEverySecond : Int
  RestoreMemoryDumpAtStart : Bool
  DumpPath : String

/-- What `NewMemoryEngine` reads from its host: `runtime.NumCPU()`, the error of
`os.MkdirAll` on the dump directory, the dump file and the clock. -/
structure Host where
  numCPU : Nat
  mkdirAll : Option String
  dumpFile : DumpFile
  now : Int

/-- The constructor `NewMemoryEngine(cfg)`; the background dump ticker it
starts only reads the engine and is not modelled. -/
def NewMemoryEngine (aes : List Nat → List Nat → List Nat) (cfg : Config) (host : Host) :
    Except GoError MemoryEngine :=
  let dumpPath := if cfg.DumpPath ≠ "" then cfg.DumpPath else "data/dump"
  let built : Except GoError (Option Encryptor) :=
    if cfg.EnableEncryption then
      if cfg.EncryptionKey = "" then
        .error (.errorf "encryption enabled but no key provided")
      else
        match NewEncryptor aes cfg.EncryptionKey with
        | .error err => .error (.errorf ("failed to initialize encryptor: " ++ err))
        | .ok enc => .ok (some enc)
    else .ok none
  match built with
  | .error err => .error err
  | .ok encryptor =>
    let me : MemoryEngine :=
      ⟨List.replicate (host.numCPU * 2) ⟨[]⟩, host.numCPU * 2, encryptor,
        cfg.EnableEncryption, cfg.Debug, dumpPath⟩
    if cfg.DumpMemoryOn then
      match host.mkdirAll with
      | some err => .error (.errorf ("failed to create dump directory: " ++ err))
      | none =>
        if cfg.RestoreMemoryDumpAtStart then
          match me.RestoreFromDisk host.dumpFile host.now with
          | (some (.panic msg), _) => .error (.panic msg)
          | (_, restored) => .ok restored
        else .ok me
    else .ok me

/-- The engines the constructor builds and the methods keep: one shard per
index, and a shard count that `uint32` does not turn into zero. -/
def MemoryEngine.WF (me : MemoryEngine) : Prop :=
  me.shards.length = me.numShards ∧ me.numShards % 2 ^ 32 ≠ 0

instance (me : MemoryEngine) : Decidable me.WF := by
  unfold MemoryEngine.WF; infer_instance

/-- The index `getShard` computes for `key`. -/
def MemoryEngine.shardIndex (me : MemoryEngine) (key : String) : Nat :=
  fnv32a (toBytes key) % (me.numShards % 2 ^ 32)

/-- The record stored for `key`, in the shard the key hashes to. -/
def MemoryEngine.record (me : MemoryEngine) (key : String) : Option KeyData :=
  match me.getShard key with
  | none => none
  | some (_, shard) => mapGet shard.data key

/-- The map of the shard `key` hashes to. -/
def MemoryEngine.shardData (me : MemoryEngine) (key : String) : List (String × KeyData) :=
  match me.getShard key with
  | none => []
  | some (_, shard) => shard.data

/-- The encryptor `Set` and `Get` use: the one of the engine when
`useEncryption` is set and `encryptor` is not nil. -/
def MemoryEngine.activeEncryptor (me : MemoryEngine) : Option Encryptor :=
  match me.useEncryption, me.encryptor with
  | true, some enc => some enc
  | _, _ => none

/-- The test `Set` makes on a string value: it starts and ends with matching
braces, or with matching square brackets. -/
def isWrapped (s : String) : Bool :=
  (startsWithStr s "\x7b" && endsWithStr s "\x7d") ||
    (startsWithStr s "[" && endsWithStr s "]")

/-- The bytes `Set` has in `jsonData` for a JSON value. -/
def setBytes : JSON → List Nat
  | .null => toBytes "null"
  | .str s => if isWrapped s then toBytes s else toBytes (String.mk (quote s))
  | j => toBytes (String.mk (marshalText j))

/-- The test `Set` makes on a string value, for a Go string given by its
bytes. -/
def bytesWrapped (bytes : List Nat) : Bool :=
  (bytesStartWith bytes 123 && bytesEndWith bytes 125) ||
    (bytesStartWith bytes 91 && bytesEndWith bytes 93)

/-- The bytes `Set` has in `jsonData` for a Go string given by its bytes. -/
def setRawBytes (bytes : List Nat) : List Nat :=
  if bytesWrapped bytes then bytes else marshalRawString bytes

/-- The bytes `Set` has in `dataToStore` for the plain bytes `data`. -/
def MemoryEngine.seal (me : MemoryEngine) (nonce data : List Nat) : List Nat :=
  match me.activeEncryptor with
  | some enc => nonce ++ XORKeyStream enc.block nonce data
  | none => data

/-- What `Get` returns for the stored bytes `stored` of a live record. -/
def MemoryEngine.unseal (me : MemoryEngine) (stored : List Nat) : Except GoError (List Nat) :=
  match me.activeEncryptor with
  | some enc =>
    match enc.Decrypt stored with
    | .error err => .error (.errorf ("decryption failed: " ++ err))
    | .ok decrypted => .ok decrypted
  | none => .ok stored

/-- A toy block function standing in for AES where a concrete engine is
evaluated: it adds the first key byte to every byte of the block. -/
def toyAes (key block : List Nat) : List Nat :=
  block.map (fun b => (b + key.headD 0) % 256)

/-- The configuration of the encryption tests: encryption on, the 32-byte test
key, no dump. -/
def encryptedConfig : Config :=
  ⟨"0123456789abcdef0123456789abcdef", true, false, false, 0, false, ""⟩

/-- A host with one CPU and no dump file. -/
def smallHost : Host := ⟨1, none, .missing, 0⟩

/-- The errors of the fallible steps of `DumpToDisk` in the order it takes
them, `none` for a step that succeeds: `os.MkdirAll`, `os.OpenFile` of the
temporary file, `encoder.Encode`, `writer.Flush`, `os.Rename`. -/
structure DumpIO where
  mkdirAll : Option String
  openFile : Option String
  encode : Option String
  flush : Option String
  rename : Option String

/-- The test `!v.ExpiresAt.IsZero() && v.ExpiresAt.Before(time.Now())` of
`Get`, `DumpToDisk` and `RestoreFromDisk`. -/
def expiredAt (v : KeyData) (now : Int) : Bool :=
  decide (v.ExpiresAt ≠ 0 ∧ v.ExpiresAt < now)

/-- The map `shardData` that `DumpToDisk` builds from the map of one shard: a
copy of every record that is not expired. -/
def dumpShard (now : Int) (data : List (String × KeyData)) :
    List (String × Option KeyData) :=
  (data.filter (fun p => !expiredAt p.2 now)).map
    (fun p => (p.1, some ⟨p.2.Value, p.2.ExpiresAt⟩))

/-- The map `dump.Shards` that `DumpToDisk` builds from the shards from index
`i` on. -/
def dumpShards (now : Int) : Nat → List engineShard →
    List (Int × List (String × Option KeyData))
  | _, [] => []
  | i, shard :: rest => (Int.ofNat i, dumpShard now shard.data) :: dumpShards now (i + 1) rest

/-- The method `DumpToDisk()` run at clock time `now`: its error, and what is
at the canonical dump path afterwards, `file` being what was there before.
The temporary file is renamed over the canonical one only when every step
before succeeded; what `json.Encoder` wrote is read back by `json.Decoder` as
the same `DumpData`. -/
def MemoryEngine.DumpToDisk (me : MemoryEngine) (now : Int) (io : DumpIO) (file : DumpFile) :
    Option GoError × DumpFile :=
  match io.mkdirAll with
  | some err => (some (.errorf ("failed to create dump directory: " ++ err)), file)
  | none =>
    match io.openFile with
    | some err => (some (.errorf ("failed to create dump file: " ++ err)), file)
    | none =>
      match io.encode with
      | some err => (some (.errorf ("failed to encode dump: " ++ err)), file)
      | none =>
        match io.flush with
        | some err => (some (.errorf ("failed to flush writer: " ++ err)), file)
        | none =>
          match io.rename with
          | some err => (some (.errorf ("failed to rename dump file: " ++ err)), file)
          | none => (none, .decoded ⟨1, now, dumpShards now 0 me.shards⟩)

/-- A step-free run of the file system under `DumpToDisk`. -/
def dumpIOok : DumpIO := ⟨none, none, none, none, none⟩

/-- The keys of a shard map are pairwise different, as in every Go map. -/
def validMap (m : List (String × KeyData)) : Prop := (m.map Prod.fst).Nodup

instance (m : List (String × KeyData)) : Decidable (validMap m) := by
  unfold validMap; infer_instance

/-- Every shard of the engine holds a map with pairwise different keys. -/
def MemoryEngine.validMaps (me : MemoryEngine) : Prop :=
  ∀ shard ∈ me.shards, validMap shard.data

instance (me : MemoryEngine) : Decidable me.validMaps := by
  unfold MemoryEngine.validMaps; infer_instance

/-- The configuration of the plain tests: no encryption, no dump. -/
def plainConfig : Config := ⟨"", false, false, false, 0, false, ""⟩

/-- The engine `NewMemoryEngine` builds from `plainConfig` on a host with
`cpus` CPUs. -/
def engineOn (cpus : Nat) : MemoryEngine :=
  ⟨List.replicate (cpus * 2) ⟨[]⟩, cpus * 2, none, false, false, "data/dump"⟩

/-! ## regexp, as far as `GetByPattern` uses it -/

/-- A compiled `*regexp.Regexp`, known by its method `MatchString`. -/
structure Regexp where
  MatchString : String → Bool

/-- One character position of a simple regular expression: a literal
character, or the dot, which stands for any character but the newline. -/
inductive Atom where
  | lit (c : Char)
  | any
  deriving DecidableEq, Repr

/-- An atom, with or without the star that repeats it. -/
structure Item where
  atom : Atom
  star : Bool
  deriving DecidableEq, Repr

/-- The characters with a meaning of their own in the syntax of regexp. -/
def isMeta (c : Char) : Bool :=
  c = '\\' || c = '.' || c = '+' || c = '*' || c = '?' || c = '(' || c = ')' || c = '|' ||
    c = '[' || c = ']' || c = '{' || c = '}' || c = '^' || c = '$'

/-- The atom a character of a simple regular expression stands for, `none`
for a character that is not an atom by itself. -/
def atomOf (c : Char) : Option Atom :=
  if c = '.' then some .any
  else if isMeta c then none
  else some (.lit c)

/-- The simple regular expressions: a sequence of literal characters and dots,
each with or without a star.  `none` for a text with any other syntax. -/
def parseSimple : List Char → Option (List Item)
  | [] => some []
  | [c] => (atomOf c).map (fun a => [⟨a, false⟩])
  | c :: d :: rest =>
    match atomOf c with
    | none => none
    | some a =>
      if d = '*' then (parseSimple rest).map (fun items => ⟨a, true⟩ :: items)
      else (parseSimple (d :: rest)).map (fun items => ⟨a, false⟩ :: items)

/-- The atom accepts the character. -/
def Atom.accepts (a : Atom) (c : Char) : Bool :=
  match a with
  | .lit l => l = c
  | .any => c ≠ '\n'

/-- The text has a prefix of zero or more characters the atom accepts whose
remainder satisfies `next`. -/
def starMatch (next : List Char → Bool) (a : Atom) : List Char → Bool
  | [] => next []
  | c :: cs => next (c :: cs) || (a.accepts c && starMatch next a cs)

/-- The simple regular expression matches a prefix of the text. -/
def matchHere : List Item → List Char → Bool
  | [], _ => true
  | ⟨_, false⟩ :: _, [] => false
  | ⟨a, false⟩ :: items, c :: cs => a.accepts c && matchHere items cs
  | ⟨a, true⟩ :: items, s => starMatch (matchHere items) a s

/-- The simple regular expression matches somewhere in the text: what
`MatchString` of the compiled expression reports. -/
def search (items : List Item) : List Char → Bool
  | [] => matchHere items []
  | c :: cs => matchHere items (c :: cs) || search items cs

/-- The function `regexp.Compile` on the simple regular expressions; any other
text is outside this model and is refused. -/
def simpleCompile (expr : String) : Except String Regexp :=
  match parseSimple expr.data with
  | some items => .ok ⟨fun s => search items s.data⟩
  | none => .error "regexp: syntax outside the modelled fragment"

/-- The function `compile` behaves as `regexp.Compile` of Go does on the
simple regular expressions: it accepts them, and the compiled expression
reports a match exactly when the expression matches somewhere in the text. -/
def GoRegexp (compile : String → Except String Regexp) : Prop :=
  ∀ expr items, parseSimple expr.data = some items →
    ∃ re, compile expr = .ok re ∧ ∀ s, re.MatchString s = search items s.data

/-- The call `strings.ReplaceAll(s, old, new)` for a one-character `old`. -/
def replaceAllChar (s : String) (old : Char) (new : String) : String :=
  String.mk (s.data.flatMap (fun c => if c = old then new.data else [c]))

/-- The expression `GetByPattern` hands to `regexp.Compile`. -/
def globToRegexp (pattern : String) : String :=
  replaceAllChar (replaceAllChar pattern '*' ".*") '?' "."

/-- The struct `Match`; `Value` is the Go string `string(value)`, kept as its
bytes. -/
structure Match where
  Key : String
  Value : List Nat
  deriving DecidableEq, Repr

/-- The inner loop of `GetByPattern` over the records of one shard. -/
def MemoryEngine.matchShard (me : MemoryEngine) (re : Regexp) :
    List (String × KeyData) → Except GoError (List Match)
  | [] => .ok []
  | (key, data) :: rest =>
    if re.MatchString key then
      let value : Except String (List Nat) :=
        match me.useEncryption, me.encryptor with
        | true, some enc => enc.Decrypt data.Value
        | _, _ => .ok data.Value
      match value with
      | .error err =>
        .error (.errorf ("failed to decrypt value for key " ++ key ++ ": " ++ err))
      | .ok value =>
        match me.matchShard re rest with
        | .error err => .error err
        | .ok found => .ok (⟨key, value⟩ :: found)
    else me.matchShard re rest

/-- The outer loop of `GetByPattern`: `count` shards from index `i` on. -/
def MemoryEngine.matchShards (me : MemoryEngine) (re : Regexp) :
    Nat → Nat → Except GoError (List Match)
  | _, 0 => .ok []
  | i, count + 1 =>
    match me.shards[i]? with
    | none => .error (.panic "index out of range")
    | some shard =>
      match me.matchShard re shard.data with
      | .error err => .error err
      | .ok found =>
        match me.matchShards re (i + 1) count with
        | .error err => .error err
        | .ok more => .ok (found ++ more)

/-- The method `GetByPattern(pattern)`; `compile` is `regexp.Compile`. -/
def MemoryEngine.GetByPattern (compile : String → Except String Regexp) (me : MemoryEngine)
    (pattern : String) : Except GoError (List Match) :=
  match compile (globToRegexp pattern) with
  | .error err => .error (.errorf ("invalid pattern: " ++ err))
  | .ok re => me.matchShards re 0 me.numShards

/-! ## internal/server -/

/-- The function `unicode.IsSpace`. -/
def isGoSpace (c : Char) : Bool :=
  c = '\t' || c = '\n' || c.toNat = 11 || c.toNat = 12 || c = '\r' || c = ' ' ||
    c.toNat = 133 || c.toNat = 160 || c.toNat = 5760 ||
    (8192 ≤ c.toNat && c.toNat ≤ 8202) || c.toNat = 8232 || c.toNat = 8233 ||
    c.toNat = 8239 || c.toNat = 8287 || c.toNat = 12288

/-- The function `strings.TrimSpace`, on the characters of the string. -/
def trimSpaceChars (s : List Char) : List Char :=
  ((s.dropWhile isGoSpace).reverse.dropWhile isGoSpace).reverse

/-- The function `strings.TrimSpace`. -/
def trimSpace (s : String) : String := String.mk (trimSpaceChars s.data)

/-- The scan of `strings.Fields`: `cur` holds, last character first, the field
that is being read. -/
def fieldsAux (cur : List Char) : List Char → List (List Char)
  | [] => if cur = [] then [] else [cur.reverse]
  | c :: cs =>
    if isGoSpace c then
      if cur = [] then fieldsAux [] cs else cur.reverse :: fieldsAux [] cs
    else fieldsAux (c :: cur) cs

/-- The function `strings.Fields`. -/
def fields (s : String) : List String := (fieldsAux [] s.data).map String.mk

/-- The function `unicode.ToUpper` as far as an ASCII letter can come out of
it: the ASCII lower-case letters, and the two letters beyond ASCII whose upper
case is an ASCII letter, U+0131 and U+017F.  Any other character beyond ASCII
is mapped by Go to a character beyond ASCII and is left as it is here. -/
def toUpperChar (c : Char) : Char :=
  if 97 ≤ c.toNat ∧ c.toNat ≤ 122 then Char.ofNat (c.toNat - 32)
  else if c.toNat = 305 then 'I'
  else if c.toNat = 383 then 'S'
  else c

/-- The function `strings.ToUpper`. -/
def toUpper (s : String) : String := String.mk (s.data.map toUpperChar)

/-- The call `strings.TrimPrefix(s, "\"")`. -/
def trimQuotePrefix (s : List Char) : List Char :=
  match s with
  | '"' :: rest => rest
  | _ => s

/-- The call `strings.TrimSuffix(s, "\"")`. -/
def trimQuoteSuffix (s : List Char) : List Char :=
  (trimQuotePrefix s.reverse).reverse

/-- The call `strings.Join(parts, " ")`. -/
def joinSpace (parts : List String) : List Char :=
  match parts with
  | [] => []
  | [p] => p.data
  | p :: rest => p.data ++ ' ' :: joinSpace rest

/-- The method `Error()` of an error of the engine. -/
def GoError.Error : GoError → String
  | .ErrKeyNotFound => "key not found"
  | .errorf msg => msg
  | .panic msg => msg

/-- The struct `Server`: the fields the connection handler reads. -/
structure Server where
  Engine : MemoryEngine
  Password : String

/-- The method `executeCommand(command)`: the response as bytes or the error,
and the engine after the call.  `nonce` and `now` are what `Encrypt` draws and
what the clock reads during the call. -/
def Server.executeCommand (s : Server) (command : String) (nonce : List Nat) (now : Int) :
    Except GoError (List Nat) × MemoryEngine :=
  match fields command with
  | [] => (.error (.errorf "empty command"), s.Engine)
  | verb :: args =>
    if toUpper verb = "PING" then (.ok (toBytes "PONG"), s.Engine)
    else if toUpper verb = "SET" then
      match args with
      | key :: first :: more =>
        match s.Engine.Set key
            (.json (.str (String.mk
              (trimQuoteSuffix (trimQuotePrefix (joinSpace (first :: more))))))) nonce with
        | (some err, engine) => (.error err, engine)
        | (none, engine) => (.ok (toBytes "OK"), engine)
      | _ => (.error (.errorf "SET command requires key and value"), s.Engine)
    else if toUpper verb = "GET" then
      match args with
      | [key] =>
        match s.Engine.Get key now with
        | (.error .ErrKeyNotFound, engine) => (.ok (toBytes "nil"), engine)
        | (.error err, engine) => (.error err, engine)
        | (.ok value, engine) => (.ok value, engine)
      | _ => (.error (.errorf "GET command requires key"), s.Engine)
    else if toUpper verb = "DELETE" then
      match args with
      | [key] =>
        match s.Engine.Delete key with
        | (some err, engine) => (.error err, engine)
        | (none, engine) => (.ok (toBytes "OK"), engine)
      | _ => (.error (.errorf "DELETE command requires key"), s.Engine)
    else if toUpper verb = "TTL" then
      match args with
      | [key] =>
        match s.Engine.TTL key now with
        | (.error err, engine) => (.error err, engine)
        | (.ok ttl, engine) => (.ok (toBytes (toString ttl)), engine)
      | _ => (.error (.errorf "TTL command requires key"), s.Engine)
    else (.error (.errorf ("unknown command: " ++ toUpper verb)), s.Engine)

/-- What one round of the read loop of `handleConnection` does: the bytes it
writes to the connection, if any, whether the client is authenticated
afterwards, the engine afterwards, and whether the round ended in a panic. -/
structure Round where
  reply : Option (List Nat)
  authenticated : Bool
  engine : MemoryEngine
  panicked : Bool

/-- One round of the read loop of `handleConnection` for the line `line` that
`ReadString` returned, on a connection whose client is `authenticated` or
not. -/
def Server.handleLine (s : Server) (authenticated : Bool) (line : String) (nonce : List Nat)
    (now : Int) : Round :=
  if trimSpace line = "" then ⟨none, authenticated, s.Engine, false⟩
  else if authenticated = false then
    match fields (trimSpace line) with
    | [verb, password] =>
      if toUpper verb ≠ "AUTH" then
        ⟨some (toBytes "ERROR Authentication required\n"), false, s.Engine, false⟩
      else if password ≠ s.Password then
        ⟨some (toBytes "ERROR Invalid password\n"), false, s.Engine, false⟩
      else ⟨some (toBytes "OK\n"), true, s.Engine, false⟩
    | _ => ⟨some (toBytes "ERROR Authentication required\n"), false, s.Engine, false⟩
  else
    match s.executeCommand (trimSpace line) nonce now with
    | (.error (.panic _), engine) => ⟨none, authenticated, engine, true⟩
    | (.error err, engine) =>
      ⟨some (toBytes ("ERROR " ++ err.Error ++ "\n")), authenticated, engine, false⟩
    | (.ok response, engine) =>
      if response = [] then ⟨some (toBytes "OK\n"), authenticated, engine, false⟩
      else ⟨some (response ++ [10]), authenticated, engine, false⟩

/-- The simple regular expression matches the whole text, stated as rules: a
plain item takes one accepted character, a starred item takes none or one
more. -/
inductive Matches : List Item → List Char → Prop where
  | done : Matches [] []
  | one (a : Atom) (c : Char) (items : List Item) (s : List Char) :
      a.accepts c = true → Matches items s → Matches (⟨a, false⟩ :: items) (c :: s)
  | skip (a : Atom) (items : List Item) (s : List Char) :
      Matches items s → Matches (⟨a, true⟩ :: items) s
  | more (a : Atom) (c : Char) (items : List Item) (s : List Char) :
      a.accepts c = true → Matches (⟨a, true⟩ :: items) s →
      Matches (⟨a, true⟩ :: items) (c :: s)

/-! ## The words of the specification -/

/-- The value tokens of a `SET` line joined by single spaces, in the words of
the specification. -/
def specJoin (tokens : List String) : List Char :=
  List.intercalate [' '] (tokens.map String.data)

/-- The removal of at most one leading and at most one trailing double quote,
in the words of the specification. -/
def specStripQuotes (cs : List Char) : List Char :=
  if (if cs.head? = some '"' then cs.tail else cs).getLast? = some '"' then
    (if cs.head? = some '"' then cs.tail else cs).dropLast
  else (if cs.head? = some '"' then cs.tail else cs)

/-- The lookup `records[key]` in a dumped shard, a `map[string]*KeyData`. -/
def recordsGet (records : List (String × Option KeyData)) (key : String) :
    Option (Option KeyData) :=
  match records with
  | [] => none
  | (k, v) :: rest => if k = key then some v else recordsGet rest key

/-- The record the dump file holds for `key` in its shard `i`, if it holds one
that is not `null`. -/
def dumpRecord (dump : DumpData) (i : Int) (key : String) : Option KeyData :=
  match lookupShard dump.Shards i with
  | none => none
  | some records =>
    match recordsGet records key with
    | some (some v) => some v
    | _ => none

/-- An engine state whose values were all written through `SET` commands: every
record in every shard holds what `Set` stores, under some nonce of 16 bytes,
for a string without a newline, as the value of a `SET` line is. -/
def MemoryEngine.writtenBySet (me : MemoryEngine) : Prop :=
  ∀ shard ∈ me.shards, ∀ p ∈ shard.data,
    ∃ (v : String) (nonce : List Nat), '\n' ∉ v.data ∧ nonce.length = 16 ∧
      p.2.Value = me.seal nonce (setBytes (.str v))

/-- The read loop of `handleConnection` over the lines the client sends before
the stream ends, each with the nonce and the clock reading of its round: the
client flag and the engine when the loop ends.  A round that panics ends the
loop. -/
def Server.handleLines (s : Server) (authenticated : Bool) :
    List (String × List Nat × Int) → Bool × MemoryEngine
  | [] => (authenticated, s.Engine)
  | (line, nonce, now) :: rest =>
    if (s.handleLine authenticated line nonce now).panicked then
      ((s.handleLine authenticated line nonce now).authenticated,
        (s.handleLine authenticated line nonce now).engine)
    else
      Server.handleLines ⟨(s.handleLine authenticated line nonce now).engine, s.Password⟩
        (s.handleLine authenticated line nonce now).authenticated rest

end JsonDB

namespace JsonDB

theorem xorFrom_length (ks : Nat → Nat) (i : Nat) (xs : List Nat) :
    (xorFrom ks i xs).length = xs.length := by
  induction xs generalizing i with
  | nil => rfl
  | cons x xs ih => simp [xorFrom, ih]

theorem xorFrom_xorFrom (ks : Nat → Nat) (i : Nat) (xs : List Nat) :
    xorFrom ks i (xorFrom ks i xs) = xs := by
  induction xs generalizing i with
  | nil => rfl
  | cons x xs ih =>
    simp only [xorFrom, ih]
    rw [Nat.xor_assoc, Nat.xor_self, Nat.xor_zero]

theorem decrypt_append (enc : Encryptor) (nonce x : List Nat) (hn : nonce.length = 16) :
    enc.Decrypt (nonce ++ XORKeyStream enc.block nonce x) = .ok x := by
  have hlen : ¬ (nonce ++ XORKeyStream enc.block nonce x).length < 16 := by
    simp [hn]
  unfold Encryptor.Decrypt
  rw [if_neg hlen]
  have htake : (nonce ++ XORKeyStream enc.block nonce x).take 16 = nonce := by
    rw [← hn]; exact List.take_left _ _
  have hdrop : (nonce ++ XORKeyStream enc.block nonce x).drop 16
      = XORKeyStream enc.block nonce x := by
    rw [← hn]; exact List.drop_left _ _
  simp only [htake, hdrop]
  unfold XORKeyStream
  rw [xorFrom_xorFrom]

theorem newEncryptor_of_len (aes : List Nat → List Nat → List Nat) (key : String)
    (hkey : goLen key = 32) : NewEncryptor aes key = .ok ⟨⟨aes (toBytes key)⟩⟩ := by
  have h : (toBytes key).length = 32 := hkey
  simp [NewEncryptor, aesNewCipher, hkey, h]

/-- Claim C2: for every 32-byte key, every byte sequence `x` and every 16-byte
nonce, the encryptor is built, `Encrypt` returns a blob, and `Decrypt` of that
blob succeeds and returns exactly `x`. -/
theorem decrypt_encrypt_roundtrip (aes : List Nat → List Nat → List Nat) (key : String)
    (nonce x : List Nat) (hkey : goLen key = 32) (hn : nonce.length = 16) :
    ∃ enc blob, NewEncryptor aes key = .ok enc ∧ enc.Encrypt nonce x = .ok blob ∧
      enc.Decrypt blob = .ok x := by
  refine ⟨⟨⟨aes (toBytes key)⟩⟩, nonce ++ XORKeyStream ⟨aes (toBytes key)⟩ nonce x,
    newEncryptor_of_len aes key hkey, rfl, ?_⟩
  exact decrypt_append ⟨⟨aes (toBytes key)⟩⟩ nonce x hn

/-- Witness of C2: the key of the tests, the nonce 0..15 and the plaintext
`test data`. -/
theorem decrypt_encrypt_roundtrip_witness :
    ∃ enc blob, NewEncryptor toyAes "0123456789abcdef0123456789abcdef" = .ok enc ∧
      enc.Encrypt (List.range 16) (toBytes "test data") = .ok blob ∧
      enc.Decrypt blob = .ok (toBytes "test data") :=
  decrypt_encrypt_roundtrip toyAes "0123456789abcdef0123456789abcdef" (List.range 16)
    (toBytes "test data") (by decide) (by decide)

/-- Claim C3: `Decrypt(blob)` returns an error exactly when `blob` has fewer
than 16 bytes, and any blob of 16 bytes or more, whatever its content,
decrypts without error to a plaintext of `len(blob) - 16` bytes. -/
theorem decrypt_error_iff_short (enc : Encryptor) (blob : List Nat) :
    ((∃ err, enc.Decrypt blob = .error err) ↔ blob.length < 16) ∧
      (16 ≤ blob.length →
        ∃ plain, enc.Decrypt blob = .ok plain ∧ plain.length = blob.length - 16) := by
  by_cases h : blob.length < 16
  · refine ⟨⟨fun _ => h,
        fun _ => ⟨"encrypted data too short: " ++ toString blob.length ++ " bytes", ?_⟩⟩,
      fun h16 => absurd h (by omega)⟩
    unfold Encryptor.Decrypt
    rw [if_pos h]
  · have hd : enc.Decrypt blob
        = .ok (XORKeyStream enc.block (blob.take 16) (blob.drop 16)) := by
      unfold Encryptor.Decrypt
      rw [if_neg h]
    refine ⟨⟨fun ⟨err, herr⟩ => ?_, fun hlt => absurd hlt h⟩, fun _ => ⟨_, hd, ?_⟩⟩
    · rw [hd] at herr
      cases herr
    · simp [XORKeyStream, xorFrom_length]

/-- Witness of C3: a corrupted blob of 18 bytes decrypts to 2 bytes, and the
second half of the claim is used at a blob that meets its bound. -/
theorem decrypt_error_iff_short_witness :
    ∃ plain, (⟨⟨toyAes [7]⟩⟩ : Encryptor).Decrypt (List.replicate 18 255) = .ok plain ∧
      plain.length = (List.replicate 18 255).length - 16 :=
  (decrypt_error_iff_short ⟨⟨toyAes [7]⟩⟩ (List.replicate 18 255)).2 (by decide)

/-- Claim C4: `NewEncryptor(key)` returns an encryptor exactly when the key is
32 bytes long; for a key of any other length, the empty key included, it
returns an error and no encryptor. -/
theorem newEncryptor_ok_iff_len32 (aes : List Nat → List Nat → List Nat) (key : String) :
    ((∃ enc, NewEncryptor aes key = .ok enc) ↔ goLen key = 32) ∧
      (goLen key ≠ 32 →
        (∃ err, NewEncryptor aes key = .error err) ∧
          ∀ enc, NewEncryptor aes key ≠ .ok enc) := by
  have hbad : goLen key ≠ 32 →
      NewEncryptor aes key
        = .error ("encryption key must be exactly 32 bytes, got " ++ toString (goLen key)) := by
    intro h
    unfold NewEncryptor
    rw [if_pos h]
  refine ⟨⟨fun ⟨enc, henc⟩ => ?_, fun h => ⟨_, newEncryptor_of_len aes key h⟩⟩, fun h => ?_⟩
  · by_contra hne
    rw [hbad hne] at henc
    cases henc
  · refine ⟨⟨_, hbad h⟩, fun enc henc => ?_⟩
    rw [hbad h] at henc
    cases henc

/-- Witness of C4: the short key of the tests and the empty key are refused. -/
theorem newEncryptor_ok_iff_len32_witness :
    ((∃ err, NewEncryptor toyAes "too_short" = .error err) ∧
        ∀ enc, NewEncryptor toyAes "too_short" ≠ .ok enc) ∧
      ((∃ err, NewEncryptor toyAes "" = .error err) ∧
        ∀ enc, NewEncryptor toyAes "" ≠ .ok enc) :=
  ⟨(newEncryptor_ok_iff_len32 toyAes "too_short").2 (by decide),
    (newEncryptor_ok_iff_len32 toyAes "").2 (by decide)⟩

/-! ### The maps of a shard -/

theorem mapDelete_cons_eq (m : List (String × KeyData)) (k key : String) (v : KeyData)
    (h : k = key) : mapDelete ((k, v) :: m) key = mapDelete m key := by
  simp [mapDelete, h]

theorem mapDelete_cons_ne (m : List (String × KeyData)) (k key : String) (v : KeyData)
    (h : k ≠ key) : mapDelete ((k, v) :: m) key = (k, v) :: mapDelete m key := by
  simp [mapDelete, h]

theorem mapGet_mapDelete_self (m : List (String × KeyData)) (key : String) :
    mapGet (mapDelete m key) key = none := by
  induction m with
  | nil => rfl
  | cons p m ih =>
    obtain ⟨k, v⟩ := p
    by_cases h : k = key
    · rw [mapDelete_cons_eq m k key v h]
      exact ih
    · rw [mapDelete_cons_ne m k key v h]
      simp only [mapGet, if_neg h]
      exact ih

theorem mapGet_mapDelete_other (m : List (String × KeyData)) (key other : String)
    (hne : other ≠ key) : mapGet (mapDelete m key) other = mapGet m other := by
  induction m with
  | nil => rfl
  | cons p m ih =>
    obtain ⟨k, v⟩ := p
    by_cases h : k = key
    · have hko : k ≠ other := fun hk => hne (hk ▸ h)
      rw [mapDelete_cons_eq m k key v h]
      simp only [mapGet, if_neg hko]
      exact ih
    · rw [mapDelete_cons_ne m k key v h]
      by_cases hk : k = other
      · simp only [mapGet, if_pos hk]
      · simp only [mapGet, if_neg hk]
        exact ih

theorem mapGet_mapSet_self (m : List (String × KeyData)) (key : String) (v : KeyData) :
    mapGet (mapSet m key v) key = some v := by
  simp [mapSet, mapGet]

theorem mapGet_mapSet_other (m : List (String × KeyData)) (key other : String) (v : KeyData)
    (hne : other ≠ key) : mapGet (mapSet m key v) other = mapGet m other := by
  have h : key ≠ other := fun h => hne h.symm
  simp only [mapSet, mapGet, if_neg h]
  exact mapGet_mapDelete_other m key other hne

/-! ### Shard selection -/

theorem shardIndex_lt (me : MemoryEngine) (key : String) (hwf : me.WF) :
    me.shardIndex key < me.shards.length := by
  obtain ⟨hlen, hpos⟩ := hwf
  have h1 : me.shardIndex key < me.numShards % 2 ^ 32 :=
    Nat.mod_lt _ (Nat.pos_of_ne_zero hpos)
  have h2 : me.numShards % 2 ^ 32 ≤ me.numShards := Nat.mod_le _ _
  omega

theorem getShard_of_WF (me : MemoryEngine) (key : String) (hwf : me.WF) :
    ∃ shard, me.getShard key = some (me.shardIndex key, shard) ∧
      me.shards[me.shardIndex key]? = some shard := by
  have hlt := shardIndex_lt me key hwf
  refine ⟨me.shards[me.shardIndex key], ?_, List.getElem?_eq_getElem hlt⟩
  have hget : me.shards[fnv32a (toBytes key) % (me.numShards % 2 ^ 32)]?
      = some (me.shards[me.shardIndex key]) := List.getElem?_eq_getElem hlt
  unfold MemoryEngine.getShard
  rw [if_neg hwf.2, hget]
  rfl

theorem putShard_WF (me : MemoryEngine) (i : Nat) (data : List (String × KeyData))
    (hwf : me.WF) : (me.putShard i data).WF := by
  obtain ⟨hlen, hpos⟩ := hwf
  exact ⟨by simp [MemoryEngine.putShard, hlen], hpos⟩

theorem getShard_putShard_self (me : MemoryEngine) (key : String)
    (data : List (String × KeyData)) (hwf : me.WF) :
    (me.putShard (me.shardIndex key) data).getShard key
      = some (me.shardIndex key, ⟨data⟩) := by
  have hlt := shardIndex_lt me key hwf
  have hget : (me.shards.set (me.shardIndex key) ⟨data⟩)[fnv32a (toBytes key)
      % (me.numShards % 2 ^ 32)]? = some ⟨data⟩ := List.getElem?_set_self hlt
  unfold MemoryEngine.getShard MemoryEngine.putShard
  simp only []
  rw [if_neg hwf.2, hget]
  rfl

theorem record_putShard_self (me : MemoryEngine) (key : String)
    (data : List (String × KeyData)) (hwf : me.WF) :
    (me.putShard (me.shardIndex key) data).record key = mapGet data key := by
  unfold MemoryEngine.record
  rw [getShard_putShard_self me key data hwf]

theorem getShard_eq (me : MemoryEngine) (key : String) (hwf : me.WF) :
    me.getShard key = some (me.shardIndex key, ⟨me.shardData key⟩) := by
  obtain ⟨shard, hgs, _⟩ := getShard_of_WF me key hwf
  unfold MemoryEngine.shardData
  rw [hgs]

theorem record_eq (me : MemoryEngine) (key : String) (hwf : me.WF) :
    me.record key = mapGet (me.shardData key) key := by
  unfold MemoryEngine.record
  rw [getShard_eq me key hwf]

theorem putShard_activeEncryptor (me : MemoryEngine) (i : Nat)
    (data : List (String × KeyData)) :
    (me.putShard i data).activeEncryptor = me.activeEncryptor := rfl

theorem shardData_putShard_self (me : MemoryEngine) (key : String)
    (data : List (String × KeyData)) (hwf : me.WF) :
    (me.putShard (me.shardIndex key) data).shardData key = data := by
  unfold MemoryEngine.shardData
  rw [getShard_putShard_self me key data hwf]

theorem shardIndex_putShard (me : MemoryEngine) (i : Nat) (data : List (String × KeyData))
    (key : String) : (me.putShard i data).shardIndex key = me.shardIndex key := rfl

/-! ### The methods on a well-formed engine -/

theorem set_json_eq (me : MemoryEngine) (key : String) (j : JSON) (nonce : List Nat)
    (hwf : me.WF) :
    me.Set key (.json j) nonce
      = (none, me.putShard (me.shardIndex key)
          (mapSet (me.shardData key) key ⟨me.seal nonce (setBytes j), 0⟩)) := by
  have hgs := getShard_eq me key hwf
  unfold MemoryEngine.Set MemoryEngine.seal MemoryEngine.activeEncryptor
  cases j with
  | str s =>
    by_cases hw : isWrapped s = true
    · have hw2 : ((startsWithStr s "\x7b" && endsWithStr s "\x7d") ||
          (startsWithStr s "[" && endsWithStr s "]")) = true := hw
      simp only [setBytes, hw, hw2, if_true]
      cases me.useEncryption <;> cases me.encryptor <;>
        simp only [hgs, Encryptor.Encrypt]
    · have hw1 : isWrapped s = false := by simpa using hw
      have hw2 : ((startsWithStr s "\x7b" && endsWithStr s "\x7d") ||
          (startsWithStr s "[" && endsWithStr s "]")) = false := hw1
      simp only [setBytes, hw1, hw2, Bool.false_eq_true, if_false, jsonMarshal, marshalText]
      cases me.useEncryption <;> cases me.encryptor <;>
        simp only [hgs, Encryptor.Encrypt]
  | null =>
    simp only [setBytes]
    cases me.useEncryption <;> cases me.encryptor <;>
      simp only [hgs, Encryptor.Encrypt]
  | bool b =>
    simp only [setBytes, jsonMarshal]
    cases me.useEncryption <;> cases me.encryptor <;>
      simp only [hgs, Encryptor.Encrypt]
  | num n =>
    simp only [setBytes, jsonMarshal]
    cases me.useEncryption <;> cases me.encryptor <;>
      simp only [hgs, Encryptor.Encrypt]
  | arr items =>
    simp only [setBytes, jsonMarshal]
    cases me.useEncryption <;> cases me.encryptor <;>
      simp only [hgs, Encryptor.Encrypt]
  | obj fields =>
    simp only [setBytes, jsonMarshal]
    cases me.useEncryption <;> cases me.encryptor <;>
      simp only [hgs, Encryptor.Encrypt]

theorem set_raw_eq (me : MemoryEngine) (key : String) (bytes nonce : List Nat)
    (hwf : me.WF) :
    me.Set key (.rawString bytes) nonce
      = (none, me.putShard (me.shardIndex key)
          (mapSet (me.shardData key) key ⟨me.seal nonce (setRawBytes bytes), 0⟩)) := by
  have hgs := getShard_eq me key hwf
  unfold MemoryEngine.Set MemoryEngine.seal MemoryEngine.activeEncryptor
  by_cases hw : bytesWrapped bytes = true
  · have hw2 : ((bytesStartWith bytes 123 && bytesEndWith bytes 125) ||
        (bytesStartWith bytes 91 && bytesEndWith bytes 93)) = true := hw
    simp only [setRawBytes, hw, hw2, if_true]
    cases me.useEncryption <;> cases me.encryptor <;>
      simp only [hgs, Encryptor.Encrypt]
  · have hw1 : bytesWrapped bytes = false := by simpa using hw
    have hw2 : ((bytesStartWith bytes 123 && bytesEndWith bytes 125) ||
        (bytesStartWith bytes 91 && bytesEndWith bytes 93)) = false := hw1
    simp only [setRawBytes, hw1, hw2, Bool.false_eq_true, if_false, jsonMarshal]
    cases me.useEncryption <;> cases me.encryptor <;>
      simp only [hgs, Encryptor.Encrypt]

theorem set_encoded_eq (me : MemoryEngine) (key : String) (text nonce : List Nat)
    (hwf : me.WF) :
    me.Set key (.encoded text) nonce
      = (none, me.putShard (me.shardIndex key)
          (mapSet (me.shardData key) key ⟨me.seal nonce text, 0⟩)) := by
  have hgs := getShard_eq me key hwf
  unfold MemoryEngine.Set MemoryEngine.seal MemoryEngine.activeEncryptor
  simp only [jsonMarshal]
  cases me.useEncryption <;> cases me.encryptor <;>
    simp only [hgs, Encryptor.Encrypt]

theorem get_live_eq (me : MemoryEngine) (key : String) (now : Int) (data : KeyData)
    (hwf : me.WF) (hrec : me.record key = some data)
    (hlive : ¬ (data.ExpiresAt ≠ 0 ∧ data.ExpiresAt < now)) :
    me.Get key now = (me.unseal data.Value, me) := by
  have hgs := getShard_eq me key hwf
  rw [record_eq me key hwf] at hrec
  unfold MemoryEngine.Get MemoryEngine.unseal MemoryEngine.activeEncryptor
  simp only [hgs, hrec, if_neg hlive]
  cases me.useEncryption <;> cases me.encryptor <;> simp only []
  split <;> rfl

theorem unseal_seal (me : MemoryEngine) (nonce data : List Nat) (hn : nonce.length = 16) :
    me.unseal (me.seal nonce data) = .ok data := by
  unfold MemoryEngine.unseal MemoryEngine.seal
  cases h : me.activeEncryptor with
  | none => rfl
  | some enc =>
    simp only []
    rw [decrypt_append enc nonce data hn]

theorem get_absent_eq (me : MemoryEngine) (key : String) (now : Int)
    (hwf : me.WF) (hrec : me.record key = none) :
    me.Get key now = (.error .ErrKeyNotFound, me) := by
  have hgs := getShard_eq me key hwf
  rw [record_eq me key hwf] at hrec
  unfold MemoryEngine.Get
  simp only [hgs, hrec]

theorem get_expired_eq (me : MemoryEngine) (key : String) (now : Int) (data : KeyData)
    (hwf : me.WF) (hrec : me.record key = some data)
    (hexp : data.ExpiresAt ≠ 0 ∧ data.ExpiresAt < now) :
    me.Get key now = (.error .ErrKeyNotFound,
      me.putShard (me.shardIndex key) (mapDelete (me.shardData key) key)) := by
  have hgs := getShard_eq me key hwf
  rw [record_eq me key hwf] at hrec
  unfold MemoryEngine.Get
  simp only [hgs, hrec, if_pos hexp]

theorem ttl_absent_eq (me : MemoryEngine) (key : String) (now : Int)
    (hwf : me.WF) (hrec : me.record key = none) :
    me.TTL key now = (.ok (-2 * Second), me) := by
  have hgs := getShard_eq me key hwf
  rw [record_eq me key hwf] at hrec
  unfold MemoryEngine.TTL
  simp only [hgs, hrec]

theorem ttl_noexpiry_eq (me : MemoryEngine) (key : String) (now : Int) (data : KeyData)
    (hwf : me.WF) (hrec : me.record key = some data) (hzero : data.ExpiresAt = 0) :
    me.TTL key now = (.ok (-1 * Second), me) := by
  have hgs := getShard_eq me key hwf
  rw [record_eq me key hwf] at hrec
  unfold MemoryEngine.TTL
  simp only [hgs, hrec, if_pos hzero]

theorem ttl_expired_eq (me : MemoryEngine) (key : String) (now : Int) (data : KeyData)
    (hwf : me.WF) (hrec : me.record key = some data) (hnz : data.ExpiresAt ≠ 0)
    (hexp : timeUntil data.ExpiresAt now ≤ 0) :
    me.TTL key now = (.ok (-2 * Second),
      me.putShard (me.shardIndex key) (mapDelete (me.shardData key) key)) := by
  have hgs := getShard_eq me key hwf
  rw [record_eq me key hwf] at hrec
  unfold MemoryEngine.TTL
  simp only [hgs, hrec, if_neg hnz, if_pos hexp]

theorem ttl_live_eq (me : MemoryEngine) (key : String) (now : Int) (data : KeyData)
    (hwf : me.WF) (hrec : me.record key = some data) (hnz : data.ExpiresAt ≠ 0)
    (hlive : ¬ timeUntil data.ExpiresAt now ≤ 0) :
    me.TTL key now = (.ok (timeUntil data.ExpiresAt now), me) := by
  have hgs := getShard_eq me key hwf
  rw [record_eq me key hwf] at hrec
  unfold MemoryEngine.TTL
  simp only [hgs, hrec, if_neg hnz, if_neg hlive]

theorem setWithTTL_ok_eq (me : MemoryEngine) (key : String) (value : List Nat) (ttl now : Int)
    (hwf : me.WF) (httl : 0 < ttl) :
    me.SetWithTTL key value ttl now
      = (none, me.putShard (me.shardIndex key)
          (mapSet (me.shardData key) key ⟨value, now + ttl⟩)) := by
  have hgs := getShard_eq me key hwf
  have hnot : ¬ ttl ≤ 0 := by omega
  unfold MemoryEngine.SetWithTTL
  simp only [hgs, if_neg hnot]

theorem setWithTTL_fail_eq (me : MemoryEngine) (key : String) (value : List Nat)
    (ttl now : Int) (httl : ttl ≤ 0) :
    me.SetWithTTL key value ttl now = (some (.errorf "TTL must be positive"), me) := by
  unfold MemoryEngine.SetWithTTL
  rw [if_pos httl]

theorem record_after_put_set (me : MemoryEngine) (key : String) (v : KeyData)
    (hwf : me.WF) :
    (me.putShard (me.shardIndex key) (mapSet (me.shardData key) key v)).record key
      = some v := by
  rw [record_putShard_self me key _ hwf, mapGet_mapSet_self]

theorem record_after_put_delete (me : MemoryEngine) (key : String) (hwf : me.WF) :
    (me.putShard (me.shardIndex key) (mapDelete (me.shardData key) key)).record key
      = none := by
  rw [record_putShard_self me key _ hwf, mapGet_mapDelete_self]

theorem timeUntil_of_range (t now : Int) (hlo : minDuration ≤ t - now)
    (hhi : t - now ≤ maxDuration) : timeUntil t now = t - now := by
  unfold timeUntil timeSub
  rw [if_neg (by omega), if_neg (by omega)]

theorem timeUntil_nonpos (t now : Int) (h : t ≤ now) : timeUntil t now ≤ 0 := by
  unfold timeUntil timeSub minDuration maxDuration
  split
  · decide
  · split <;> omega

/-! ### Well-formed engines -/

theorem set_WF (me : MemoryEngine) (key : String) (value : GoValue) (nonce : List Nat)
    (hwf : me.WF) : (me.Set key value nonce).2.WF := by
  cases value with
  | json j =>
    rw [set_json_eq me key j nonce hwf]
    exact putShard_WF me _ _ hwf
  | unsupported => exact hwf
  | rawString bytes =>
    rw [set_raw_eq me key bytes nonce hwf]
    exact putShard_WF me _ _ hwf
  | encoded text =>
    rw [set_encoded_eq me key text nonce hwf]
    exact putShard_WF me _ _ hwf

theorem setWithTTL_WF (me : MemoryEngine) (key : String) (value : List Nat) (ttl now : Int)
    (hwf : me.WF) : (me.SetWithTTL key value ttl now).2.WF := by
  by_cases h : ttl ≤ 0
  · rw [setWithTTL_fail_eq me key value ttl now h]
    exact hwf
  · rw [setWithTTL_ok_eq me key value ttl now hwf (by omega)]
    exact putShard_WF me _ _ hwf

theorem get_WF (me : MemoryEngine) (key : String) (now : Int) (hwf : me.WF) :
    (me.Get key now).2.WF := by
  cases hrec : me.record key with
  | none =>
    rw [get_absent_eq me key now hwf hrec]
    exact hwf
  | some data =>
    by_cases hexp : data.ExpiresAt ≠ 0 ∧ data.ExpiresAt < now
    · rw [get_expired_eq me key now data hwf hrec hexp]
      exact putShard_WF me _ _ hwf
    · rw [get_live_eq me key now data hwf hrec hexp]
      exact hwf

theorem ttl_WF (me : MemoryEngine) (key : String) (now : Int) (hwf : me.WF) :
    (me.TTL key now).2.WF := by
  cases hrec : me.record key with
  | none =>
    rw [ttl_absent_eq me key now hwf hrec]
    exact hwf
  | some data =>
    by_cases hz : data.ExpiresAt = 0
    · rw [ttl_noexpiry_eq me key now data hwf hrec hz]
      exact hwf
    · by_cases hexp : timeUntil data.ExpiresAt now ≤ 0
      · rw [ttl_expired_eq me key now data hwf hrec hz hexp]
        exact putShard_WF me _ _ hwf
      · rw [ttl_live_eq me key now data hwf hrec hz hexp]
        exact hwf

theorem delete_WF (me : MemoryEngine) (key : String) (hwf : me.WF) :
    (me.Delete key).2.WF := by
  have hgs := getShard_eq me key hwf
  unfold MemoryEngine.Delete
  rw [hgs]
  simp only []
  split
  · exact hwf
  · exact putShard_WF me _ _ hwf

theorem resetMemory_WF (me : MemoryEngine) (hwf : me.WF) : me.ResetMemory.2.WF := by
  obtain ⟨hlen, hpos⟩ := hwf
  exact ⟨by simp [MemoryEngine.ResetMemory, hlen], hpos⟩

theorem restoreShards_length (dump : DumpData) (now : Int) (shards : List engineShard) :
    ∀ i, (restoreShards dump now i shards).2.length = shards.length := by
  induction shards with
  | nil => intro i; rfl
  | cons shard rest ih =>
    intro i
    unfold restoreShards
    simp only []
    split
    · rfl
    · simp [ih (i + 1)]

theorem restoreFromDisk_WF (me : MemoryEngine) (file : DumpFile) (now : Int) (hwf : me.WF) :
    (me.RestoreFromDisk file now).2.WF := by
  cases file with
  | missing => exact hwf
  | malformed => exact hwf
  | decoded dump =>
    obtain ⟨hlen, hpos⟩ := hwf
    exact ⟨by simp [MemoryEngine.RestoreFromDisk, restoreShards_length, hlen], hpos⟩

theorem newMemoryEngine_WF (aes : List Nat → List Nat → List Nat) (cfg : Config) (host : Host)
    (me : MemoryEngine) (hcpu : host.numCPU * 2 % 2 ^ 32 ≠ 0)
    (hok : NewMemoryEngine aes cfg host = .ok me) : me.WF := by
  unfold NewMemoryEngine at hok
  simp only [] at hok
  split at hok
  · cases hok
  · rename_i encryptor _
    have hbase : (⟨List.replicate (host.numCPU * 2) ⟨[]⟩, host.numCPU * 2, encryptor,
        cfg.EnableEncryption, cfg.Debug,
        if cfg.DumpPath ≠ "" then cfg.DumpPath else "data/dump"⟩ : MemoryEngine).WF :=
      ⟨by simp, hcpu⟩
    split at hok
    · split at hok
      · cases hok
      · split at hok
        · split at hok
          · cases hok
          · rename_i restored hres
            injection hok with hok
            subst hok
            have := restoreFromDisk_WF _ host.dumpFile host.now hbase
            rw [hres] at this
            exact this
        · injection hok with hok
          subst hok
          exact hbase
    · injection hok with hok
      subst hok
      exact hbase

/-! ### Time to live -/

/-- Claim C7: on a well-formed engine `TTL(k)` returns the sentinel of minus
one second when `k` is present with no expiry, in particular right after
`Set(k, v)`, and the sentinel of minus two seconds when `k` is absent; in both
cases the result is not an error and the engine is the one before the call. -/
theorem ttl_sentinels (me : MemoryEngine) (key : String) (now : Int) (hwf : me.WF) :
    (∀ data, me.record key = some data → data.ExpiresAt = 0 →
        me.TTL key now = (.ok (-1 * Second), me)) ∧
      (∀ j nonce, (me.Set key (.json j) nonce).2.TTL key now
        = (.ok (-1 * Second), (me.Set key (.json j) nonce).2)) ∧
      (me.record key = none → me.TTL key now = (.ok (-2 * Second), me)) := by
  refine ⟨fun data hrec hzero => ttl_noexpiry_eq me key now data hwf hrec hzero,
    fun j nonce => ?_, fun hrec => ttl_absent_eq me key now hwf hrec⟩
  rw [set_json_eq me key j nonce hwf]
  exact ttl_noexpiry_eq _ key now ⟨me.seal nonce (setBytes j), 0⟩
    (putShard_WF me _ _ hwf) (record_after_put_set me key _ hwf) rfl

/-- Claim C8: after `SetWithTTL(k, b, ttl)` at clock time `t0`, with a positive
`ttl`, a `TTL(k)` at a time `t1` with `t0 ≤ t1 < t0 + ttl` returns exactly
`(t0 + ttl) - t1`, which is positive and at most `ttl`; when `ttl` is 60 seconds
and `t1` is within a second of `t0`, the result lies between 59 and 61 seconds.
The clock reads a time not before the zero time, and `ttl` is a
`time.Duration`. -/
theorem ttl_after_setWithTTL (me : MemoryEngine) (key : String) (b : List Nat)
    (ttl t0 t1 : Int) (hwf : me.WF) (httl : 0 < ttl) (hdur : ttl ≤ maxDuration)
    (hclock : 0 ≤ t0) (h01 : t0 ≤ t1) (h1 : t1 < t0 + ttl) :
    (me.SetWithTTL key b ttl t0).1 = none ∧
      ((me.SetWithTTL key b ttl t0).2.TTL key t1).1 = .ok (t0 + ttl - t1) ∧
      0 < t0 + ttl - t1 ∧ t0 + ttl - t1 ≤ ttl ∧
      (ttl = 60 * Second → t1 ≤ t0 + Second →
        59 * Second ≤ t0 + ttl - t1 ∧ t0 + ttl - t1 ≤ 61 * Second) := by
  have hmin : minDuration ≤ t0 + ttl - t1 := by
    unfold minDuration; omega
  have hu : timeUntil (t0 + ttl) t1 = t0 + ttl - t1 :=
    timeUntil_of_range _ _ hmin (by omega)
  rw [setWithTTL_ok_eq me key b ttl t0 hwf httl]
  refine ⟨rfl, ?_, by omega, by omega, fun h60 hnear => ?_⟩
  · rw [ttl_live_eq _ key t1 ⟨b, t0 + ttl⟩ (putShard_WF me _ _ hwf)
      (record_after_put_set me key _ hwf) (by simp only []; omega)
      (by simp only []; omega)]
    simp only [hu]
  · unfold Second at *
    omega

/-- Witness of C8: sixty seconds set at the clock value `1000`, read back at
once on a fresh engine of two shards. -/
theorem ttl_after_setWithTTL_witness :
    ((⟨[⟨[]⟩, ⟨[]⟩], 2, none, false, false, "data/dump"⟩ : MemoryEngine).SetWithTTL
        "test:with-ttl" (toBytes "value") (60 * Second) 1000).1 = none ∧
      (((⟨[⟨[]⟩, ⟨[]⟩], 2, none, false, false, "data/dump"⟩ : MemoryEngine).SetWithTTL
        "test:with-ttl" (toBytes "value") (60 * Second) 1000).2.TTL "test:with-ttl" 1000).1
        = .ok (1000 + 60 * Second - 1000) ∧
      0 < 1000 + 60 * Second - 1000 ∧ 1000 + 60 * Second - 1000 ≤ 60 * Second ∧
      (60 * Second = 60 * Second → (1000 : Int) ≤ 1000 + Second →
        59 * Second ≤ 1000 + 60 * Second - 1000 ∧
          1000 + 60 * Second - 1000 ≤ 61 * Second) :=
  ttl_after_setWithTTL ⟨[⟨[]⟩, ⟨[]⟩], 2, none, false, false, "data/dump"⟩ "test:with-ttl"
    (toBytes "value") (60 * Second) 1000 1000 (by decide) (by decide) (by decide)
    (by decide) (by decide) (by decide)

/-- Witness of C7: a record without expiry gives minus one second, a key
just written by `Set` gives minus one second, an absent key gives minus two
seconds, and the engine is each time the one before the call. -/
theorem ttl_sentinels_witness :
    (⟨[⟨[("test:no-ttl", ⟨[34, 118, 34], 0⟩)]⟩], 1, none, false, false, "dump"⟩ :
        MemoryEngine).TTL "test:no-ttl" 1000
        = (.ok (-1 * Second),
          ⟨[⟨[("test:no-ttl", ⟨[34, 118, 34], 0⟩)]⟩], 1, none, false, false, "dump"⟩) ∧
      ((⟨[⟨[]⟩, ⟨[]⟩], 2, none, false, false, "dump"⟩ : MemoryEngine).Set
          "test:no-ttl" (.json (.str "value")) []).2.TTL "test:no-ttl" 1000
        = (.ok (-1 * Second),
          ((⟨[⟨[]⟩, ⟨[]⟩], 2, none, false, false, "dump"⟩ : MemoryEngine).Set
            "test:no-ttl" (.json (.str "value")) []).2) ∧
      (⟨[⟨[]⟩, ⟨[]⟩], 2, none, false, false, "dump"⟩ : MemoryEngine).TTL "missing" 1000
        = (.ok (-2 * Second), ⟨[⟨[]⟩, ⟨[]⟩], 2, none, false, false, "dump"⟩) :=
  ⟨(ttl_sentinels ⟨[⟨[("test:no-ttl", ⟨[34, 118, 34], 0⟩)]⟩], 1, none, false, false, "dump"⟩
      "test:no-ttl" 1000 (by decide)).1 ⟨[34, 118, 34], 0⟩ rfl rfl,
    (ttl_sentinels ⟨[⟨[]⟩, ⟨[]⟩], 2, none, false, false, "dump"⟩ "test:no-ttl" 1000
      (by decide)).2.1 (.str "value") [],
    (ttl_sentinels ⟨[⟨[]⟩, ⟨[]⟩], 2, none, false, false, "dump"⟩ "missing" 1000
      (by decide)).2.2 rfl⟩

/-- Claim C9: after `SetWithTTL(k, b, ttl)` at clock time `t0`, at every time
`t` later than `t0 + ttl` the call `Get(k)` returns NotFound and the call
`TTL(k)` returns minus two seconds, and after either call the engine holds no
record for `k`. -/
theorem lazy_expiry (me : MemoryEngine) (key : String) (b : List Nat) (ttl t0 t : Int)
    (hwf : me.WF) (httl : 0 < ttl) (hclock : 0 ≤ t0) (ht : t0 + ttl < t) :
    ((me.SetWithTTL key b ttl t0).2.Get key t).1 = .error .ErrKeyNotFound ∧
      ((me.SetWithTTL key b ttl t0).2.Get key t).2.record key = none ∧
      ((me.SetWithTTL key b ttl t0).2.TTL key t).1 = .ok (-2 * Second) ∧
      ((me.SetWithTTL key b ttl t0).2.TTL key t).2.record key = none := by
  rw [setWithTTL_ok_eq me key b ttl t0 hwf httl]
  have hwf1 := putShard_WF me (me.shardIndex key)
    (mapSet (me.shardData key) key ⟨b, t0 + ttl⟩) hwf
  have hrec := record_after_put_set me key ⟨b, t0 + ttl⟩ hwf
  have hnz : t0 + ttl ≠ 0 := by omega
  rw [get_expired_eq _ key t ⟨b, t0 + ttl⟩ hwf1 hrec ⟨hnz, ht⟩,
    ttl_expired_eq _ key t ⟨b, t0 + ttl⟩ hwf1 hrec hnz (timeUntil_nonpos (t0 + ttl) t (by omega))]
  exact ⟨rfl, record_after_put_delete _ key hwf1, rfl, record_after_put_delete _ key hwf1⟩

/-- Witness of C9: sixty seconds set at the clock value `1000` and read a
nanosecond after the expiry instant. -/
theorem lazy_expiry_witness :
    (((⟨[⟨[]⟩, ⟨[]⟩], 2, none, false, false, "data/dump"⟩ : MemoryEngine).SetWithTTL
        "k" [1, 2] (60 * Second) 1000).2.Get "k" (1001 + 60 * Second)).1
        = .error .ErrKeyNotFound ∧
      (((⟨[⟨[]⟩, ⟨[]⟩], 2, none, false, false, "data/dump"⟩ : MemoryEngine).SetWithTTL
        "k" [1, 2] (60 * Second) 1000).2.Get "k" (1001 + 60 * Second)).2.record "k"
        = none ∧
      (((⟨[⟨[]⟩, ⟨[]⟩], 2, none, false, false, "data/dump"⟩ : MemoryEngine).SetWithTTL
        "k" [1, 2] (60 * Second) 1000).2.TTL "k" (1001 + 60 * Second)).1
        = .ok (-2 * Second) ∧
      (((⟨[⟨[]⟩, ⟨[]⟩], 2, none, false, false, "data/dump"⟩ : MemoryEngine).SetWithTTL
        "k" [1, 2] (60 * Second) 1000).2.TTL "k" (1001 + 60 * Second)).2.record "k"
        = none :=
  lazy_expiry ⟨[⟨[]⟩, ⟨[]⟩], 2, none, false, false, "data/dump"⟩ "k" [1, 2] (60 * Second)
    1000 (1001 + 60 * Second) (by decide) (by decide) (by decide) (by decide)

/-- Claim C10: on a well-formed engine `SetWithTTL(k, b, ttl)` returns an error
exactly when `ttl ≤ 0`, and then the engine is the one before the call; with a
positive `ttl` it returns no error and the record of `k` holds `b` itself, byte
for byte, with `expires_at = now + ttl`. -/
theorem setWithTTL_contract (me : MemoryEngine) (key : String) (b : List Nat)
    (ttl now : Int) (hwf : me.WF) :
    ((∃ err, (me.SetWithTTL key b ttl now).1 = some err) ↔ ttl ≤ 0) ∧
      (ttl ≤ 0 → (me.SetWithTTL key b ttl now).2 = me) ∧
      (0 < ttl → (me.SetWithTTL key b ttl now).1 = none ∧
        (me.SetWithTTL key b ttl now).2.record key = some ⟨b, now + ttl⟩) := by
  by_cases h : ttl ≤ 0
  · rw [setWithTTL_fail_eq me key b ttl now h]
    exact ⟨⟨fun _ => h, fun _ => ⟨_, rfl⟩⟩, fun _ => rfl, fun hpos => absurd h (by omega)⟩
  · rw [setWithTTL_ok_eq me key b ttl now hwf (by omega)]
    refine ⟨⟨fun ⟨err, herr⟩ => ?_, fun h0 => absurd h0 h⟩, fun h0 => absurd h0 h,
      fun _ => ⟨rfl, record_after_put_set me key _ hwf⟩⟩
    cases herr

/-- Witness of C10: a zero `ttl` over an existing record is refused and the
engine is unchanged; the positive branch is used at sixty seconds. -/
theorem setWithTTL_contract_witness :
    ((⟨[⟨[("k", ⟨[9], 0⟩)]⟩], 1, none, false, false, "data/dump"⟩ : MemoryEngine).SetWithTTL
        "k" [1, 2] 0 1000).2
        = ⟨[⟨[("k", ⟨[9], 0⟩)]⟩], 1, none, false, false, "data/dump"⟩ ∧
      (((⟨[⟨[("k", ⟨[9], 0⟩)]⟩], 1, none, false, false, "data/dump"⟩ :
          MemoryEngine).SetWithTTL "k" [1, 2] (60 * Second) 1000).1 = none ∧
        ((⟨[⟨[("k", ⟨[9], 0⟩)]⟩], 1, none, false, false, "data/dump"⟩ :
          MemoryEngine).SetWithTTL "k" [1, 2] (60 * Second) 1000).2.record "k"
          = some ⟨[1, 2], 1000 + 60 * Second⟩) :=
  ⟨(setWithTTL_contract ⟨[⟨[("k", ⟨[9], 0⟩)]⟩], 1, none, false, false, "data/dump"⟩ "k"
      [1, 2] 0 1000 (by decide)).2.1 (by decide),
    (setWithTTL_contract ⟨[⟨[("k", ⟨[9], 0⟩)]⟩], 1, none, false, false, "data/dump"⟩ "k"
      [1, 2] (60 * Second) 1000 (by decide)).2.2 (by decide)⟩

/-! ### UTF-8 and JSON string literals -/

theorem char_range (c : Char) : c.toNat < 55296 ∨ (57343 < c.toNat ∧ c.toNat < 1114112) := by
  have := c.valid
  simp only [UInt32.isValidChar, Nat.isValidChar] at this
  exact this

theorem decodeRune_one (b0 : Nat) (rest : List Nat) (h0 : b0 < 128) :
    decodeRune (b0 :: rest) = (b0, 1) := by
  simp [decodeRune, h0]

theorem decodeRune_two (b0 b1 : Nat) (rest : List Nat) (h0 : ¬ b0 < 128)
    (hc : 194 ≤ b0 ∧ b0 < 224 ∧ isCont b1) :
    decodeRune (b0 :: b1 :: rest) = ((b0 - 192) * 64 + (b1 - 128), 2) := by
  simp [decodeRune, h0, hc]

theorem decodeRune_three (b0 b1 b2 : Nat) (rest : List Nat) (h0 : ¬ b0 < 128)
    (h2 : ¬ (194 ≤ b0 ∧ b0 < 224 ∧ isCont b1))
    (hc : 224 ≤ b0 ∧ b0 < 240 ∧ isCont b1 ∧ isCont b2 ∧
      2048 ≤ (b0 - 224) * 4096 + (b1 - 128) * 64 + (b2 - 128) ∧
      ¬ (55296 ≤ (b0 - 224) * 4096 + (b1 - 128) * 64 + (b2 - 128) ∧
        (b0 - 224) * 4096 + (b1 - 128) * 64 + (b2 - 128) < 57344)) :
    decodeRune (b0 :: b1 :: b2 :: rest)
      = ((b0 - 224) * 4096 + (b1 - 128) * 64 + (b2 - 128), 3) := by
  unfold decodeRune
  simp only [List.getD_cons_zero, List.getD_cons_succ]
  rw [if_neg h0, if_neg h2, if_pos hc]

theorem decodeRune_four (b0 b1 b2 b3 : Nat) (rest : List Nat) (h0 : ¬ b0 < 128)
    (h2 : ¬ (194 ≤ b0 ∧ b0 < 224 ∧ isCont b1))
    (h3 : ¬ (224 ≤ b0 ∧ b0 < 240 ∧ isCont b1 ∧ isCont b2 ∧
      2048 ≤ (b0 - 224) * 4096 + (b1 - 128) * 64 + (b2 - 128) ∧
      ¬ (55296 ≤ (b0 - 224) * 4096 + (b1 - 128) * 64 + (b2 - 128) ∧
        (b0 - 224) * 4096 + (b1 - 128) * 64 + (b2 - 128) < 57344)))
    (hc : 240 ≤ b0 ∧ b0 < 248 ∧ isCont b1 ∧ isCont b2 ∧ isCont b3 ∧
      65536 ≤ (b0 - 240) * 262144 + (b1 - 128) * 4096 + (b2 - 128) * 64 + (b3 - 128) ∧
      (b0 - 240) * 262144 + (b1 - 128) * 4096 + (b2 - 128) * 64 + (b3 - 128) < 1114112) :
    decodeRune (b0 :: b1 :: b2 :: b3 :: rest)
      = ((b0 - 240) * 262144 + (b1 - 128) * 4096 + (b2 - 128) * 64 + (b3 - 128), 4) := by
  unfold decodeRune
  simp only [List.getD_cons_zero, List.getD_cons_succ]
  rw [if_neg h0, if_neg h2, if_neg h3, if_pos hc]

theorem decodeRune_encode (c : Char) (rest : List Nat) :
    decodeRune (utf8EncodeChar c ++ rest) = (c.toNat, (utf8EncodeChar c).length) := by
  have hr := char_range c
  unfold utf8EncodeChar
  split_ifs with h1 h2 h3
  · exact decodeRune_one _ _ h1
  · have hv : (192 + c.toNat / 64 - 192) * 64 + (128 + c.toNat % 64 - 128) = c.toNat := by
      omega
    have := decodeRune_two (192 + c.toNat / 64) (128 + c.toNat % 64) rest (by omega)
      (by unfold isCont; omega)
    rw [hv] at this
    exact this
  · have hv : (224 + c.toNat / 4096 - 224) * 4096 + (128 + c.toNat / 64 % 64 - 128) * 64
        + (128 + c.toNat % 64 - 128) = c.toNat := by omega
    have := decodeRune_three (224 + c.toNat / 4096) (128 + c.toNat / 64 % 64)
      (128 + c.toNat % 64) rest (by omega) (by omega)
      (by rw [hv]; unfold isCont; omega)
    rw [hv] at this
    exact this
  · have hv : (240 + c.toNat / 262144 - 240) * 262144 + (128 + c.toNat / 4096 % 64 - 128) * 4096
        + (128 + c.toNat / 64 % 64 - 128) * 64 + (128 + c.toNat % 64 - 128) = c.toNat := by
      omega
    have := decodeRune_four (240 + c.toNat / 262144) (128 + c.toNat / 4096 % 64)
      (128 + c.toNat / 64 % 64) (128 + c.toNat % 64) rest (by omega) (by omega) (by omega)
      (by rw [hv]; unfold isCont; omega)
    rw [hv] at this
    exact this

theorem utf8EncodeChar_length_pos (c : Char) : 0 < (utf8EncodeChar c).length := by
  unfold utf8EncodeChar
  split_ifs <;> simp

theorem fromBytesFuel_encode (cs : List Char) :
    ∀ fuel, (cs.flatMap utf8EncodeChar).length ≤ fuel →
      fromBytesFuel fuel (cs.flatMap utf8EncodeChar) = cs := by
  induction cs with
  | nil =>
    intro fuel _
    cases fuel <;> rfl
  | cons c cs ih =>
    intro fuel hfuel
    have hpos := utf8EncodeChar_length_pos c
    rw [List.flatMap_cons, List.length_append] at hfuel
    obtain ⟨f, rfl⟩ : ∃ f, fuel = f + 1 := ⟨fuel - 1, by omega⟩
    obtain ⟨b, bs, hbs⟩ : ∃ b bs, utf8EncodeChar c = b :: bs := by
      cases h : utf8EncodeChar c with
      | nil => rw [h] at hpos; cases hpos
      | cons b bs => exact ⟨b, bs, rfl⟩
    have hdec := decodeRune_encode c (cs.flatMap utf8EncodeChar)
    rw [List.flatMap_cons]
    rw [hbs] at hdec ⊢
    rw [List.cons_append] at hdec ⊢
    unfold fromBytesFuel
    rw [hdec]
    simp only [Char.ofNat_toNat]
    rw [← List.cons_append, List.drop_left]
    rw [ih f (by rw [hbs, List.length_cons] at hfuel; omega)]

theorem fromBytes_toBytes (s : String) : fromBytes (toBytes s) = s.data :=
  fromBytesFuel_encode s.data _ (le_refl _)

theorem hexVal_hexDigit (n : Nat) (h : n < 16) : hexVal (hexDigit n) = some n := by
  interval_cases n <;> rfl

theorem char_eq_of_toNat (c : Char) (n : Nat) (h : c.toNat = n) : c = Char.ofNat n := by
  rw [← h, Char.ofNat_toNat]

theorem getu4_low (n : Nat) (tail : List Char) (h : n < 256) :
    getu4 ('0' :: '0' :: hexDigit (n / 16) :: hexDigit (n % 16) :: tail) = some n := by
  have h0 : hexVal '0' = some 0 := rfl
  have h1 := hexVal_hexDigit (n / 16) (by omega)
  have h2 := hexVal_hexDigit (n % 16) (by omega)
  simp only [getu4, h0, h1, h2]
  congr 1
  omega

theorem getu4_line (n : Nat) (tail : List Char) (h : n = 8232 ∨ n = 8233) :
    getu4 ('2' :: '0' :: '2' :: hexDigit (n % 16) :: tail) = some n := by
  rcases h with h | h <;> subst h <;> rfl

theorem unquoteBody_unicode (c : Char) (digits tail : List Char) (f : Nat)
    (hlen : digits.length = 4)
    (hu : getu4 (digits ++ tail) = some c.toNat) (hlow : c.toNat < 55296) :
    unquoteBody (f + 1) ('\\' :: 'u' :: (digits ++ tail)) = pushChar c (unquoteBody f tail) := by
  have hd : (digits ++ tail).drop 4 = tail := by
    rw [← hlen]; exact List.drop_left _ _
  have hns : ¬ (55296 ≤ c.toNat ∧ c.toNat < 57344) := by omega
  simp [unquoteBody, hu, hns, hd, Char.ofNat_toNat]

theorem unquoteBody_step (c : Char) (tail : List Char) (f : Nat) :
    unquoteBody (f + 1) (escapeChar c ++ tail) = pushChar c (unquoteBody f tail) := by
  unfold escapeChar
  split_ifs with h1 h2 h3 h4 h5 h6 h7 h8
  · rcases h1 with h | h <;> subst h <;> simp [unquoteBody, unescapeSimple]
  · have := char_eq_of_toNat c 8 h2
    subst this
    simp [unquoteBody, unescapeSimple]
  · have := char_eq_of_toNat c 12 h3
    subst this
    simp [unquoteBody, unescapeSimple]
  · subst h4; simp [unquoteBody, unescapeSimple]
  · subst h5; simp [unquoteBody, unescapeSimple]
  · subst h6; simp [unquoteBody, unescapeSimple]
  · have hn : c.toNat < 256 := by
      rcases h7 with h | h | h | h
      · omega
      · subst h; decide
      · subst h; decide
      · subst h; decide
    exact unquoteBody_unicode c ['0', '0', hexDigit (c.toNat / 16), hexDigit (c.toNat % 16)]
      tail f rfl (getu4_low c.toNat tail hn) (by omega)
  · exact unquoteBody_unicode c ['2', '0', '2', hexDigit (c.toNat % 16)]
      tail f rfl (getu4_line c.toNat tail h8) (by omega)
  · have hq : c ≠ '"' := fun h => h1 (Or.inr h)
    have hb : c ≠ '\\' := fun h => h1 (Or.inl h)
    have h32 : ¬ c.toNat < 32 := fun h => h7 (Or.inl h)
    simp [unquoteBody, hq, hb, h32]

theorem unquoteBody_escaped (cs rest : List Char) :
    ∀ fuel, (cs.flatMap escapeChar).length < fuel →
      unquoteBody fuel (cs.flatMap escapeChar ++ '"' :: rest) = some (cs, rest) := by
  induction cs with
  | nil =>
    intro fuel hfuel
    obtain ⟨f, rfl⟩ : ∃ f, fuel = f + 1 := ⟨fuel - 1, by simp at hfuel; omega⟩
    simp [unquoteBody]
  | cons c cs ih =>
    intro fuel hfuel
    obtain ⟨f, rfl⟩ : ∃ f, fuel = f + 1 := ⟨fuel - 1, by omega⟩
    have hpos : 0 < (escapeChar c).length := by
      unfold escapeChar
      split_ifs <;> simp
    have hf : (cs.flatMap escapeChar).length < f := by
      simp only [List.flatMap_cons, List.length_append] at hfuel
      omega
    rw [List.flatMap_cons, List.append_assoc, unquoteBody_step, ih f hf]
    rfl

theorem decodeString_quote (s : String) : decodeString (quote s) = some s := by
  have hbody := unquoteBody_escaped s.data [] ((s.data.flatMap escapeChar ++ ['"']).length + 1)
    (by rw [List.length_append]; omega)
  have hds : List.dropWhile isSpace (quote s) = '"' :: (s.data.flatMap escapeChar ++ ['"']) := by
    unfold quote
    rw [List.dropWhile_cons_of_neg (by decide)]
  unfold decodeString
  rw [hds]
  simp only [if_true, hbody, List.all_nil]

theorem unmarshalString_quote (s : String) :
    unmarshalString (toBytes (String.mk (quote s))) = some s := by
  unfold unmarshalString
  rw [fromBytes_toBytes]
  exact decodeString_quote s

/-! ### Set followed by Get -/

theorem setBytes_of_plain (j : JSON) (hplain : ∀ s, j = .str s → isWrapped s = false) :
    setBytes j = toBytes (String.mk (marshalText j)) := by
  cases j with
  | str s =>
    have hw := hplain s rfl
    simp only [setBytes, hw, Bool.false_eq_true, if_false, marshalText]
  | null => rfl
  | bool b => rfl
  | num n => rfl
  | arr items => rfl
  | obj fields => rfl

theorem get_after_setWithTTL (me : MemoryEngine) (key : String) (b : List Nat)
    (ttl t0 t1 : Int) (hwf : me.WF) (httl : 0 < ttl) (h1 : t1 ≤ t0 + ttl) :
    ((me.SetWithTTL key b ttl t0).2.Get key t1).1 = me.unseal b := by
  rw [setWithTTL_ok_eq me key b ttl t0 hwf httl]
  rw [get_live_eq _ key t1 ⟨b, t0 + ttl⟩ (putShard_WF me _ _ hwf)
    (record_after_put_set me key _ hwf) (fun h => absurd h.2 (by simp only []; omega))]
  rfl

/-- Claim C6, the code at the failing input: on the engine `NewMemoryEngine`
builds with encryption enabled, `SetWithTTL` stores the caller's five bytes
unencrypted, and the `Get` that follows, before the expiry, fails on decrypting
them; a value of sixteen bytes comes back as the empty byte string; a value
written by `Set` is returned as stored. -/
theorem setWithTTL_not_encrypted :
    ∃ me, NewMemoryEngine toyAes encryptedConfig smallHost = .ok me ∧
      me.WF ∧ me.activeEncryptor.isSome = true ∧
      (me.SetWithTTL "k" (toBytes "value") (60 * Second) 1000).1 = none ∧
      (me.SetWithTTL "k" (toBytes "value") (60 * Second) 1000).2.record "k"
        = some ⟨toBytes "value", 1000 + 60 * Second⟩ ∧
      ((me.SetWithTTL "k" (toBytes "value") (60 * Second) 1000).2.Get "k" 1000).1
        = .error (.errorf "decryption failed: encrypted data too short: 5 bytes") ∧
      ((me.SetWithTTL "k" (List.replicate 16 65) (60 * Second) 1000).2.Get "k" 1000).1
        = .ok [] ∧
      ((me.Set "k" (.json (.str "value")) (List.range 16)).2.Get "k" 1000).1
        = .ok (toBytes "\"value\"") :=
  ⟨_, rfl, by decide, rfl, rfl, rfl, rfl, rfl, rfl⟩

/-! ### Set over an expiring record, and Delete -/

theorem delete_absent_eq (me : MemoryEngine) (key : String) (hwf : me.WF)
    (hrec : me.record key = none) : me.Delete key = (some .ErrKeyNotFound, me) := by
  have hgs := getShard_eq me key hwf
  rw [record_eq me key hwf] at hrec
  unfold MemoryEngine.Delete
  simp only [hgs, hrec]

theorem delete_present_eq (me : MemoryEngine) (key : String) (data : KeyData) (hwf : me.WF)
    (hrec : me.record key = some data) :
    me.Delete key
      = (none, me.putShard (me.shardIndex key) (mapDelete (me.shardData key) key)) := by
  have hgs := getShard_eq me key hwf
  rw [record_eq me key hwf] at hrec
  unfold MemoryEngine.Delete
  simp only [hgs, hrec]

/-- Claim C12: on a well-formed engine `Delete(k)` returns NotFound exactly
when `k` has no record, and the engine is then the one before the call;
otherwise it returns no error and removes the record, so that the `Get(k)` that
follows returns NotFound and the `TTL(k)` that follows returns minus two
seconds. -/
theorem delete_contract (me : MemoryEngine) (key : String) (now : Int) (hwf : me.WF) :
    ((me.Delete key).1 = some .ErrKeyNotFound ↔ me.record key = none) ∧
      (me.record key = none → (me.Delete key).2 = me) ∧
      (me.record key ≠ none →
        (me.Delete key).1 = none ∧ (me.Delete key).2.record key = none ∧
          ((me.Delete key).2.Get key now).1 = .error .ErrKeyNotFound ∧
          ((me.Delete key).2.TTL key now).1 = .ok (-2 * Second)) := by
  cases hrec : me.record key with
  | none =>
    rw [delete_absent_eq me key hwf hrec]
    exact ⟨⟨fun _ => rfl, fun _ => rfl⟩, fun _ => rfl, fun h => absurd rfl h⟩
  | some data =>
    rw [delete_present_eq me key data hwf hrec]
    have hwf1 := putShard_WF me (me.shardIndex key) (mapDelete (me.shardData key) key) hwf
    have hnone := record_after_put_delete me key hwf
    refine ⟨⟨fun h => ?_, fun h => ?_⟩, fun h => ?_, fun _ => ⟨rfl, hnone, ?_, ?_⟩⟩
    · cases h
    · cases h
    · cases h
    · rw [get_absent_eq _ key now hwf1 hnone]
    · rw [ttl_absent_eq _ key now hwf1 hnone]

/-- Witness of C12: deleting a present key of a one-shard engine. -/
theorem delete_contract_witness :
    ((⟨[⟨[("k", ⟨[9], 0⟩)]⟩], 1, none, false, false, "dump"⟩ : MemoryEngine).Delete "k").1
        = none ∧
      ((⟨[⟨[("k", ⟨[9], 0⟩)]⟩], 1, none, false, false, "dump"⟩ : MemoryEngine).Delete
        "k").2.record "k" = none ∧
      (((⟨[⟨[("k", ⟨[9], 0⟩)]⟩], 1, none, false, false, "dump"⟩ : MemoryEngine).Delete
        "k").2.Get "k" 5).1 = .error .ErrKeyNotFound ∧
      (((⟨[⟨[("k", ⟨[9], 0⟩)]⟩], 1, none, false, false, "dump"⟩ : MemoryEngine).Delete
        "k").2.TTL "k" 5).1 = .ok (-2 * Second) :=
  (delete_contract ⟨[⟨[("k", ⟨[9], 0⟩)]⟩], 1, none, false, false, "dump"⟩ "k" 5
    (by decide)).2.2 (by decide)

/-! ### Dump and restore -/

theorem restoreShards_shards_eq (d1 d2 : DumpData) (now : Int) (h : d1.Shards = d2.Shards)
    (shards : List engineShard) :
    ∀ i, restoreShards d1 now i shards = restoreShards d2 now i shards := by
  induction shards with
  | nil => intro i; rfl
  | cons shard rest ih =>
    intro i
    unfold restoreShards
    rw [h, ih (i + 1)]

theorem dumpToDisk_ok (me : MemoryEngine) (now : Int) (io : DumpIO) (file : DumpFile)
    (hok : (me.DumpToDisk now io file).1 = none) :
    (me.DumpToDisk now io file).2 = .decoded ⟨1, now, dumpShards now 0 me.shards⟩ := by
  obtain ⟨a, b, c, d, e⟩ := io
  unfold MemoryEngine.DumpToDisk at hok ⊢
  cases a <;> cases b <;> cases c <;> cases d <;> cases e <;>
    first | rfl | (simp only [] at hok; cases hok)

theorem mapGet_of_not_mem (m : List (String × KeyData)) (key : String)
    (h : key ∉ m.map Prod.fst) : mapGet m key = none := by
  induction m with
  | nil => rfl
  | cons p m ih =>
    obtain ⟨k, v⟩ := p
    simp only [List.map_cons, List.mem_cons, not_or] at h
    have hk : k ≠ key := fun hk => h.1 hk.symm
    simp only [mapGet, if_neg hk]
    exact ih h.2

theorem dumpShard_cons_expired (now : Int) (k : String) (v : KeyData)
    (m : List (String × KeyData)) (h : expiredAt v now = true) :
    dumpShard now ((k, v) :: m) = dumpShard now m := by
  simp [dumpShard, h]

theorem dumpShard_cons_live (now : Int) (k : String) (v : KeyData)
    (m : List (String × KeyData)) (h : expiredAt v now = false) :
    dumpShard now ((k, v) :: m) = (k, some v) :: dumpShard now m := by
  simp [dumpShard, h]

theorem restoreRecords_cons_expired (now : Int) (k : String) (v : KeyData)
    (rest : List (String × Option KeyData)) (acc : List (String × KeyData))
    (h : expiredAt v now = true) :
    restoreRecords now ((k, some v) :: rest) acc = restoreRecords now rest acc := by
  have h2 : v.ExpiresAt ≠ 0 ∧ v.ExpiresAt < now := by
    simpa [expiredAt] using h
  simp only [restoreRecords, if_pos h2]

theorem restoreRecords_cons_live (now : Int) (k : String) (v : KeyData)
    (rest : List (String × Option KeyData)) (acc : List (String × KeyData))
    (h : expiredAt v now = false) :
    restoreRecords now ((k, some v) :: rest) acc
      = restoreRecords now rest (mapSet acc k v) := by
  have h2 : ¬ (v.ExpiresAt ≠ 0 ∧ v.ExpiresAt < now) := by
    intro hc
    have : expiredAt v now = true := by simpa [expiredAt] using hc
    rw [h] at this
    cases this
  simp only [restoreRecords, if_neg h2]

theorem restoreRecords_dumpShard_flag (td tr : Int) (data : List (String × KeyData)) :
    ∀ acc, (restoreRecords tr (dumpShard td data) acc).1 = true := by
  induction data with
  | nil => intro acc; rfl
  | cons p m ih =>
    intro acc
    obtain ⟨k, v⟩ := p
    cases hd : expiredAt v td with
    | true => rw [dumpShard_cons_expired td k v m hd]; exact ih acc
    | false =>
      rw [dumpShard_cons_live td k v m hd]
      cases hr : expiredAt v tr with
      | true => rw [restoreRecords_cons_expired tr k v _ acc hr]; exact ih acc
      | false => rw [restoreRecords_cons_live tr k v _ acc hr]; exact ih _

theorem restoreRecords_dumpShard_get (td tr : Int) (key : String)
    (data : List (String × KeyData)) (hvalid : validMap data) :
    ∀ acc, mapGet (restoreRecords tr (dumpShard td data) acc).2 key
      = match mapGet data key with
        | some v => if expiredAt v td || expiredAt v tr then mapGet acc key else some v
        | none => mapGet acc key := by
  induction data with
  | nil => intro acc; rfl
  | cons p m ih =>
    intro acc
    obtain ⟨k, v⟩ := p
    have hnd : k ∉ m.map Prod.fst ∧ validMap m := by
      simpa [validMap] using hvalid
    have ih := ih hnd.2
    by_cases hk : k = key
    · subst hk
      have hnone := mapGet_of_not_mem m k hnd.1
      simp only [mapGet, if_true]
      cases hd : expiredAt v td with
      | true =>
        rw [dumpShard_cons_expired td k v m hd, ih acc, hnone]
        simp
      | false =>
        rw [dumpShard_cons_live td k v m hd]
        cases hr : expiredAt v tr with
        | true =>
          rw [restoreRecords_cons_expired tr k v _ acc hr, ih acc, hnone]
          simp
        | false =>
          rw [restoreRecords_cons_live tr k v _ acc hr, ih _, hnone]
          simp [mapGet_mapSet_self]
    · have hkey : key ≠ k := fun h => hk h.symm
      simp only [mapGet, if_neg hk]
      cases hd : expiredAt v td with
      | true => rw [dumpShard_cons_expired td k v m hd, ih acc]
      | false =>
        rw [dumpShard_cons_live td k v m hd]
        cases hr : expiredAt v tr with
        | true => rw [restoreRecords_cons_expired tr k v _ acc hr, ih acc]
        | false =>
          rw [restoreRecords_cons_live tr k v _ acc hr, ih _,
            mapGet_mapSet_other acc k key v hkey]

theorem lookupShard_dumpShards (now : Int) (shards : List engineShard) :
    ∀ (s i : Nat) (h : i < shards.length),
      lookupShard (dumpShards now s shards) (Int.ofNat (s + i))
        = some (dumpShard now shards[i].data) := by
  induction shards with
  | nil => intro s i h; cases h
  | cons shard rest ih =>
    intro s i h
    cases i with
    | zero => simp [dumpShards, lookupShard]
    | succ i =>
      have hne : ¬ ((Int.ofNat s : Int) = Int.ofNat (s + (i + 1))) := by
        simp only [Int.ofNat_eq_coe]; omega
      have hidx : s + (i + 1) = (s + 1) + i := by omega
      simp only [dumpShards, lookupShard, if_neg hne, List.getElem_cons_succ]
      rw [hidx]
      exact ih (s + 1) i (by simpa using h)

theorem restoreShards_of_dump (dump : DumpData) (td tr : Int) :
    ∀ (fresh src : List engineShard) (s : Nat), src.length = fresh.length →
      (∀ (i : Nat) (h : i < src.length),
        lookupShard dump.Shards (Int.ofNat (s + i)) = some (dumpShard td src[i].data)) →
      restoreShards dump tr s fresh
        = (none, src.map (fun sh => ⟨(restoreRecords tr (dumpShard td sh.data) []).2⟩)) := by
  intro fresh
  induction fresh with
  | nil =>
    intro src s hlen _
    have : src = [] := List.length_eq_zero.mp hlen
    subst this
    rfl
  | cons f fresh ih =>
    intro src s hlen hlook
    cases src with
    | nil => cases hlen
    | cons sh src =>
      have h0 := hlook 0 (by simp)
      simp only [Nat.add_zero, List.getElem_cons_zero] at h0
      have hrest := ih src (s + 1) (by simpa using hlen) (fun i h => by
        have := hlook (i + 1) (by simpa using h)
        simp only [List.getElem_cons_succ] at this
        have hidx : s + 1 + i = s + (i + 1) := by omega
        rw [hidx]
        exact this)
      have hflag := restoreRecords_dumpShard_flag td tr sh.data []
      unfold restoreShards
      simp only [h0]
      rw [hrest]
      cases hrr : restoreRecords tr (dumpShard td sh.data) [] with
      | mk flag data =>
        rw [hrr] at hflag
        simp only [] at hflag
        subst hflag
        simp [hrr]

theorem restoreFromDisk_of_dump (me fresh : MemoryEngine) (td tr : Int)
    (hlen : me.shards.length = fresh.shards.length) :
    fresh.RestoreFromDisk (.decoded ⟨1, td, dumpShards td 0 me.shards⟩) tr
      = (none, ⟨me.shards.map (fun sh => ⟨(restoreRecords tr (dumpShard td sh.data) []).2⟩),
          fresh.numShards, fresh.encryptor, fresh.useEncryption, fresh.debug,
          fresh.dumpPath⟩) := by
  have h := restoreShards_of_dump ⟨1, td, dumpShards td 0 me.shards⟩ td tr fresh.shards
    me.shards 0 hlen (fun i hi => by
      have := lookupShard_dumpShards td me.shards 0 i hi
      simpa using this)
  unfold MemoryEngine.RestoreFromDisk
  simp only [h]

theorem record_of_restored (me fresh : MemoryEngine) (td tr : Int) (key : String)
    (hwf : me.WF) (hwf2 : fresh.WF) (hn : fresh.numShards = me.numShards) :
    (⟨me.shards.map (fun sh => ⟨(restoreRecords tr (dumpShard td sh.data) []).2⟩),
        fresh.numShards, fresh.encryptor, fresh.useEncryption, fresh.debug,
        fresh.dumpPath⟩ : MemoryEngine).record key
      = mapGet (restoreRecords tr (dumpShard td (me.shardData key)) []).2 key := by
  obtain ⟨shard, hgs, hget⟩ := getShard_of_WF me key hwf
  have hsd : me.shardData key = shard.data := by
    unfold MemoryEngine.shardData
    rw [hgs]
  have hpos : ¬ (fresh.numShards % 2 ^ 32 = 0) := hwf2.2
  have hidx : fnv32a (toBytes key) % (fresh.numShards % 2 ^ 32) = me.shardIndex key := by
    rw [hn]; rfl
  unfold MemoryEngine.record MemoryEngine.getShard
  simp only [if_neg hpos, hidx, List.getElem?_map, hget, Option.map_some', hsd]

theorem unseal_congr (me1 me2 : MemoryEngine) (stored : List Nat)
    (henc : me1.activeEncryptor = me2.activeEncryptor) :
    me1.unseal stored = me2.unseal stored := by
  unfold MemoryEngine.unseal
  rw [henc]

theorem get_result_congr (me1 me2 : MemoryEngine) (key : String) (t : Int)
    (hwf1 : me1.WF) (hwf2 : me2.WF) (hrec : me1.record key = me2.record key)
    (henc : me1.activeEncryptor = me2.activeEncryptor) :
    (me1.Get key t).1 = (me2.Get key t).1 := by
  cases h2 : me2.record key with
  | none =>
    rw [h2] at hrec
    rw [get_absent_eq me1 key t hwf1 hrec, get_absent_eq me2 key t hwf2 h2]
  | some data =>
    rw [h2] at hrec
    by_cases hexp : data.ExpiresAt ≠ 0 ∧ data.ExpiresAt < t
    · rw [get_expired_eq me1 key t data hwf1 hrec hexp,
        get_expired_eq me2 key t data hwf2 h2 hexp]
    · rw [get_live_eq me1 key t data hwf1 hrec hexp, get_live_eq me2 key t data hwf2 h2 hexp]
      exact unseal_congr me1 me2 _ henc

theorem ttl_result_congr (me1 me2 : MemoryEngine) (key : String) (t : Int)
    (hwf1 : me1.WF) (hwf2 : me2.WF) (hrec : me1.record key = me2.record key) :
    (me1.TTL key t).1 = (me2.TTL key t).1 := by
  cases h2 : me2.record key with
  | none =>
    rw [h2] at hrec
    rw [ttl_absent_eq me1 key t hwf1 hrec, ttl_absent_eq me2 key t hwf2 h2]
  | some data =>
    rw [h2] at hrec
    by_cases hz : data.ExpiresAt = 0
    · rw [ttl_noexpiry_eq me1 key t data hwf1 hrec hz,
        ttl_noexpiry_eq me2 key t data hwf2 h2 hz]
    · by_cases hexp : timeUntil data.ExpiresAt t ≤ 0
      · rw [ttl_expired_eq me1 key t data hwf1 hrec hz hexp,
          ttl_expired_eq me2 key t data hwf2 h2 hz hexp]
      · rw [ttl_live_eq me1 key t data hwf1 hrec hz hexp,
          ttl_live_eq me2 key t data hwf2 h2 hz hexp]

theorem validMap_shardData (me : MemoryEngine) (key : String) (hwf : me.WF)
    (hvalid : me.validMaps) : validMap (me.shardData key) := by
  obtain ⟨shard, hgs, hget⟩ := getShard_of_WF me key hwf
  have hsd : me.shardData key = shard.data := by
    unfold MemoryEngine.shardData
    rw [hgs]
  rw [hsd]
  exact hvalid shard (List.getElem?_mem hget)

/-- The round trip of dump and restore between engines of one shard count: let
a well-formed engine whose shard maps have pairwise different keys dump at time
`td` without an I/O error, and let a well-formed engine with the same shard
count and the same encryptor restore that file at time `tr`.  The restore
returns no error; a key whose record was expired
neither at `td` nor at `tr` has the same record after the restore, so that
`Get` and `TTL` return at every time what they return on the original; a key
whose record was expired at `td` has no record and `Get` returns NotFound. -/
theorem dump_restore_roundtrip (me fresh : MemoryEngine) (io : DumpIO) (file : DumpFile)
    (td tr : Int) (hwf : me.WF) (hvalid : me.validMaps) (hwf2 : fresh.WF)
    (hn : fresh.numShards = me.numShards)
    (henc : fresh.activeEncryptor = me.activeEncryptor)
    (hdump : (me.DumpToDisk td io file).1 = none) :
    (fresh.RestoreFromDisk (me.DumpToDisk td io file).2 tr).1 = none ∧
      ∀ key data, me.record key = some data →
        (expiredAt data td = false → expiredAt data tr = false →
          (fresh.RestoreFromDisk (me.DumpToDisk td io file).2 tr).2.record key = some data ∧
          ∀ t, ((fresh.RestoreFromDisk (me.DumpToDisk td io file).2 tr).2.Get key t).1
              = (me.Get key t).1 ∧
            ((fresh.RestoreFromDisk (me.DumpToDisk td io file).2 tr).2.TTL key t).1
              = (me.TTL key t).1) ∧
        (expiredAt data td = true →
          (fresh.RestoreFromDisk (me.DumpToDisk td io file).2 tr).2.record key = none ∧
          ∀ t, ((fresh.RestoreFromDisk (me.DumpToDisk td io file).2 tr).2.Get key t).1
              = .error .ErrKeyNotFound) := by
  have hlen : me.shards.length = fresh.shards.length := by
    rw [hwf.1, hwf2.1, hn]
  rw [dumpToDisk_ok me td io file hdump, restoreFromDisk_of_dump me fresh td tr hlen]
  have hwf3 : (⟨me.shards.map (fun sh => ⟨(restoreRecords tr (dumpShard td sh.data) []).2⟩),
      fresh.numShards, fresh.encryptor, fresh.useEncryption, fresh.debug,
      fresh.dumpPath⟩ : MemoryEngine).WF := ⟨by simp [hwf.1, hn], hwf2.2⟩
  refine ⟨rfl, fun key data hrec => ?_⟩
  have hrec' := hrec
  rw [record_eq me key hwf] at hrec'
  have hget := restoreRecords_dumpShard_get td tr key (me.shardData key)
    (validMap_shardData me key hwf hvalid) []
  rw [hrec'] at hget
  have hrr := record_of_restored me fresh td tr key hwf hwf2 hn
  refine ⟨fun h1 h2 => ?_, fun h1 => ?_⟩
  · have hsame : (⟨me.shards.map
          (fun sh => ⟨(restoreRecords tr (dumpShard td sh.data) []).2⟩),
        fresh.numShards, fresh.encryptor, fresh.useEncryption, fresh.debug,
        fresh.dumpPath⟩ : MemoryEngine).record key = some data := by
      rw [hrr, hget]
      simp [h1, h2]
    refine ⟨hsame, fun t => ⟨?_, ?_⟩⟩
    · exact get_result_congr _ me key t hwf3 hwf (by rw [hsame, hrec]) henc
    · exact ttl_result_congr _ me key t hwf3 hwf (by rw [hsame, hrec])
  · have hnone : (⟨me.shards.map
          (fun sh => ⟨(restoreRecords tr (dumpShard td sh.data) []).2⟩),
        fresh.numShards, fresh.encryptor, fresh.useEncryption, fresh.debug,
        fresh.dumpPath⟩ : MemoryEngine).record key = none := by
      rw [hrr, hget]
      simp [h1, mapGet]
    refine ⟨hnone, fun t => ?_⟩
    rw [get_absent_eq _ key t hwf3 hnone]

/-- The round trip at a one-shard engine with a lasting record `a` and a record
`b` that expired before the dump: after dump and restore `a` is read as on the
original and `b` is gone. -/
theorem dump_restore_roundtrip_witness :
    ((⟨[⟨[]⟩], 1, none, false, false, "dump"⟩ : MemoryEngine).RestoreFromDisk
        ((⟨[⟨[("a", ⟨[49], 0⟩), ("b", ⟨[50], 500⟩)]⟩], 1, none, false, false, "dump"⟩ :
          MemoryEngine).DumpToDisk 1000 dumpIOok .missing).2 2000).1 = none ∧
      (∀ t, (((⟨[⟨[]⟩], 1, none, false, false, "dump"⟩ : MemoryEngine).RestoreFromDisk
          ((⟨[⟨[("a", ⟨[49], 0⟩), ("b", ⟨[50], 500⟩)]⟩], 1, none, false, false, "dump"⟩ :
            MemoryEngine).DumpToDisk 1000 dumpIOok .missing).2 2000).2.Get "a" t).1
          = ((⟨[⟨[("a", ⟨[49], 0⟩), ("b", ⟨[50], 500⟩)]⟩], 1, none, false, false, "dump"⟩ :
            MemoryEngine).Get "a" t).1 ∧
        (((⟨[⟨[]⟩], 1, none, false, false, "dump"⟩ : MemoryEngine).RestoreFromDisk
          ((⟨[⟨[("a", ⟨[49], 0⟩), ("b", ⟨[50], 500⟩)]⟩], 1, none, false, false, "dump"⟩ :
            MemoryEngine).DumpToDisk 1000 dumpIOok .missing).2 2000).2.TTL "a" t).1
          = ((⟨[⟨[("a", ⟨[49], 0⟩), ("b", ⟨[50], 500⟩)]⟩], 1, none, false, false, "dump"⟩ :
            MemoryEngine).TTL "a" t).1) ∧
      (∀ t, (((⟨[⟨[]⟩], 1, none, false, false, "dump"⟩ : MemoryEngine).RestoreFromDisk
          ((⟨[⟨[("a", ⟨[49], 0⟩), ("b", ⟨[50], 500⟩)]⟩], 1, none, false, false, "dump"⟩ :
            MemoryEngine).DumpToDisk 1000 dumpIOok .missing).2 2000).2.Get "b" t).1
          = .error .ErrKeyNotFound) :=
  ⟨(dump_restore_roundtrip
      ⟨[⟨[("a", ⟨[49], 0⟩), ("b", ⟨[50], 500⟩)]⟩], 1, none, false, false, "dump"⟩
      ⟨[⟨[]⟩], 1, none, false, false, "dump"⟩ dumpIOok .missing 1000 2000
      (by decide) (by decide) (by decide) rfl rfl rfl).1,
    (((dump_restore_roundtrip
      ⟨[⟨[("a", ⟨[49], 0⟩), ("b", ⟨[50], 500⟩)]⟩], 1, none, false, false, "dump"⟩
      ⟨[⟨[]⟩], 1, none, false, false, "dump"⟩ dumpIOok .missing 1000 2000
      (by decide) (by decide) (by decide) rfl rfl rfl).2 "a" ⟨[49], 0⟩ rfl).1 rfl rfl).2,
    (((dump_restore_roundtrip
      ⟨[⟨[("a", ⟨[49], 0⟩), ("b", ⟨[50], 500⟩)]⟩], 1, none, false, false, "dump"⟩
      ⟨[⟨[]⟩], 1, none, false, false, "dump"⟩ dumpIOok .missing 1000 2000
      (by decide) (by decide) (by decide) rfl rfl rfl).2 "b" ⟨[50], 500⟩ rfl).2 rfl).2⟩

/-- Claim C16, amended: `RestoreFromDisk` does not examine the version field;
for every decoded dump file, whatever its version, it returns the same result
and leaves the same engine as for the file with the version replaced. -/
theorem restore_ignores_version (me : MemoryEngine) (dump : DumpData) (version : Int)
    (now : Int) :
    me.RestoreFromDisk (.decoded ⟨version, dump.Timestamp, dump.Shards⟩) now
      = me.RestoreFromDisk (.decoded dump) now := by
  have h := restoreShards_shards_eq ⟨version, dump.Timestamp, dump.Shards⟩ dump now rfl
    me.shards 0
  unfold MemoryEngine.RestoreFromDisk
  simp only [h]

/-- Counterexample to C16 as stated: a dump file of version 2 is restored
without error and its record is loaded. -/
theorem restore_accepts_other_version :
    ((engineOn 1).RestoreFromDisk
        (.decoded ⟨2, 0, [(0, [("a", some ⟨[49], 0⟩)]), (1, [])]⟩) 1000).1 = none ∧
      ((engineOn 1).RestoreFromDisk
        (.decoded ⟨2, 0, [(0, [("a", some ⟨[49], 0⟩)]), (1, [])]⟩) 1000).2.record "a"
        = some ⟨[49], 0⟩ ∧
      (((engineOn 1).RestoreFromDisk
        (.decoded ⟨2, 0, [(0, [("a", some ⟨[49], 0⟩)]), (1, [])]⟩) 1000).2.Get "a" 1000).1
        = .ok [49] :=
  ⟨rfl, rfl, rfl⟩

/-- Claim C17: when the canonical dump file is missing or does not decode,
`RestoreFromDisk` returns an error and the engine, every shard of it, is the
one before the call. -/
theorem restore_failure_atomic (me : MemoryEngine) (file : DumpFile) (now : Int)
    (hfile : file = .missing ∨ file = .malformed) :
    (∃ err, (me.RestoreFromDisk file now).1 = some err) ∧
      (me.RestoreFromDisk file now).2 = me := by
  rcases hfile with h | h <;> subst h
  · exact ⟨⟨_, rfl⟩, rfl⟩
  · exact ⟨⟨_, rfl⟩, rfl⟩

/-- Witness of C17: a file that does not decode, over an engine that holds a
record. -/
theorem restore_failure_atomic_witness :
    (∃ err, ((⟨[⟨[("a", ⟨[49], 0⟩)]⟩], 1, none, false, false, "dump"⟩ :
        MemoryEngine).RestoreFromDisk .malformed 1000).1 = some err) ∧
      ((⟨[⟨[("a", ⟨[49], 0⟩)]⟩], 1, none, false, false, "dump"⟩ :
        MemoryEngine).RestoreFromDisk .malformed 1000).2
        = ⟨[⟨[("a", ⟨[49], 0⟩)]⟩], 1, none, false, false, "dump"⟩ :=
  restore_failure_atomic ⟨[⟨[("a", ⟨[49], 0⟩)]⟩], 1, none, false, false, "dump"⟩
    .malformed 1000 (Or.inr rfl)

/-- Claim C18, the code at the failing input: an engine built on a host with
one CPU (two shards) stores `key1`, which hashes to its shard 1, and dumps; an
engine built on a host with two CPUs (four shards) restores that file without
error.  The record then sits in shard 1, while `key1` hashes to shard 3 of
four, so `Get` reports NotFound, `TTL` reports minus two seconds and `Delete`
reports NotFound for a key the engine holds. -/
theorem restore_misplaces_key :
    NewMemoryEngine toyAes plainConfig ⟨1, none, .missing, 0⟩ = .ok (engineOn 1) ∧
      NewMemoryEngine toyAes plainConfig ⟨2, none, .missing, 0⟩ = .ok (engineOn 2) ∧
      ((engineOn 1).Set "key1" (.json (.str "v")) []).2.shardIndex "key1" = 1 ∧
      (((engineOn 1).Set "key1" (.json (.str "v")) []).2.DumpToDisk 1000 dumpIOok
        .missing).1 = none ∧
      ((engineOn 2).RestoreFromDisk
        (((engineOn 1).Set "key1" (.json (.str "v")) []).2.DumpToDisk 1000 dumpIOok
          .missing).2 2000).1 = none ∧
      ((engineOn 2).RestoreFromDisk
        (((engineOn 1).Set "key1" (.json (.str "v")) []).2.DumpToDisk 1000 dumpIOok
          .missing).2 2000).2.shards
        = [⟨[]⟩, ⟨[("key1", ⟨[34, 118, 34], 0⟩)]⟩, ⟨[]⟩, ⟨[]⟩] ∧
      ((engineOn 2).RestoreFromDisk
        (((engineOn 1).Set "key1" (.json (.str "v")) []).2.DumpToDisk 1000 dumpIOok
          .missing).2 2000).2.shardIndex "key1" = 3 ∧
      (((engineOn 2).RestoreFromDisk
        (((engineOn 1).Set "key1" (.json (.str "v")) []).2.DumpToDisk 1000 dumpIOok
          .missing).2 2000).2.Get "key1" 2000).1 = .error .ErrKeyNotFound ∧
      (((engineOn 2).RestoreFromDisk
        (((engineOn 1).Set "key1" (.json (.str "v")) []).2.DumpToDisk 1000 dumpIOok
          .missing).2 2000).2.TTL "key1" 2000).1 = .ok (-2 * Second) ∧
      (((engineOn 2).RestoreFromDisk
        (((engineOn 1).Set "key1" (.json (.str "v")) []).2.DumpToDisk 1000 dumpIOok
          .missing).2 2000).2.Delete "key1").1 = some .ErrKeyNotFound :=
  ⟨rfl, rfl, by decide, rfl, rfl, by decide, by decide, rfl, rfl, rfl⟩

/-! ### Shard maps keep pairwise different keys -/

theorem validMap_mapDelete (m : List (String × KeyData)) (key : String) (h : validMap m) :
    validMap (mapDelete m key) := by
  unfold validMap mapDelete at *
  exact h.sublist (List.Sublist.map _ (List.filter_sublist m))

theorem validMap_mapSet (m : List (String × KeyData)) (key : String) (v : KeyData)
    (h : validMap m) : validMap (mapSet m key v) := by
  have hd := validMap_mapDelete m key h
  unfold validMap mapSet at *
  rw [List.map_cons, List.nodup_cons]
  refine ⟨?_, hd⟩
  intro hmem
  rw [List.mem_map] at hmem
  obtain ⟨p, hp, hk⟩ := hmem
  unfold mapDelete at hp
  rw [List.mem_filter] at hp
  simp at hp
  exact hp.2 hk

theorem putShard_validMaps (me : MemoryEngine) (i : Nat) (data : List (String × KeyData))
    (h : me.validMaps) (hd : validMap data) : (me.putShard i data).validMaps := by
  intro shard hmem
  unfold MemoryEngine.putShard at hmem
  rcases List.mem_or_eq_of_mem_set hmem with h1 | h1
  · exact h shard h1
  · subst h1; exact hd

theorem set_validMaps (me : MemoryEngine) (key : String) (value : GoValue) (nonce : List Nat)
    (hwf : me.WF) (h : me.validMaps) : (me.Set key value nonce).2.validMaps := by
  cases value with
  | json j =>
    rw [set_json_eq me key j nonce hwf]
    exact putShard_validMaps me _ _ h
      (validMap_mapSet _ key _ (validMap_shardData me key hwf h))
  | unsupported => exact h
  | rawString bytes =>
    rw [set_raw_eq me key bytes nonce hwf]
    exact putShard_validMaps me _ _ h
      (validMap_mapSet _ key _ (validMap_shardData me key hwf h))
  | encoded text =>
    rw [set_encoded_eq me key text nonce hwf]
    exact putShard_validMaps me _ _ h
      (validMap_mapSet _ key _ (validMap_shardData me key hwf h))

theorem setWithTTL_validMaps (me : MemoryEngine) (key : String) (value : List Nat)
    (ttl now : Int) (hwf : me.WF) (h : me.validMaps) :
    (me.SetWithTTL key value ttl now).2.validMaps := by
  by_cases httl : ttl ≤ 0
  · rw [setWithTTL_fail_eq me key value ttl now httl]
    exact h
  · rw [setWithTTL_ok_eq me key value ttl now hwf (by omega)]
    exact putShard_validMaps me _ _ h
      (validMap_mapSet _ key _ (validMap_shardData me key hwf h))

theorem get_validMaps (me : MemoryEngine) (key : String) (now : Int) (hwf : me.WF)
    (h : me.validMaps) : (me.Get key now).2.validMaps := by
  cases hrec : me.record key with
  | none =>
    rw [get_absent_eq me key now hwf hrec]
    exact h
  | some data =>
    by_cases hexp : data.ExpiresAt ≠ 0 ∧ data.ExpiresAt < now
    · rw [get_expired_eq me key now data hwf hrec hexp]
      exact putShard_validMaps me _ _ h
        (validMap_mapDelete _ key (validMap_shardData me key hwf h))
    · rw [get_live_eq me key now data hwf hrec hexp]
      exact h

theorem ttl_validMaps (me : MemoryEngine) (key : String) (now : Int) (hwf : me.WF)
    (h : me.validMaps) : (me.TTL key now).2.validMaps := by
  cases hrec : me.record key with
  | none =>
    rw [ttl_absent_eq me key now hwf hrec]
    exact h
  | some data =>
    by_cases hz : data.ExpiresAt = 0
    · rw [ttl_noexpiry_eq me key now data hwf hrec hz]
      exact h
    · by_cases hexp : timeUntil data.ExpiresAt now ≤ 0
      · rw [ttl_expired_eq me key now data hwf hrec hz hexp]
        exact putShard_validMaps me _ _ h
          (validMap_mapDelete _ key (validMap_shardData me key hwf h))
      · rw [ttl_live_eq me key now data hwf hrec hz hexp]
        exact h

theorem delete_validMaps (me : MemoryEngine) (key : String) (hwf : me.WF)
    (h : me.validMaps) : (me.Delete key).2.validMaps := by
  cases hrec : me.record key with
  | none =>
    rw [delete_absent_eq me key hwf hrec]
    exact h
  | some data =>
    rw [delete_present_eq me key data hwf hrec]
    exact putShard_validMaps me _ _ h
      (validMap_mapDelete _ key (validMap_shardData me key hwf h))

theorem resetMemory_validMaps (me : MemoryEngine) : me.ResetMemory.2.validMaps := by
  intro shard hmem
  unfold MemoryEngine.ResetMemory at hmem
  simp only [List.mem_map] at hmem
  obtain ⟨_, _, rfl⟩ := hmem
  exact List.nodup_nil

/-! ### GetByPattern and ResetMemory -/

theorem simpleCompile_GoRegexp : GoRegexp simpleCompile := by
  intro expr items h
  refine ⟨⟨fun s => search items s.data⟩, ?_, fun s => rfl⟩
  unfold simpleCompile
  rw [h]

theorem matchShards_of_empty (me : MemoryEngine) (re : Regexp)
    (hempty : ∀ shard ∈ me.shards, shard.data = []) :
    ∀ count i, i + count ≤ me.shards.length → me.matchShards re i count = .ok [] := by
  intro count
  induction count with
  | zero => intro i _; rfl
  | succ count ih =>
    intro i hi
    have hlt : i < me.shards.length := by omega
    have hget : me.shards[i]? = some me.shards[i] := List.getElem?_eq_getElem hlt
    have hdata : me.shards[i].data = [] := hempty _ (List.getElem_mem hlt)
    unfold MemoryEngine.matchShards
    rw [hget]
    simp only [hdata, MemoryEngine.matchShard, ih (i + 1) (by omega), List.append_nil]

theorem resetMemory_record (me : MemoryEngine) (key : String) (hwf : me.WF) :
    me.ResetMemory.2.record key = none := by
  have hwf1 := resetMemory_WF me hwf
  obtain ⟨shard, hgs, hget⟩ := getShard_of_WF me.ResetMemory.2 key hwf1
  have hmem : shard ∈ me.ResetMemory.2.shards := List.getElem?_mem hget
  unfold MemoryEngine.ResetMemory at hmem
  simp only [List.mem_map] at hmem
  obtain ⟨_, _, rfl⟩ := hmem
  unfold MemoryEngine.record
  rw [hgs]
  rfl

/-- Claim C14: on a well-formed engine `ResetMemory()` returns no error, and
afterwards `GetByPattern("*")` returns no match, `Get(k)` returns NotFound and
`TTL(k)` returns minus two seconds for every key `k` at every time.  The
function `compile` is `regexp.Compile`, as far as it is modelled. -/
theorem resetMemory_empties (compile : String → Except String Regexp) (me : MemoryEngine)
    (hgo : GoRegexp compile) (hwf : me.WF) :
    me.ResetMemory.1 = none ∧
      me.ResetMemory.2.GetByPattern compile "*" = .ok [] ∧
      ∀ (key : String) (t : Int),
        (me.ResetMemory.2.Get key t).1 = .error .ErrKeyNotFound ∧
          (me.ResetMemory.2.TTL key t).1 = .ok (-2 * Second) := by
  have hwf1 := resetMemory_WF me hwf
  refine ⟨rfl, ?_, fun key t => ?_⟩
  · obtain ⟨re, hre, _⟩ := hgo (globToRegexp "*") [⟨.any, true⟩] (by decide)
    have hempty : ∀ shard ∈ me.ResetMemory.2.shards, shard.data = [] := by
      intro shard hmem
      unfold MemoryEngine.ResetMemory at hmem
      simp only [List.mem_map] at hmem
      obtain ⟨_, _, rfl⟩ := hmem
      rfl
    unfold MemoryEngine.GetByPattern
    rw [hre]
    exact matchShards_of_empty _ re hempty _ 0 (by rw [hwf1.1]; omega)
  · have hrec := resetMemory_record me key hwf
    rw [get_absent_eq _ key t hwf1 hrec, ttl_absent_eq _ key t hwf1 hrec]
    exact ⟨rfl, rfl⟩

/-- Witness of C14: the two keys of the reset test, then `ResetMemory`. -/
theorem resetMemory_empties_witness :
    (((engineOn 1).Set "test:key1" (.json (.str "value1")) []).2.Set "test:key2"
        (.json (.str "value2")) []).2.ResetMemory.2.GetByPattern simpleCompile "*" = .ok [] ∧
      ∀ (key : String) (t : Int),
        ((((engineOn 1).Set "test:key1" (.json (.str "value1")) []).2.Set "test:key2"
          (.json (.str "value2")) []).2.ResetMemory.2.Get key t).1
          = .error .ErrKeyNotFound ∧
        ((((engineOn 1).Set "test:key1" (.json (.str "value1")) []).2.Set "test:key2"
          (.json (.str "value2")) []).2.ResetMemory.2.TTL key t).1 = .ok (-2 * Second) :=
  (resetMemory_empties simpleCompile
    (((engineOn 1).Set "test:key1" (.json (.str "value1")) []).2.Set "test:key2"
      (.json (.str "value2")) []).2 simpleCompile_GoRegexp (by decide)).2

/-- Claim C13, the code at the failing input: with the keys `post:1` and
`post:10` stored, `GetByPattern("post:1")` returns both keys, although only
`post:1` matches the pattern as a whole; with `regexp.Compile` as far as it is
modelled. -/
theorem getByPattern_unanchored (compile : String → Except String Regexp)
    (hgo : GoRegexp compile) :
    (((engineOn 1).Set "post:1" (.json (.str "a")) []).2.Set "post:10"
        (.json (.str "b")) []).2.GetByPattern compile "post:1"
      = .ok [⟨"post:10", [34, 98, 34]⟩, ⟨"post:1", [34, 97, 34]⟩] := by
  obtain ⟨re, hre, hmatch⟩ := hgo (globToRegexp "post:1")
    [⟨.lit 'p', false⟩, ⟨.lit 'o', false⟩, ⟨.lit 's', false⟩, ⟨.lit 't', false⟩,
      ⟨.lit ':', false⟩, ⟨.lit '1', false⟩] (by decide)
  have h1 : re.MatchString "post:1" = true := by rw [hmatch]; decide
  have h10 : re.MatchString "post:10" = true := by rw [hmatch]; decide
  unfold MemoryEngine.GetByPattern
  rw [hre]
  have hshards : (((engineOn 1).Set "post:1" (.json (.str "a")) []).2.Set "post:10"
      (.json (.str "b")) []).2
      = ⟨[⟨[("post:10", ⟨[34, 98, 34], 0⟩), ("post:1", ⟨[34, 97, 34], 0⟩)]⟩, ⟨[]⟩], 2, none,
        false, false, "data/dump"⟩ := by
    rfl
  rw [hshards]
  simp [MemoryEngine.matchShards, MemoryEngine.matchShard, h1, h10]

/-- Witness of C13: the same call with the simple model of `regexp.Compile`. -/
theorem getByPattern_unanchored_witness :
    (((engineOn 1).Set "post:1" (.json (.str "a")) []).2.Set "post:10"
        (.json (.str "b")) []).2.GetByPattern simpleCompile "post:1"
      = .ok [⟨"post:10", [34, 98, 34]⟩, ⟨"post:1", [34, 97, 34]⟩] :=
  getByPattern_unanchored simpleCompile simpleCompile_GoRegexp

/-! ### The connection handler before authentication -/

theorem fieldsAux_token (tok : List Char) (hns : ∀ c ∈ tok, isGoSpace c = false) :
    ∀ (cur rest : List Char), fieldsAux cur (tok ++ rest) = fieldsAux (tok.reverse ++ cur) rest := by
  induction tok with
  | nil => intro cur rest; rfl
  | cons c tok ih =>
    intro cur rest
    have hc : isGoSpace c = false := hns c (List.mem_cons_self c tok)
    have htok : ∀ d ∈ tok, isGoSpace d = false := fun d hd => hns d (List.mem_cons_of_mem c hd)
    rw [List.cons_append, fieldsAux]
    simp only [hc, Bool.false_eq_true, if_false]
    rw [ih htok (c :: cur) rest, List.reverse_cons, List.append_assoc]
    rfl

theorem fields_auth (p : String) (hne : p.data ≠ [])
    (hns : ∀ c ∈ p.data, isGoSpace c = false) :
    fields (String.mk ("AUTH ".data ++ p.data)) = ["AUTH", p] := by
  have h1 : ("AUTH ".data ++ p.data) = ['A', 'U', 'T', 'H'] ++ (' ' :: p.data) := rfl
  have hauth : ∀ c ∈ ['A', 'U', 'T', 'H'], isGoSpace c = false := by decide
  have hp := fieldsAux_token p.data hns [] []
  rw [List.append_nil, List.append_nil] at hp
  have hrev : p.data.reverse ≠ [] := fun h => hne (List.reverse_eq_nil_iff.mp h)
  unfold fields
  simp only [h1]
  rw [fieldsAux_token _ hauth [] (' ' :: p.data)]
  simp only [List.reverse_cons, List.reverse_nil, List.nil_append, List.cons_append,
    List.append_nil, fieldsAux]
  rw [hp]
  simp [fieldsAux, hrev, isGoSpace]

theorem trimSpace_auth (p : String) (hne : p.data ≠ [])
    (hns : ∀ c ∈ p.data, isGoSpace c = false) :
    trimSpace (String.mk ("AUTH ".data ++ p.data ++ ['\n']))
      = String.mk ("AUTH ".data ++ p.data) := by
  obtain ⟨l, init, hrev⟩ : ∃ l init, p.data.reverse = l :: init := by
    cases h : p.data.reverse with
    | nil => exact absurd (List.reverse_eq_nil_iff.mp h) hne
    | cons l init => exact ⟨l, init, rfl⟩
  have hl : isGoSpace l = false := by
    apply hns
    rw [← List.mem_reverse, hrev]
    exact List.mem_cons_self l init
  have hfront : List.dropWhile isGoSpace ("AUTH ".data ++ p.data ++ ['\n'])
      = "AUTH ".data ++ p.data ++ ['\n'] := by
    show List.dropWhile isGoSpace ('A' :: _) = _
    rw [List.dropWhile_cons_of_neg (by decide)]
    rfl
  have hback : List.dropWhile isGoSpace ("AUTH ".data ++ p.data ++ ['\n']).reverse
      = ("AUTH ".data ++ p.data).reverse := by
    rw [List.reverse_append]
    show List.dropWhile isGoSpace ('\n' :: _) = _
    rw [List.dropWhile_cons_of_pos (by decide), List.reverse_append, hrev]
    show List.dropWhile isGoSpace (l :: (init ++ "AUTH ".data.reverse)) = _
    rw [List.dropWhile_cons_of_neg (by simp [hl])]
    rfl
  unfold trimSpace trimSpaceChars
  simp only [hfront, hback, List.reverse_reverse]

theorem auth_line_data (p : String) :
    ("AUTH " ++ p ++ "\n").data = "AUTH ".data ++ p.data ++ ['\n'] := by
  simp [String.data_append]

/-- Claim C19: on a connection that is not authenticated, every line that is
not blank and is not a two-token `AUTH` line with the configured password is
answered with one of the two `ERROR` lines; the connection stays
unauthenticated and the engine is the one before the line. -/
theorem unauthenticated_rejects (s : Server) (line : String) (nonce : List Nat) (now : Int)
    (hline : trimSpace line ≠ "")
    (hnot : ¬ ∃ verb, fields (trimSpace line) = [verb, s.Password] ∧ toUpper verb = "AUTH") :
    ((s.handleLine false line nonce now).reply
          = some (toBytes "ERROR Authentication required\n") ∨
        (s.handleLine false line nonce now).reply
          = some (toBytes "ERROR Invalid password\n")) ∧
      (s.handleLine false line nonce now).authenticated = false ∧
      (s.handleLine false line nonce now).engine = s.Engine ∧
      (s.handleLine false line nonce now).panicked = false := by
  unfold Server.handleLine
  rw [if_neg hline]
  simp only [if_true]
  split
  · rename_i verb password hf
    by_cases hv : toUpper verb ≠ "AUTH"
    · rw [if_pos hv]
      exact ⟨Or.inl rfl, rfl, rfl, rfl⟩
    · rw [if_neg hv]
      by_cases hp : password ≠ s.Password
      · rw [if_pos hp]
        exact ⟨Or.inr rfl, rfl, rfl, rfl⟩
      · exfalso
        apply hnot
        have hp' : password = s.Password := by
          by_contra h; exact hp h
        have hv' : toUpper verb = "AUTH" := by
          by_contra h; exact hv h
        exact ⟨verb, by rw [hf, hp'], hv'⟩
  · exact ⟨Or.inl rfl, rfl, rfl, rfl⟩

/-- Witness of C19: a `GET` before authentication, and an `AUTH` with a wrong
password. -/
theorem unauthenticated_rejects_witness :
    ((⟨engineOn 1, "testpass"⟩ : Server).handleLine false "GET test:key\n" [] 0).reply
        = some (toBytes "ERROR Authentication required\n") ∧
      ((⟨engineOn 1, "testpass"⟩ : Server).handleLine false "AUTH wrong\n" [] 0).reply
        = some (toBytes "ERROR Invalid password\n") ∧
      ((⟨engineOn 1, "testpass"⟩ : Server).handleLine false "AUTH wrong\n" [] 0).authenticated
        = false :=
  ⟨by decide, by decide,
    (unauthenticated_rejects ⟨engineOn 1, "testpass"⟩ "AUTH wrong\n" [] 0 (by decide)
      (fun ⟨verb, hf, _⟩ => by
        have h2 : fields (trimSpace "AUTH wrong\n") = ["AUTH", "wrong"] := by decide
        rw [h2] at hf
        have h3 := (List.cons.inj (List.cons.inj hf).2).1
        exact absurd h3 (by decide))).2.1⟩

/-- Claim C20, amended: for every configured password that is not empty and
holds no white space, the line `AUTH`, a blank, the password and a newline on
an unauthenticated connection is answered with `OK`, the connection becomes
authenticated and the engine is the one before the line. -/
theorem auth_accepts_password (s : Server) (nonce : List Nat) (now : Int)
    (hne : s.Password.data ≠ [])
    (hns : ∀ c ∈ s.Password.data, isGoSpace c = false) :
    (s.handleLine false ("AUTH " ++ s.Password ++ "\n") nonce now).reply
        = some (toBytes "OK\n") ∧
      (s.handleLine false ("AUTH " ++ s.Password ++ "\n") nonce now).authenticated = true ∧
      (s.handleLine false ("AUTH " ++ s.Password ++ "\n") nonce now).engine = s.Engine := by
  have hline : ("AUTH " ++ s.Password ++ "\n") = String.mk ("AUTH ".data ++ s.Password.data ++ ['\n']) := by
    apply String.ext
    exact auth_line_data s.Password
  have htrim := trimSpace_auth s.Password hne hns
  have hfields := fields_auth s.Password hne hns
  have hnonblank : String.mk ("AUTH ".data ++ s.Password.data) ≠ "" := by
    intro h
    have := congrArg String.data h
    simp at this
  have hup : ¬ toUpper "AUTH" ≠ "AUTH" := by decide
  unfold Server.handleLine
  rw [hline, htrim, if_neg hnonblank]
  simp only [if_true, hfields, if_neg hup, ne_eq, not_true_eq_false, if_false]
  trivial

/-- Witness of C20: the password of the server tests. -/
theorem auth_accepts_password_witness :
    ((⟨engineOn 1, "testpass"⟩ : Server).handleLine false ("AUTH " ++ "testpass" ++ "\n")
        [] 0).reply = some (toBytes "OK\n") ∧
      ((⟨engineOn 1, "testpass"⟩ : Server).handleLine false ("AUTH " ++ "testpass" ++ "\n")
        [] 0).authenticated = true :=
  ⟨(auth_accepts_password ⟨engineOn 1, "testpass"⟩ [] 0 (by decide) (by decide)).1,
    (auth_accepts_password ⟨engineOn 1, "testpass"⟩ [] 0 (by decide) (by decide)).2.1⟩

/-- Counterexample to C20 as stated: with the configured password `my pass`
the line `AUTH my pass` has three tokens; it is answered with an error and the
connection stays unauthenticated. -/
theorem auth_rejects_spaced_password :
    ((⟨engineOn 1, "my pass"⟩ : Server).handleLine false ("AUTH " ++ "my pass" ++ "\n")
        [] 0).reply = some (toBytes "ERROR Authentication required\n") ∧
      ((⟨engineOn 1, "my pass"⟩ : Server).handleLine false ("AUTH " ++ "my pass" ++ "\n")
        [] 0).authenticated = false :=
  ⟨by decide, by decide⟩

/-! ### The simple regular expressions -/

theorem starMatch_iff (next : List Char → Bool) (a : Atom) (s : List Char) :
    starMatch next a s = true ↔
      ∃ rep rest, s = rep ++ rest ∧ (∀ c ∈ rep, a.accepts c = true) ∧ next rest = true := by
  induction s with
  | nil =>
    constructor
    · intro h
      exact ⟨[], [], rfl, fun _ hc => absurd hc (List.not_mem_nil _), h⟩
    · rintro ⟨rep, rest, hs, _, hn⟩
      have hrest : rest = [] := (List.append_eq_nil.mp hs.symm).2
      rw [hrest] at hn
      exact hn
  | cons c cs ih =>
    unfold starMatch
    rw [Bool.or_eq_true, Bool.and_eq_true, ih]
    constructor
    · rintro (h | ⟨hc, rep, rest, hs, hall, hn⟩)
      · exact ⟨[], c :: cs, rfl, fun _ hc => absurd hc (List.not_mem_nil _), h⟩
      · refine ⟨c :: rep, rest, by rw [hs]; rfl, ?_, hn⟩
        intro d hd
        rcases List.mem_cons.mp hd with h | h
        · rw [h]; exact hc
        · exact hall d h
    · rintro ⟨rep, rest, hs, hall, hn⟩
      cases rep with
      | nil =>
        left
        rw [List.nil_append] at hs
        rw [hs]
        exact hn
      | cons d rep =>
        right
        rw [List.cons_append] at hs
        obtain ⟨hd, htl⟩ := List.cons.inj hs
        subst hd
        exact ⟨hall c (List.mem_cons_self c rep), rep, rest, htl,
          fun e he => hall e (List.mem_cons_of_mem c he), hn⟩

theorem matches_star_iff (a : Atom) (items : List Item) (s : List Char) :
    Matches (⟨a, true⟩ :: items) s ↔
      ∃ rep mid, s = rep ++ mid ∧ (∀ c ∈ rep, a.accepts c = true) ∧ Matches items mid := by
  constructor
  · intro h
    generalize hi : (⟨a, true⟩ :: items : List Item) = all at h
    induction h with
    | done => cases hi
    | one b c its t hb hm _ => cases hi
    | skip b its t hm _ =>
      obtain ⟨hb, hits⟩ := List.cons.inj hi
      subst hits
      exact ⟨[], t, rfl, fun _ hc => absurd hc (List.not_mem_nil _), hm⟩
    | more b c its t hb hm ih =>
      obtain ⟨hb2, hits⟩ := List.cons.inj hi
      have hab : a = b := by
        have := congrArg Item.atom hb2
        exact this
      subst hits
      subst hab
      obtain ⟨rep, mid, hs, hall, hmid⟩ := ih rfl
      refine ⟨c :: rep, mid, by rw [hs]; rfl, ?_, hmid⟩
      intro d hd
      rcases List.mem_cons.mp hd with h | h
      · rw [h]; exact hb
      · exact hall d h
  · rintro ⟨rep, mid, hs, hall, hmid⟩
    subst hs
    induction rep with
    | nil => exact Matches.skip a items mid hmid
    | cons c rep ih =>
      exact Matches.more a c items (rep ++ mid) (hall c (List.mem_cons_self c rep))
        (ih (fun d hd => hall d (List.mem_cons_of_mem c hd)))

theorem matchHere_iff (items : List Item) :
    ∀ s, matchHere items s = true ↔ ∃ pre post, s = pre ++ post ∧ Matches items pre := by
  induction items with
  | nil =>
    intro s
    constructor
    · intro _
      exact ⟨[], s, rfl, Matches.done⟩
    · intro _
      cases s <;> rfl
  | cons item items ih =>
    intro s
    obtain ⟨a, star⟩ := item
    cases star with
    | false =>
      cases s with
      | nil =>
        constructor
        · intro h; cases h
        · rintro ⟨pre, post, hs, hm⟩
          have hpre : pre = [] := (List.append_eq_nil.mp hs.symm).1
          subst hpre
          cases hm
      | cons c cs =>
        unfold matchHere
        rw [Bool.and_eq_true, ih cs]
        constructor
        · rintro ⟨hc, pre, post, hs, hm⟩
          exact ⟨c :: pre, post, by rw [hs]; rfl, Matches.one a c items pre hc hm⟩
        · rintro ⟨pre, post, hs, hm⟩
          cases hm with
          | one _ d _ t hd hm' =>
            rw [List.cons_append] at hs
            obtain ⟨hcd, htl⟩ := List.cons.inj hs
            subst hcd
            exact ⟨hd, t, post, htl, hm'⟩
    | true =>
      have hunf : matchHere (⟨a, true⟩ :: items) s = starMatch (matchHere items) a s := by
        cases s <;> rfl
      rw [hunf, starMatch_iff]
      constructor
      · rintro ⟨rep, rest, hs, hall, hn⟩
        obtain ⟨pre, post, hrest, hm⟩ := (ih rest).mp hn
        refine ⟨rep ++ pre, post, by rw [hs, hrest, List.append_assoc], ?_⟩
        exact (matches_star_iff a items _).mpr ⟨rep, pre, rfl, hall, hm⟩
      · rintro ⟨pre, post, hs, hm⟩
        obtain ⟨rep, mid, hpre, hall, hmid⟩ := (matches_star_iff a items pre).mp hm
        refine ⟨rep, mid ++ post, by rw [hs, hpre, List.append_assoc], hall, ?_⟩
        exact (ih _).mpr ⟨mid, post, rfl, hmid⟩

theorem search_iff (items : List Item) (s : List Char) :
    search items s = true ↔ ∃ before mid after, s = before ++ mid ++ after ∧ Matches items mid := by
  induction s with
  | nil =>
    unfold search
    rw [matchHere_iff]
    constructor
    · rintro ⟨pre, post, hs, hm⟩
      exact ⟨[], pre, post, hs, hm⟩
    · rintro ⟨before, mid, after, hs, hm⟩
      have h1 := List.append_eq_nil.mp hs.symm
      have h2 := List.append_eq_nil.mp h1.1
      refine ⟨mid, after, ?_, hm⟩
      rw [h1.2, h2.2]
      rfl
  | cons c cs ih =>
    unfold search
    rw [Bool.or_eq_true, matchHere_iff, ih]
    constructor
    · rintro (⟨pre, post, hs, hm⟩ | ⟨before, mid, after, hs, hm⟩)
      · exact ⟨[], pre, post, by rw [hs]; rfl, hm⟩
      · exact ⟨c :: before, mid, after, by rw [hs]; rfl, hm⟩
    · rintro ⟨before, mid, after, hs, hm⟩
      cases before with
      | nil =>
        left
        exact ⟨mid, after, by rw [hs]; rfl, hm⟩
      | cons d before =>
        right
        rw [List.cons_append, List.cons_append] at hs
        obtain ⟨_, htl⟩ := List.cons.inj hs
        exact ⟨before, mid, after, htl, hm⟩

/-- The three cases of the pattern test of the repository, with the simple
model of `regexp.Compile`: two matches, one match, no match. -/
theorem getByPattern_test_cases :
    ((((engineOn 1).Set "user:1" (.json (.str "John")) []).2.Set "user:2"
        (.json (.str "Jane")) []).2.Set "post:1" (.json (.str "Hello")) []).2.GetByPattern
        simpleCompile "user:*"
      = .ok [⟨"user:2", toBytes "\"Jane\""⟩, ⟨"user:1", toBytes "\"John\""⟩] ∧
    ((((engineOn 1).Set "user:1" (.json (.str "John")) []).2.Set "user:2"
        (.json (.str "Jane")) []).2.Set "post:1" (.json (.str "Hello")) []).2.GetByPattern
        simpleCompile "post:1"
      = .ok [⟨"post:1", toBytes "\"Hello\""⟩] ∧
    ((((engineOn 1).Set "user:1" (.json (.str "John")) []).2.Set "user:2"
        (.json (.str "Jane")) []).2.Set "post:1" (.json (.str "Hello")) []).2.GetByPattern
        simpleCompile "nothing:*"
      = .ok [] :=
  ⟨rfl, rfl, rfl⟩

/-- Claim C21, the code at the failing input: on an authenticated connection
`SET test:key value123` is answered `OK`, but the `GET test:key` that follows
is answered with the JSON string literal, the value between double quotes, not
with `value123`; `DELETE test:key` is answered `OK` and the next `GET` is
answered `nil`. -/
theorem get_replies_quoted_value :
    ((⟨engineOn 1, "testpass"⟩ : Server).handleLine true "SET test:key value123\n" [] 0).reply
        = some (toBytes "OK\n") ∧
      ((⟨((⟨engineOn 1, "testpass"⟩ : Server).handleLine true "SET test:key value123\n" []
          0).engine, "testpass"⟩ : Server).handleLine true "GET test:key\n" [] 0).reply
        = some (toBytes "\"value123\"\n") ∧
      toBytes "\"value123\"\n" ≠ toBytes "value123\n" ∧
      ((⟨((⟨engineOn 1, "testpass"⟩ : Server).handleLine true "SET test:key value123\n" []
          0).engine, "testpass"⟩ : Server).handleLine true "DELETE test:key\n" [] 0).reply
        = some (toBytes "OK\n") ∧
      ((⟨((⟨((⟨engineOn 1, "testpass"⟩ : Server).handleLine true "SET test:key value123\n" []
          0).engine, "testpass"⟩ : Server).handleLine true "DELETE test:key\n" [] 0).engine,
          "testpass"⟩ : Server).handleLine true "GET test:key\n" [] 0).reply
        = some (toBytes "nil\n") :=
  ⟨by decide, by decide, by decide, by decide, by decide⟩

/-- Claim C22, the code at the failing input: after `SET test:key value123` the
line `DEL test:key` is answered `ERROR unknown command: DEL`, the engine is left
as it was, and the `GET test:key` that follows still replies the stored value,
not `nil`; only the verb `DELETE` removes the key. -/
theorem del_verb_unknown :
    ((⟨((⟨engineOn 1, "testpass"⟩ : Server).handleLine true "SET test:key value123\n" []
          0).engine, "testpass"⟩ : Server).handleLine true "DEL test:key\n" [] 0).reply
        = some (toBytes "ERROR unknown command: DEL\n") ∧
      ((⟨((⟨engineOn 1, "testpass"⟩ : Server).handleLine true "SET test:key value123\n" []
          0).engine, "testpass"⟩ : Server).handleLine true "DEL test:key\n" [] 0).reply
        ≠ some (toBytes "OK\n") ∧
      ((⟨((⟨((⟨engineOn 1, "testpass"⟩ : Server).handleLine true "SET test:key value123\n" []
          0).engine, "testpass"⟩ : Server).handleLine true "DEL test:key\n" [] 0).engine,
          "testpass"⟩ : Server).handleLine true "GET test:key\n" [] 0).reply
        = some (toBytes "\"value123\"\n") ∧
      ((⟨((⟨((⟨engineOn 1, "testpass"⟩ : Server).handleLine true "SET test:key value123\n" []
          0).engine, "testpass"⟩ : Server).handleLine true "DEL test:key\n" [] 0).engine,
          "testpass"⟩ : Server).handleLine true "GET test:key\n" [] 0).reply
        ≠ some (toBytes "nil\n") :=
  ⟨by decide, by decide, by decide, by decide⟩

/-- Claim C24, the code at the failing input: `TTL k` prints the engine's
duration as a count of nanoseconds. For an absent key the reply is
`-2000000000`, not `-2`; for a key stored by `SET`, which has no expiry, it is
`-1000000000`, not `-1`; and right after a 60 second TTL was set it is
`60000000000`, not a number between 59 and 61. -/
theorem ttl_reply_in_nanoseconds :
    ((⟨engineOn 1, "testpass"⟩ : Server).handleLine true "TTL k\n" [] 0).reply
        = some (toBytes "-2000000000\n") ∧
      ((⟨((⟨engineOn 1, "testpass"⟩ : Server).handleLine true "SET k v\n" [] 0).engine,
          "testpass"⟩ : Server).handleLine true "TTL k\n" [] 0).reply
        = some (toBytes "-1000000000\n") ∧
      ((⟨((engineOn 1).SetWithTTL "k" (toBytes "v") (60 * Second) 1000).2,
          "testpass"⟩ : Server).handleLine true "TTL k\n" [] 1000).reply
        = some (toBytes "60000000000\n") ∧
      toBytes "-2000000000\n" ≠ toBytes "-2\n" ∧
      toBytes "-1000000000\n" ≠ toBytes "-1\n" ∧
      toBytes "60000000000\n" ≠ toBytes "60\n" :=
  ⟨by decide, by decide, by decide, by decide, by decide, by decide⟩

/-! ### The connection handler after authentication -/

theorem trimSpace_ne_of_fields (line verb : String) (args : List String)
    (hf : fields (trimSpace line) = verb :: args) : trimSpace line ≠ "" := by
  intro h
  have hnil : fields "" = [] := rfl
  rw [h, hnil] at hf
  cases hf

theorem handleLine_blank (s : Server) (authenticated : Bool) (line : String)
    (nonce : List Nat) (now : Int) (h : trimSpace line = "") :
    s.handleLine authenticated line nonce now = ⟨none, authenticated, s.Engine, false⟩ := by
  unfold Server.handleLine
  rw [if_pos h]

theorem handleLine_error (s : Server) (line : String) (nonce : List Nat) (now : Int)
    (msg : String) (engine : MemoryEngine) (h : trimSpace line ≠ "")
    (hex : s.executeCommand (trimSpace line) nonce now = (.error (.errorf msg), engine)) :
    s.handleLine true line nonce now
      = ⟨some (toBytes ("ERROR " ++ msg ++ "\n")), true, engine, false⟩ := by
  unfold Server.handleLine
  rw [if_neg h, if_neg (by decide), hex]
  rfl

theorem handleLine_notFound (s : Server) (line : String) (nonce : List Nat) (now : Int)
    (engine : MemoryEngine) (h : trimSpace line ≠ "")
    (hex : s.executeCommand (trimSpace line) nonce now = (.error .ErrKeyNotFound, engine)) :
    s.handleLine true line nonce now
      = ⟨some (toBytes "ERROR key not found\n"), true, engine, false⟩ := by
  unfold Server.handleLine
  rw [if_neg h, if_neg (by decide), hex]
  rfl

theorem handleLine_panic (s : Server) (line : String) (nonce : List Nat) (now : Int)
    (msg : String) (engine : MemoryEngine) (h : trimSpace line ≠ "")
    (hex : s.executeCommand (trimSpace line) nonce now = (.error (.panic msg), engine)) :
    s.handleLine true line nonce now = ⟨none, true, engine, true⟩ := by
  unfold Server.handleLine
  rw [if_neg h, if_neg (by decide), hex]

theorem handleLine_ok (s : Server) (line : String) (nonce : List Nat) (now : Int)
    (response : List Nat) (engine : MemoryEngine) (h : trimSpace line ≠ "")
    (hex : s.executeCommand (trimSpace line) nonce now = (.ok response, engine))
    (hne : response ≠ []) :
    s.handleLine true line nonce now = ⟨some (response ++ [10]), true, engine, false⟩ := by
  unfold Server.handleLine
  rw [if_neg h, if_neg (by decide), hex]
  simp only [if_neg hne]

theorem handleLine_ok_empty (s : Server) (line : String) (nonce : List Nat) (now : Int)
    (engine : MemoryEngine) (h : trimSpace line ≠ "")
    (hex : s.executeCommand (trimSpace line) nonce now = (.ok [], engine)) :
    s.handleLine true line nonce now = ⟨some (toBytes "OK\n"), true, engine, false⟩ := by
  unfold Server.handleLine
  rw [if_neg h, if_neg (by decide), hex]
  rfl

theorem executeCommand_unknown (s : Server) (command verb : String) (args : List String)
    (nonce : List Nat) (now : Int) (hf : fields command = verb :: args)
    (h1 : toUpper verb ≠ "PING") (h2 : toUpper verb ≠ "SET") (h3 : toUpper verb ≠ "GET")
    (h4 : toUpper verb ≠ "DELETE") (h5 : toUpper verb ≠ "TTL") :
    s.executeCommand command nonce now
      = (.error (.errorf ("unknown command: " ++ toUpper verb)), s.Engine) := by
  unfold Server.executeCommand
  rw [hf]
  simp only [if_neg h1, if_neg h2, if_neg h3, if_neg h4, if_neg h5]

theorem executeCommand_ping (s : Server) (command verb : String) (args : List String)
    (nonce : List Nat) (now : Int) (hf : fields command = verb :: args)
    (hv : toUpper verb = "PING") :
    s.executeCommand command nonce now = (.ok (toBytes "PONG"), s.Engine) := by
  unfold Server.executeCommand
  rw [hf]
  simp only [if_pos hv]

theorem executeCommand_set (s : Server) (command verb key first : String) (more : List String)
    (nonce : List Nat) (now : Int) (hf : fields command = verb :: key :: first :: more)
    (hv : toUpper verb = "SET") :
    s.executeCommand command nonce now
      = match s.Engine.Set key (.json (.str (String.mk
            (trimQuoteSuffix (trimQuotePrefix (joinSpace (first :: more))))))) nonce with
        | (some err, engine) => (.error err, engine)
        | (none, engine) => (.ok (toBytes "OK"), engine) := by
  have h1 : toUpper verb ≠ "PING" := by rw [hv]; decide
  unfold Server.executeCommand
  rw [hf]
  simp only [if_neg h1, if_pos hv]

theorem executeCommand_set_arity (s : Server) (command verb : String) (args : List String)
    (nonce : List Nat) (now : Int) (hf : fields command = verb :: args)
    (hv : toUpper verb = "SET") (hn : args.length < 2) :
    s.executeCommand command nonce now
      = (.error (.errorf "SET command requires key and value"), s.Engine) := by
  have h1 : toUpper verb ≠ "PING" := by rw [hv]; decide
  unfold Server.executeCommand
  rw [hf]
  simp only [if_neg h1, if_pos hv]
  match args, hn with
  | [], _ => rfl
  | [_], _ => rfl
  | _ :: _ :: _, hn => simp only [List.length_cons] at hn; omega

theorem executeCommand_get (s : Server) (command verb key : String)
    (nonce : List Nat) (now : Int) (hf : fields command = [verb, key])
    (hv : toUpper verb = "GET") :
    s.executeCommand command nonce now
      = match s.Engine.Get key now with
        | (.error .ErrKeyNotFound, engine) => (.ok (toBytes "nil"), engine)
        | (.error err, engine) => (.error err, engine)
        | (.ok value, engine) => (.ok value, engine) := by
  have h1 : toUpper verb ≠ "PING" := by rw [hv]; decide
  have h2 : toUpper verb ≠ "SET" := by rw [hv]; decide
  unfold Server.executeCommand
  rw [hf]
  simp only [if_neg h1, if_neg h2, if_pos hv]

theorem executeCommand_get_arity (s : Server) (command verb : String) (args : List String)
    (nonce : List Nat) (now : Int) (hf : fields command = verb :: args)
    (hv : toUpper verb = "GET") (hn : args.length ≠ 1) :
    s.executeCommand command nonce now
      = (.error (.errorf "GET command requires key"), s.Engine) := by
  have h1 : toUpper verb ≠ "PING" := by rw [hv]; decide
  have h2 : toUpper verb ≠ "SET" := by rw [hv]; decide
  unfold Server.executeCommand
  rw [hf]
  simp only [if_neg h1, if_neg h2, if_pos hv]
  match args, hn with
  | [], _ => rfl
  | [_], hn => simp at hn
  | _ :: _ :: _, _ => rfl

theorem executeCommand_delete (s : Server) (command verb key : String)
    (nonce : List Nat) (now : Int) (hf : fields command = [verb, key])
    (hv : toUpper verb = "DELETE") :
    s.executeCommand command nonce now
      = match s.Engine.Delete key with
        | (some err, engine) => (.error err, engine)
        | (none, engine) => (.ok (toBytes "OK"), engine) := by
  have h1 : toUpper verb ≠ "PING" := by rw [hv]; decide
  have h2 : toUpper verb ≠ "SET" := by rw [hv]; decide
  have h3 : toUpper verb ≠ "GET" := by rw [hv]; decide
  unfold Server.executeCommand
  rw [hf]
  simp only [if_neg h1, if_neg h2, if_neg h3, if_pos hv]

theorem executeCommand_delete_arity (s : Server) (command verb : String) (args : List String)
    (nonce : List Nat) (now : Int) (hf : fields command = verb :: args)
    (hv : toUpper verb = "DELETE") (hn : args.length ≠ 1) :
    s.executeCommand command nonce now
      = (.error (.errorf "DELETE command requires key"), s.Engine) := by
  have h1 : toUpper verb ≠ "PING" := by rw [hv]; decide
  have h2 : toUpper verb ≠ "SET" := by rw [hv]; decide
  have h3 : toUpper verb ≠ "GET" := by rw [hv]; decide
  unfold Server.executeCommand
  rw [hf]
  simp only [if_neg h1, if_neg h2, if_neg h3, if_pos hv]
  match args, hn with
  | [], _ => rfl
  | [_], hn => simp at hn
  | _ :: _ :: _, _ => rfl

theorem executeCommand_ttl (s : Server) (command verb key : String)
    (nonce : List Nat) (now : Int) (hf : fields command = [verb, key])
    (hv : toUpper verb = "TTL") :
    s.executeCommand command nonce now
      = match s.Engine.TTL key now with
        | (.error err, engine) => (.error err, engine)
        | (.ok ttl, engine) => (.ok (toBytes (toString ttl)), engine) := by
  have h1 : toUpper verb ≠ "PING" := by rw [hv]; decide
  have h2 : toUpper verb ≠ "SET" := by rw [hv]; decide
  have h3 : toUpper verb ≠ "GET" := by rw [hv]; decide
  have h4 : toUpper verb ≠ "DELETE" := by rw [hv]; decide
  unfold Server.executeCommand
  rw [hf]
  simp only [if_neg h1, if_neg h2, if_neg h3, if_neg h4, if_pos hv]

theorem executeCommand_ttl_arity (s : Server) (command verb : String) (args : List String)
    (nonce : List Nat) (now : Int) (hf : fields command = verb :: args)
    (hv : toUpper verb = "TTL") (hn : args.length ≠ 1) :
    s.executeCommand command nonce now
      = (.error (.errorf "TTL command requires key"), s.Engine) := by
  have h1 : toUpper verb ≠ "PING" := by rw [hv]; decide
  have h2 : toUpper verb ≠ "SET" := by rw [hv]; decide
  have h3 : toUpper verb ≠ "GET" := by rw [hv]; decide
  have h4 : toUpper verb ≠ "DELETE" := by rw [hv]; decide
  unfold Server.executeCommand
  rw [hf]
  simp only [if_neg h1, if_neg h2, if_neg h3, if_neg h4, if_pos hv]
  match args, hn with
  | [], _ => rfl
  | [_], hn => simp at hn
  | _ :: _ :: _, _ => rfl

/-! ### Newlines in the bytes of a reply -/

theorem toBytes_append (a b : String) : toBytes (a ++ b) = toBytes a ++ toBytes b := by
  unfold toBytes
  rw [String.data_append, List.flatMap_append]

theorem newline_mem_utf8 (c : Char) : 10 ∈ utf8EncodeChar c ↔ c = '\n' := by
  constructor
  · intro h
    unfold utf8EncodeChar at h
    split at h
    · rw [List.mem_singleton] at h
      rw [char_eq_of_toNat c 10 h.symm]
    · exfalso
      split at h
      · simp only [List.mem_cons, List.mem_singleton, List.not_mem_nil, or_false] at h
        omega
      · split at h
        · simp only [List.mem_cons, List.mem_singleton, List.not_mem_nil, or_false] at h
          omega
        · simp only [List.mem_cons, List.mem_singleton, List.not_mem_nil, or_false] at h
          omega
  · intro h
    rw [h]
    decide

theorem newline_mem_toBytes (s : String) : 10 ∈ toBytes s ↔ '\n' ∈ s.data := by
  unfold toBytes
  rw [List.mem_flatMap]
  constructor
  · rintro ⟨c, hc, h10⟩
    rw [(newline_mem_utf8 c).mp h10] at hc
    exact hc
  · intro h
    exact ⟨'\n', h, (newline_mem_utf8 '\n').mpr rfl⟩

theorem fieldsAux_no_space (cs : List Char) :
    ∀ cur : List Char, (∀ c ∈ cur, isGoSpace c = false) →
      ∀ tok ∈ fieldsAux cur cs, ∀ c ∈ tok, isGoSpace c = false := by
  induction cs with
  | nil =>
    intro cur hcur tok htok c hc
    unfold fieldsAux at htok
    split at htok
    · cases htok
    · rw [List.mem_singleton] at htok
      rw [htok, List.mem_reverse] at hc
      exact hcur c hc
  | cons d cs ih =>
    intro cur hcur tok htok c hc
    unfold fieldsAux at htok
    split at htok
    · split at htok
      · exact ih [] (fun _ h => by cases h) tok htok c hc
      · rcases List.mem_cons.mp htok with h | h
        · rw [h, List.mem_reverse] at hc
          exact hcur c hc
        · exact ih [] (fun _ h => by cases h) tok h c hc
    · rename_i hd
      refine ih (d :: cur) ?_ tok htok c hc
      intro e he
      rcases List.mem_cons.mp he with h | h
      · rw [h]
        simpa using hd
      · exact hcur e h

theorem fields_no_space (s tok : String) (htok : tok ∈ fields s) :
    ∀ c ∈ tok.data, isGoSpace c = false := by
  unfold fields at htok
  obtain ⟨cs, hcs, rfl⟩ := List.mem_map.mp htok
  exact fieldsAux_no_space s.data [] (fun _ h => by cases h) cs hcs

theorem toUpperChar_ne_newline (c : Char) (h : c ≠ '\n') : toUpperChar c ≠ '\n' := by
  unfold toUpperChar
  split
  · rename_i hr
    intro heq
    have h2 : (Char.ofNat (c.toNat - 32)).toNat = 10 := by rw [heq]; rfl
    obtain ⟨h97, h122⟩ := hr
    interval_cases hc : c.toNat <;> simp at h2
  · split
    · decide
    · split
      · decide
      · exact h

theorem toUpper_no_newline (s : String) (h : ∀ c ∈ s.data, isGoSpace c = false) :
    '\n' ∉ (toUpper s).data := by
  unfold toUpper
  intro hmem
  obtain ⟨c, hc, heq⟩ := List.mem_map.mp hmem
  refine toUpperChar_ne_newline c ?_ heq
  intro hnl
  have := h c hc
  rw [hnl] at this
  exact absurd this (by decide)

/-- Claim C25: on an authenticated connection a line whose verb, in upper case,
is none of `PING`, `SET`, `GET`, `DELETE`, `TTL`, a `SET` line of fewer than
three tokens, and a `GET`, `DELETE` or `TTL` line of other than two tokens, is
answered with `ERROR `, a message without a newline, and one newline; the
engine is the one before the line, the connection stays authenticated and the
round does not end the connection. -/
theorem rejected_command (s : Server) (line verb : String) (args : List String)
    (nonce : List Nat) (now : Int)
    (hf : fields (trimSpace line) = verb :: args)
    (hbad : (toUpper verb ≠ "PING" ∧ toUpper verb ≠ "SET" ∧ toUpper verb ≠ "GET" ∧
          toUpper verb ≠ "DELETE" ∧ toUpper verb ≠ "TTL") ∨
        (toUpper verb = "SET" ∧ args.length + 1 < 3) ∨
        ((toUpper verb = "GET" ∨ toUpper verb = "DELETE" ∨ toUpper verb = "TTL") ∧
          args.length + 1 ≠ 2)) :
    ∃ message : String,
      (s.handleLine true line nonce now).reply = some (toBytes ("ERROR " ++ message) ++ [10]) ∧
      10 ∉ toBytes ("ERROR " ++ message) ∧
      (s.handleLine true line nonce now).engine = s.Engine ∧
      (s.handleLine true line nonce now).authenticated = true ∧
      (s.handleLine true line nonce now).panicked = false := by
  have hne := trimSpace_ne_of_fields line verb args hf
  have hbytes : ∀ m : String, toBytes ("ERROR " ++ m ++ "\n") = toBytes ("ERROR " ++ m) ++ [10] :=
    fun m => toBytes_append ("ERROR " ++ m) "\n"
  have hline : ∀ m : String, '\n' ∉ m.data → 10 ∉ toBytes ("ERROR " ++ m) := by
    intro m hm h10
    rw [toBytes_append, List.mem_append] at h10
    rcases h10 with h | h
    · exact absurd h (by decide)
    · exact hm ((newline_mem_toBytes m).mp h)
  have hfin : ∀ m : String, '\n' ∉ m.data →
      s.executeCommand (trimSpace line) nonce now = (.error (.errorf m), s.Engine) →
      ∃ message : String,
        (s.handleLine true line nonce now).reply
          = some (toBytes ("ERROR " ++ message) ++ [10]) ∧
        10 ∉ toBytes ("ERROR " ++ message) ∧
        (s.handleLine true line nonce now).engine = s.Engine ∧
        (s.handleLine true line nonce now).authenticated = true ∧
        (s.handleLine true line nonce now).panicked = false := by
    intro m hm hex
    refine ⟨m, ?_, hline m hm, ?_, ?_, ?_⟩ <;>
      rw [handleLine_error s line nonce now m s.Engine hne hex]
    exact congrArg some (hbytes m)
  rcases hbad with ⟨h1, h2, h3, h4, h5⟩ | ⟨hv, hn⟩ | ⟨hv | hv | hv, hn⟩
  · refine hfin ("unknown command: " ++ toUpper verb) ?_
      (executeCommand_unknown s _ verb args nonce now hf h1 h2 h3 h4 h5)
    have hverb : verb ∈ fields (trimSpace line) := by rw [hf]; exact List.mem_cons_self _ _
    have hup := toUpper_no_newline verb (fields_no_space _ verb hverb)
    rw [String.data_append, List.mem_append]
    rintro (h | h)
    · exact absurd h (by decide)
    · exact hup h
  · exact hfin _ (by decide)
      (executeCommand_set_arity s _ verb args nonce now hf hv (by omega))
  · exact hfin _ (by decide)
      (executeCommand_get_arity s _ verb args nonce now hf hv (by omega))
  · exact hfin _ (by decide)
      (executeCommand_delete_arity s _ verb args nonce now hf hv (by omega))
  · exact hfin _ (by decide)
      (executeCommand_ttl_arity s _ verb args nonce now hf hv (by omega))

/-- Claim C25 at concrete lines: an unknown verb and a `GET` line of three
tokens on an engine that holds a key. -/
theorem rejected_command_witness :
    (∃ message : String,
      ((⟨((engineOn 1).Set "k" (.json (.str "v")) []).2, "pw"⟩ : Server).handleLine true
          "flush all\n" [] 0).reply = some (toBytes ("ERROR " ++ message) ++ [10]) ∧
      10 ∉ toBytes ("ERROR " ++ message) ∧
      ((⟨((engineOn 1).Set "k" (.json (.str "v")) []).2, "pw"⟩ : Server).handleLine true
          "flush all\n" [] 0).engine = ((engineOn 1).Set "k" (.json (.str "v")) []).2 ∧
      ((⟨((engineOn 1).Set "k" (.json (.str "v")) []).2, "pw"⟩ : Server).handleLine true
          "flush all\n" [] 0).authenticated = true ∧
      ((⟨((engineOn 1).Set "k" (.json (.str "v")) []).2, "pw"⟩ : Server).handleLine true
          "flush all\n" [] 0).panicked = false) ∧
    ((⟨((engineOn 1).Set "k" (.json (.str "v")) []).2, "pw"⟩ : Server).handleLine true
        "flush all\n" [] 0).reply = some (toBytes "ERROR unknown command: FLUSH\n") ∧
    ((⟨((engineOn 1).Set "k" (.json (.str "v")) []).2, "pw"⟩ : Server).handleLine true
        "GET k extra\n" [] 0).reply = some (toBytes "ERROR GET command requires key\n") :=
  ⟨rejected_command ⟨((engineOn 1).Set "k" (.json (.str "v")) []).2, "pw"⟩ "flush all\n"
      "flush" ["all"] [] 0 (by decide) (Or.inl (by decide)),
    by decide, by decide⟩

theorem unseal_no_panic (me : MemoryEngine) (stored : List Nat) (msg : String) :
    me.unseal stored ≠ .error (.panic msg) := by
  unfold MemoryEngine.unseal
  split
  · split <;> simp
  · simp

theorem get_no_panic (me : MemoryEngine) (key : String) (now : Int) (msg : String)
    (hwf : me.WF) : (me.Get key now).1 ≠ .error (.panic msg) := by
  cases hrec : me.record key with
  | none =>
    rw [get_absent_eq me key now hwf hrec]
    simp
  | some data =>
    by_cases hexp : data.ExpiresAt ≠ 0 ∧ data.ExpiresAt < now
    · rw [get_expired_eq me key now data hwf hrec hexp]
      simp
    · rw [get_live_eq me key now data hwf hrec hexp]
      exact unseal_no_panic me data.Value msg

/-- Claim C23 as amended: on a well-formed engine the line `GET k` is answered
`nil` when the engine reports the key as not found; when the key is present,
not expired and its stored bytes decrypt to the bytes `value`, it is answered
with `value` and a newline if `value` is not empty and with `OK` if `value` is
empty; and the answer is the line `nil` only when the engine reports the key
as not found or returns the three bytes `nil` as its value. -/
theorem get_reply (s : Server) (line verb key : String) (nonce : List Nat) (now : Int)
    (hwf : s.Engine.WF)
    (hf : fields (trimSpace line) = [verb, key]) (hv : toUpper verb = "GET") :
    ((s.Engine.Get key now).1 = .error .ErrKeyNotFound →
        (s.handleLine true line nonce now).reply = some (toBytes "nil\n")) ∧
      (∀ data value, s.Engine.record key = some data →
        ¬ (data.ExpiresAt ≠ 0 ∧ data.ExpiresAt < now) →
        s.Engine.unseal data.Value = .ok value →
        (value ≠ [] → (s.handleLine true line nonce now).reply = some (value ++ [10])) ∧
        (value = [] → (s.handleLine true line nonce now).reply = some (toBytes "OK\n"))) ∧
      ((s.handleLine true line nonce now).reply = some (toBytes "nil\n") →
        (s.Engine.Get key now).1 = .error .ErrKeyNotFound ∨
        (s.Engine.Get key now).1 = .ok (toBytes "nil")) ∧
      (s.handleLine true line nonce now).engine = (s.Engine.Get key now).2 := by
  have hne := trimSpace_ne_of_fields line verb [key] hf
  have hex := executeCommand_get s (trimSpace line) verb key nonce now hf hv
  have hok : ∀ value engine, s.Engine.Get key now = (.ok value, engine) →
      (value ≠ [] → (s.handleLine true line nonce now).reply = some (value ++ [10])) ∧
      (value = [] → (s.handleLine true line nonce now).reply = some (toBytes "OK\n")) := by
    intro value engine hget
    rw [hget] at hex
    constructor
    · intro hval
      rw [handleLine_ok s line nonce now value engine hne hex hval]
    · intro hval
      rw [hval] at hex
      rw [handleLine_ok_empty s line nonce now engine hne hex]
  refine ⟨?_, ?_, ?_, ?_⟩
  · intro hnf
    rcases hget : s.Engine.Get key now with ⟨r, engine⟩
    rw [hget] at hnf
    have hr : r = .error .ErrKeyNotFound := hnf
    subst hr
    rw [hget] at hex
    rw [handleLine_ok s line nonce now _ engine hne hex (by decide)]
    rfl
  · intro data value hrec hlive hun
    have hget := get_live_eq s.Engine key now data hwf hrec hlive
    rw [hun] at hget
    exact hok value s.Engine hget
  · intro hreply
    rcases hget : s.Engine.Get key now with ⟨r, engine⟩
    rw [hget] at hex
    rcases r with (_ | msg | msg) | value
    · exact Or.inl rfl
    · rw [handleLine_error s line nonce now msg engine hne hex] at hreply
      exfalso
      rw [toBytes_append, toBytes_append] at hreply
      have e1 : toBytes "ERROR " = [69, 82, 82, 79, 82, 32] := by decide
      have e2 : toBytes "nil\n" = [110, 105, 108, 10] := by decide
      rw [e1, e2] at hreply
      simp at hreply
    · have hpanic := get_no_panic s.Engine key now msg hwf
      rw [hget] at hpanic
      exact absurd rfl hpanic
    · right
      by_cases hval : value = []
      · rw [hval] at hex
        rw [handleLine_ok_empty s line nonce now engine hne hex] at hreply
        exact absurd hreply (by
          show ¬ (some (toBytes "OK\n") = some (toBytes "nil\n"))
          decide)
      · rw [handleLine_ok s line nonce now value engine hne hex hval] at hreply
        have h1 : value ++ [10] = toBytes "nil" ++ [10] := Option.some.inj hreply
        rw [List.append_cancel_right h1]
  · rcases hget : s.Engine.Get key now with ⟨r, engine⟩
    rw [hget] at hex
    unfold Server.handleLine
    rw [if_neg hne, if_neg (by decide), hex]
    rcases r with (_ | msg | msg) | value
    · rfl
    · rfl
    · rfl
    · simp only []
      split <;> rfl


/-- Claim C23 as amended, at a concrete engine: after `Set("k", "v")` the line
`GET k` is answered with the stored JSON text and a newline, and on the empty
engine it is answered `nil`. -/
theorem get_reply_witness :
    ((engineOn 1).Set "k" (.json (.str "v")) []).2.WF ∧
      fields (trimSpace "GET k\n") = ["GET", "k"] ∧
      ((⟨((engineOn 1).Set "k" (.json (.str "v")) []).2, "pw"⟩ : Server).handleLine true
          "GET k\n" [] 0).reply = some (toBytes "\"v\"" ++ [10]) ∧
      ((⟨engineOn 1, "pw"⟩ : Server).handleLine true "GET k\n" [] 0).reply
        = some (toBytes "nil\n") :=
  ⟨by decide, by decide,
    ((get_reply ⟨((engineOn 1).Set "k" (.json (.str "v")) []).2, "pw"⟩ "GET k\n" "GET" "k"
      [] 0 (by decide) (by decide) (by decide)).2.1 ⟨toBytes "\"v\"", 0⟩ (toBytes "\"v\"")
      rfl (by decide) rfl).1 (by decide),
    (get_reply ⟨engineOn 1, "pw"⟩ "GET k\n" "GET" "k" [] 0 (by decide) (by decide)
      (by decide)).1 rfl⟩

/-- Claim C23, counterexample: a key stored with an empty value (here by
`SetWithTTL`) is present and not expired and `Get` returns its zero bytes, yet
`GET k` is answered `OK`, not with an empty line; and a key whose value is the
three bytes `nil` is answered `nil` although the engine did not report it as
not found. -/
theorem get_empty_value_replies_ok :
    ((engineOn 1).SetWithTTL "k" [] (60 * Second) 0).2.record "k" = some ⟨[], 60 * Second⟩ ∧
      (((engineOn 1).SetWithTTL "k" [] (60 * Second) 0).2.Get "k" 0).1 = .ok [] ∧
      ((⟨((engineOn 1).SetWithTTL "k" [] (60 * Second) 0).2, "pw"⟩ : Server).handleLine true
          "GET k\n" [] 0).reply = some (toBytes "OK\n") ∧
      ((⟨((engineOn 1).SetWithTTL "k" [] (60 * Second) 0).2, "pw"⟩ : Server).handleLine true
          "GET k\n" [] 0).reply ≠ some ([] ++ [10]) ∧
      (((engineOn 1).SetWithTTL "k" (toBytes "nil") (60 * Second) 0).2.Get "k" 0).1
        = .ok (toBytes "nil") ∧
      ((⟨((engineOn 1).SetWithTTL "k" (toBytes "nil") (60 * Second) 0).2, "pw"⟩ :
          Server).handleLine true "GET k\n" [] 0).reply = some (toBytes "nil\n") :=
  ⟨rfl, rfl, by decide, by decide, rfl, by decide⟩

/-! ### The value `Set` stores for a string -/

theorem startsWith_char (s : String) (c : Char) :
    startsWithStr s (String.mk [c]) = true ↔ s.data.head? = some c := by
  unfold startsWithStr
  cases h : s.data with
  | nil => simp [List.isPrefixOf]
  | cons d rest =>
    simp only [List.isPrefixOf, Bool.and_true, beq_iff_eq, List.head?_cons, Option.some.injEq]
    exact eq_comm

theorem endsWith_char (s : String) (c : Char) :
    endsWithStr s (String.mk [c]) = true ↔ s.data.getLast? = some c := by
  unfold endsWithStr List.isSuffixOf
  rw [← List.head?_reverse]
  cases h : s.data.reverse with
  | nil => simp [List.isPrefixOf]
  | cons d rest =>
    simp only [List.isPrefixOf, Bool.and_true, beq_iff_eq, List.head?_cons, Option.some.injEq]
    exact eq_comm

theorem isWrapped_iff (s : String) :
    isWrapped s = true ↔
      (s.data.head? = some '{' ∧ s.data.getLast? = some '}') ∨
        (s.data.head? = some '[' ∧ s.data.getLast? = some ']') := by
  unfold isWrapped
  rw [Bool.or_eq_true, Bool.and_eq_true, Bool.and_eq_true]
  exact or_congr (and_congr (startsWith_char s '{') (endsWith_char s '}'))
    (and_congr (startsWith_char s '[') (endsWith_char s ']'))

theorem joinSpace_eq_specJoin (tokens : List String) : joinSpace tokens = specJoin tokens := by
  unfold specJoin
  induction tokens with
  | nil => rfl
  | cons p rest ih =>
    cases rest with
    | nil => simp [joinSpace, List.intercalate]
    | cons q more =>
      unfold joinSpace
      rw [ih]
      simp [List.intercalate, List.intersperse]

theorem trimQuotePrefix_eq (cs : List Char) :
    trimQuotePrefix cs = if cs.head? = some '"' then cs.tail else cs := by
  cases cs with
  | nil => rfl
  | cons c rest =>
    by_cases h : c = '"'
    · subst h
      rfl
    · have h2 : ¬ ((c :: rest).head? = some '"') := by simpa using h
      rw [if_neg h2]
      unfold trimQuotePrefix
      split
      · rename_i heq
        exact absurd (List.cons.inj heq).1 h
      · rfl

theorem trimQuoteSuffix_eq (cs : List Char) :
    trimQuoteSuffix cs = if cs.getLast? = some '"' then cs.dropLast else cs := by
  unfold trimQuoteSuffix
  rw [trimQuotePrefix_eq, List.head?_reverse]
  split
  · rw [List.tail_reverse, List.reverse_reverse]
  · rw [List.reverse_reverse]

theorem trimQuotes_eq_spec (cs : List Char) :
    trimQuoteSuffix (trimQuotePrefix cs) = specStripQuotes cs := by
  rw [trimQuoteSuffix_eq, trimQuotePrefix_eq]
  rfl

/-- Claim C28: on an authenticated connection a line whose tokens are `SET`, a
key `k` and one value token or more makes one call of `Engine.Set`, with the key
`k` and with the string made of the value tokens joined by single spaces, less
one leading and one trailing double quote where present; the reply is `OK` when
that call succeeds, which on a well-formed engine it does. -/
theorem set_argument_parsing (s : Server) (line verb key first : String) (more : List String)
    (nonce : List Nat) (now : Int)
    (hf : fields (trimSpace line) = verb :: key :: first :: more)
    (hv : toUpper verb = "SET") :
    (s.handleLine true line nonce now).engine
        = (s.Engine.Set key (.json (.str (String.mk
            (specStripQuotes (specJoin (first :: more)))))) nonce).2 ∧
      ((s.Engine.Set key (.json (.str (String.mk
            (specStripQuotes (specJoin (first :: more)))))) nonce).1 = none →
        (s.handleLine true line nonce now).reply = some (toBytes "OK\n")) ∧
      (s.Engine.WF →
        (s.handleLine true line nonce now).reply = some (toBytes "OK\n") ∧
        (s.handleLine true line nonce now).engine.record key
          = some ⟨s.Engine.seal nonce (setBytes (.str (String.mk
              (specStripQuotes (specJoin (first :: more)))))), 0⟩) := by
  have hne := trimSpace_ne_of_fields line verb _ hf
  have hex := executeCommand_set s (trimSpace line) verb key first more nonce now hf hv
  rw [trimQuotes_eq_spec, joinSpace_eq_specJoin] at hex
  have hok : ∀ engine, s.Engine.Set key (.json (.str (String.mk
        (specStripQuotes (specJoin (first :: more)))))) nonce = (none, engine) →
      s.handleLine true line nonce now = ⟨some (toBytes "OK\n"), true, engine, false⟩ := by
    intro engine hset
    rw [hset] at hex
    rw [handleLine_ok s line nonce now (toBytes "OK") engine hne hex (by decide)]
    rfl
  refine ⟨?_, ?_, ?_⟩
  · rcases hset : s.Engine.Set key (.json (.str (String.mk
        (specStripQuotes (specJoin (first :: more)))))) nonce with ⟨r, engine⟩
    cases r with
    | none => rw [hok engine hset]
    | some err =>
      rw [hset] at hex
      unfold Server.handleLine
      rw [if_neg hne, if_neg (by decide), hex]
      cases err <;> rfl
  · intro hnone
    rcases hset : s.Engine.Set key (.json (.str (String.mk
        (specStripQuotes (specJoin (first :: more)))))) nonce with ⟨r, engine⟩
    rw [hset] at hnone
    have hr : r = none := hnone
    subst hr
    rw [hok engine hset]
  · intro hwf
    have hset := set_json_eq s.Engine key (.str (String.mk
        (specStripQuotes (specJoin (first :: more))))) nonce hwf
    rw [hok _ hset]
    exact ⟨rfl, record_after_put_set s.Engine key _ hwf⟩

/-- Claim C28 at a concrete line: the quoted two-word value of
`SET k "hello world"` reaches `Engine.Set` as `hello world`. -/
theorem set_argument_parsing_witness :
    fields (trimSpace "SET k \"hello world\"\n") = ["SET", "k", "\"hello", "world\""] ∧
      String.mk (specStripQuotes (specJoin ["\"hello", "world\""])) = "hello world" ∧
      ((⟨engineOn 1, "pw"⟩ : Server).handleLine true "SET k \"hello world\"\n" [] 0).reply
        = some (toBytes "OK\n") ∧
      ((⟨engineOn 1, "pw"⟩ : Server).handleLine true "SET k \"hello world\"\n" [] 0).engine.record
          "k" = some ⟨toBytes "\"hello world\"", 0⟩ :=
  ⟨by decide, by decide,
    ((set_argument_parsing ⟨engineOn 1, "pw"⟩ "SET k \"hello world\"\n" "SET" "k" "\"hello"
      ["world\""] [] 0 (by decide) (by decide)).2.2 (by decide)).1,
    ((set_argument_parsing ⟨engineOn 1, "pw"⟩ "SET k \"hello world\"\n" "SET" "k" "\"hello"
      ["world\""] [] 0 (by decide) (by decide)).2.2 (by decide)).2⟩

/-! ### Shard selection -/

theorem restoreFromDisk_numShards (me : MemoryEngine) (file : DumpFile) (now : Int) :
    (me.RestoreFromDisk file now).2.numShards = me.numShards := by
  cases file <;> rfl

theorem newMemoryEngine_numShards (aes : List Nat → List Nat → List Nat) (cfg : Config)
    (host : Host) (me : MemoryEngine) (hok : NewMemoryEngine aes cfg host = .ok me) :
    me.numShards = host.numCPU * 2 := by
  unfold NewMemoryEngine at hok
  simp only [] at hok
  split at hok
  · cases hok
  · split at hok
    · split at hok
      · cases hok
      · split at hok
        · split at hok
          · cases hok
          · rename_i restored hres
            injection hok with hok
            subst hok
            have h2 := congrArg (fun p => p.2.numShards) hres
            simp only [restoreFromDisk_numShards] at h2
            exact h2.symm
        · injection hok with hok
          subst hok
          rfl
    · injection hok with hok
      subst hok
      rfl

/-- Claim C30: on every engine `NewMemoryEngine` builds on a host with at least
one CPU and fewer than 2 ^ 31 of them, and for every key, the empty key among
them, `getShard` does not panic: the shard count is the number of shards, the
index it computes is the FNV-1a hash of the key modulo the shard count, the
index is below the shard count, and the shard returned is the one at that
index; an engine with the same shard count computes the same index. -/
theorem shard_selection_total (aes : List Nat → List Nat → List Nat) (cfg : Config)
    (host : Host) (me : MemoryEngine) (key : String)
    (hlo : 0 < host.numCPU) (hhi : host.numCPU < 2 ^ 31)
    (hok : NewMemoryEngine aes cfg host = .ok me) :
    me.shards.length = me.numShards ∧ 0 < me.numShards ∧
      fnv32a (toBytes key) % me.numShards < me.numShards ∧
      (∃ shard, me.shards[fnv32a (toBytes key) % me.numShards]? = some shard ∧
        me.getShard key = some (fnv32a (toBytes key) % me.numShards, shard)) ∧
      (∀ other : MemoryEngine, other.WF → other.numShards = me.numShards →
        (other.getShard key).map Prod.fst = (me.getShard key).map Prod.fst) := by
  have hnum := newMemoryEngine_numShards aes cfg host me hok
  have hmod : me.numShards % 2 ^ 32 = me.numShards := by
    rw [hnum]
    exact Nat.mod_eq_of_lt (by omega)
  have hwf : me.WF := newMemoryEngine_WF aes cfg host me (by omega) hok
  have hpos : 0 < me.numShards := by omega
  have hlt : fnv32a (toBytes key) % me.numShards < me.numShards := Nat.mod_lt _ hpos
  have hidx : me.shardIndex key = fnv32a (toBytes key) % me.numShards := by
    unfold MemoryEngine.shardIndex
    rw [hmod]
  obtain ⟨shard, hshard⟩ : ∃ shard, me.shards[fnv32a (toBytes key) % me.numShards]? = some shard := by
    have hl : fnv32a (toBytes key) % me.numShards < me.shards.length := by
      rw [hwf.1]
      exact hlt
    exact ⟨me.shards[fnv32a (toBytes key) % me.numShards], List.getElem?_eq_getElem hl⟩
  have hget : me.getShard key = some (fnv32a (toBytes key) % me.numShards, shard) := by
    unfold MemoryEngine.getShard
    rw [if_neg hwf.2, hmod, hshard]
  refine ⟨hwf.1, hpos, hlt, ⟨shard, hshard, hget⟩, ?_⟩
  intro other howf hsame
  rw [getShard_eq other key howf, getShard_eq me key hwf]
  simp only [Option.map_some', MemoryEngine.shardIndex, hsame]

/-- Claim C30 on a host with one CPU: the empty key selects shard 1 of 2. -/
theorem shard_selection_total_witness :
    NewMemoryEngine toyAes plainConfig smallHost = .ok (engineOn 1) ∧
      (engineOn 1).shards.length = (engineOn 1).numShards ∧ 0 < (engineOn 1).numShards ∧
      fnv32a (toBytes "") % (engineOn 1).numShards < (engineOn 1).numShards ∧
      (∃ shard, (engineOn 1).shards[fnv32a (toBytes "") % (engineOn 1).numShards]? = some shard ∧
        (engineOn 1).getShard ""
          = some (fnv32a (toBytes "") % (engineOn 1).numShards, shard)) ∧
      (∀ other : MemoryEngine, other.WF → other.numShards = (engineOn 1).numShards →
        (other.getShard "").map Prod.fst = ((engineOn 1).getShard "").map Prod.fst) ∧
      fnv32a (toBytes "") % (engineOn 1).numShards = 1 :=
  ⟨rfl, (shard_selection_total toyAes plainConfig smallHost (engineOn 1) "" (by decide)
      (by decide) rfl).1,
    (shard_selection_total toyAes plainConfig smallHost (engineOn 1) "" (by decide)
      (by decide) rfl).2.1,
    (shard_selection_total toyAes plainConfig smallHost (engineOn 1) "" (by decide)
      (by decide) rfl).2.2.1,
    (shard_selection_total toyAes plainConfig smallHost (engineOn 1) "" (by decide)
      (by decide) rfl).2.2.2.1,
    (shard_selection_total toyAes plainConfig smallHost (engineOn 1) "" (by decide)
      (by decide) rfl).2.2.2.2,
    by decide⟩

/-! ### What a successful restore leaves in the shards -/

theorem recordsGet_of_not_mem (records : List (String × Option KeyData)) (key : String)
    (h : key ∉ records.map Prod.fst) : recordsGet records key = none := by
  induction records with
  | nil => rfl
  | cons r rest ih =>
    obtain ⟨k, v⟩ := r
    simp only [List.map_cons, List.mem_cons, not_or] at h
    unfold recordsGet
    rw [if_neg (fun e => h.1 e.symm)]
    exact ih h.2

theorem restoreRecords_validMap (now : Int) :
    ∀ (records : List (String × Option KeyData)) (acc : List (String × KeyData)),
      validMap acc → validMap (restoreRecords now records acc).2 := by
  intro records
  induction records with
  | nil => intro acc h; exact h
  | cons r rest ih =>
    intro acc h
    obtain ⟨k, v⟩ := r
    cases v with
    | none => exact h
    | some v =>
      unfold restoreRecords
      split
      · exact ih acc h
      · exact ih _ (validMap_mapSet acc k v h)

theorem restoreRecords_get (now : Int) (key : String) :
    ∀ (records : List (String × Option KeyData)) (acc data : List (String × KeyData)),
      restoreRecords now records acc = (true, data) →
      (records.map Prod.fst).Nodup →
      (∀ k ∈ records.map Prod.fst, mapGet acc k = none) →
      mapGet data key =
        match recordsGet records key with
        | some (some v) => if v.ExpiresAt ≠ 0 ∧ v.ExpiresAt < now then none else some v
        | some none => none
        | none => mapGet acc key := by
  intro records
  induction records with
  | nil =>
    intro acc data hrr _ _
    have : acc = data := (Prod.mk.inj hrr).2
    subst this
    rfl
  | cons r rest ih =>
    intro acc data hrr hnd hacc
    obtain ⟨k, v⟩ := r
    rw [List.map_cons, List.nodup_cons] at hnd
    cases v with
    | none =>
      exact absurd (Prod.mk.inj hrr).1 (by decide)
    | some v =>
      unfold restoreRecords at hrr
      unfold recordsGet
      by_cases hexp : v.ExpiresAt ≠ 0 ∧ v.ExpiresAt < now
      · rw [if_pos hexp] at hrr
        have hih := ih acc data hrr hnd.2
          (fun k2 hk2 => hacc k2 (List.mem_cons_of_mem _ hk2))
        by_cases hk : k = key
        · subst hk
          rw [if_pos rfl]
          simp only [if_pos hexp]
          rw [hih, recordsGet_of_not_mem rest k hnd.1]
          exact hacc k (List.mem_cons_self _ _)
        · rw [if_neg hk]
          exact hih
      · rw [if_neg hexp] at hrr
        have hih := ih (mapSet acc k v) data hrr hnd.2 (fun k2 hk2 => by
          have hne : k2 ≠ k := fun e => hnd.1 (e ▸ hk2)
          rw [mapGet_mapSet_other acc k k2 v hne]
          exact hacc k2 (List.mem_cons_of_mem _ hk2))
        by_cases hk : k = key
        · subst hk
          rw [if_pos rfl]
          simp only [if_neg hexp]
          rw [hih, recordsGet_of_not_mem rest k hnd.1]
          exact mapGet_mapSet_self acc k v
        · rw [if_neg hk, hih, mapGet_mapSet_other acc k key v (fun e => hk e.symm)]

theorem restoreShards_cons (dump : DumpData) (now : Int) (s : Nat) (shard : engineShard)
    (rest : List engineShard) :
    restoreShards dump now s (shard :: rest)
      = if (restoreRecords now ((lookupShard dump.Shards (Int.ofNat s)).getD []) []).1 = false
        then (some (.panic "nil pointer dereference"),
          ⟨(restoreRecords now ((lookupShard dump.Shards (Int.ofNat s)).getD []) []).2⟩ :: rest)
        else ((restoreShards dump now (s + 1) rest).1,
          ⟨(restoreRecords now ((lookupShard dump.Shards (Int.ofNat s)).getD []) []).2⟩ ::
            (restoreShards dump now (s + 1) rest).2) := by
  rw [restoreShards]
  cases lookupShard dump.Shards (Int.ofNat s) with
  | none =>
    simp only [Option.getD]
    rcases restoreRecords now [] [] with ⟨_ | _, d⟩ <;> rfl
  | some records =>
    simp only [Option.getD]
    rcases restoreRecords now records [] with ⟨_ | _, d⟩ <;> rfl

theorem restoreShards_ok (dump : DumpData) (now : Int) :
    ∀ (shards : List engineShard) (s : Nat),
      (restoreShards dump now s shards).1 = none →
      ∀ i, i < shards.length →
        ∃ data, (restoreShards dump now s shards).2[i]? = some ⟨data⟩ ∧
          restoreRecords now ((lookupShard dump.Shards (Int.ofNat (s + i))).getD []) []
            = (true, data) := by
  intro shards
  induction shards with
  | nil => intro s _ i hi; cases hi
  | cons shard rest ih =>
    intro s hok i hi
    rw [restoreShards_cons] at hok ⊢
    rcases hrr : restoreRecords now ((lookupShard dump.Shards (Int.ofNat s)).getD []) []
      with ⟨flag, data⟩
    rw [hrr] at hok
    cases flag with
    | false => cases hok
    | true =>
      simp only [Bool.true_eq_false, if_false] at hok ⊢
      cases i with
      | zero => exact ⟨data, List.getElem?_cons_zero, hrr⟩
      | succ j =>
        obtain ⟨d, hd, hrec⟩ := ih (s + 1) hok j (by simpa using hi)
        refine ⟨d, ?_, ?_⟩
        · rw [List.getElem?_cons_succ]
          exact hd
        · have hidx : s + (j + 1) = s + 1 + j := by omega
          rw [hidx]
          exact hrec

theorem getShard_mem (me : MemoryEngine) (key : String) (i : Nat) (shard : engineShard)
    (h : me.getShard key = some (i, shard)) : shard ∈ me.shards := by
  unfold MemoryEngine.getShard at h
  split at h
  · cases h
  · split at h
    · cases h
    · rename_i sh hsh
      injection h with h
      injection h with _ h2
      subst h2
      exact List.getElem?_mem hsh

theorem record_none_of_shards (me : MemoryEngine) (key : String)
    (h : ∀ shard ∈ me.shards, mapGet shard.data key = none) : me.record key = none := by
  unfold MemoryEngine.record
  cases hgs : me.getShard key with
  | none => rfl
  | some p =>
    obtain ⟨i, shard⟩ := p
    exact h shard (getShard_mem me key i shard hgs)

/-- Claim C29: when `RestoreFromDisk` succeeds on a decoded dump whose shards
are maps, one record for a key, then the engine has as many shards as before,
and shard `i` holds, one record for a key, exactly the records of the dump's
shard `i` whose expiry is zero or not before the clock time of the restore; a
key that no shard of the dump holds is in no shard of the engine afterwards,
whatever the engine held before, and the engine has no record for it. -/
theorem restore_replaces_contents (me : MemoryEngine) (dump : DumpData) (now : Int)
    (hok : (me.RestoreFromDisk (.decoded dump) now).1 = none)
    (hmaps : ∀ i records, lookupShard dump.Shards i = some records →
      (records.map Prod.fst).Nodup) :
    (me.RestoreFromDisk (.decoded dump) now).2.shards.length = me.shards.length ∧
      (∀ (i : Nat), i < me.shards.length →
        ∃ shard, (me.RestoreFromDisk (.decoded dump) now).2.shards[i]? = some shard ∧
          validMap shard.data ∧
          ∀ key, mapGet shard.data key
            = (dumpRecord dump (Int.ofNat i) key).filter
                (fun v => decide (v.ExpiresAt = 0 ∨ ¬ v.ExpiresAt < now))) ∧
      (∀ key, (∀ i : Nat, i < me.shards.length → dumpRecord dump (Int.ofNat i) key = none) →
        (∀ shard ∈ (me.RestoreFromDisk (.decoded dump) now).2.shards,
          mapGet shard.data key = none) ∧
        (me.RestoreFromDisk (.decoded dump) now).2.record key = none) := by
  have hshards : (me.RestoreFromDisk (.decoded dump) now).2.shards
      = (restoreShards dump now 0 me.shards).2 := rfl
  have hok2 : (restoreShards dump now 0 me.shards).1 = none := hok
  have hlen : (me.RestoreFromDisk (.decoded dump) now).2.shards.length = me.shards.length := by
    rw [hshards, restoreShards_length]
  have hmain : ∀ (i : Nat), i < me.shards.length →
      ∃ shard, (me.RestoreFromDisk (.decoded dump) now).2.shards[i]? = some shard ∧
        validMap shard.data ∧
        ∀ key, mapGet shard.data key
          = (dumpRecord dump (Int.ofNat i) key).filter
              (fun v => decide (v.ExpiresAt = 0 ∨ ¬ v.ExpiresAt < now)) := by
    intro i hi
    obtain ⟨data, hdata, hrr⟩ := restoreShards_ok dump now me.shards 0 hok2 i hi
    rw [Nat.zero_add] at hrr
    refine ⟨⟨data⟩, by rw [hshards]; exact hdata, ?_, ?_⟩
    · have hv := restoreRecords_validMap now
        ((lookupShard dump.Shards (Int.ofNat i)).getD []) [] List.nodup_nil
      rw [hrr] at hv
      exact hv
    · intro key
      have hnd : (((lookupShard dump.Shards (Int.ofNat i)).getD []).map Prod.fst).Nodup := by
        cases hl : lookupShard dump.Shards (Int.ofNat i) with
        | none => exact List.nodup_nil
        | some records => exact hmaps _ records hl
      have hget := restoreRecords_get now key _ [] data hrr hnd (fun _ _ => rfl)
      show mapGet data key = _
      rw [hget]
      unfold dumpRecord
      cases hl : lookupShard dump.Shards (Int.ofNat i) with
      | none => rfl
      | some records =>
        simp only [Option.getD]
        rcases hrg : recordsGet records key with _ | _ | v
        · rfl
        · rfl
        · simp only [Option.filter]
          by_cases hexp : v.ExpiresAt ≠ 0 ∧ v.ExpiresAt < now
          · have h2 : ¬ (v.ExpiresAt = 0 ∨ ¬ v.ExpiresAt < now) := by
              intro h
              rcases h with h | h
              · exact hexp.1 h
              · exact h hexp.2
            rw [if_pos hexp]
            simp only [h2, decide_False, Bool.false_eq_true, if_false]
          · have h2 : v.ExpiresAt = 0 ∨ ¬ v.ExpiresAt < now := by
              by_cases hz : v.ExpiresAt = 0
              · exact Or.inl hz
              · exact Or.inr (fun hlt => hexp ⟨hz, hlt⟩)
            rw [if_neg hexp]
            simp only [h2, decide_True, if_true]
  refine ⟨hlen, hmain, ?_⟩
  intro key hkey
  have hall : ∀ shard ∈ (me.RestoreFromDisk (.decoded dump) now).2.shards,
      mapGet shard.data key = none := by
    intro shard hmem
    obtain ⟨i, hi, hget⟩ := List.getElem_of_mem hmem
    have hi2 : i < me.shards.length := by rw [← hlen]; exact hi
    obtain ⟨sh, hsh, _, hval⟩ := hmain i hi2
    rw [List.getElem?_eq_getElem hi, hget] at hsh
    injection hsh with hsh
    subst hsh
    rw [hval key, hkey i hi2]
    rfl
  exact ⟨hall, record_none_of_shards _ key hall⟩


/-- Claim C29 on a concrete dump: an engine that holds `old` restores a dump of
two shards with a live record, an expired one and one with a later expiry; the
live ones are what the shards hold afterwards and `old` is gone. -/
theorem restore_replaces_contents_witness :
    (((engineOn 1).Set "old" (.json (.str "x")) []).2.RestoreFromDisk
        (.decoded ⟨1, 0, [(0, [("a", some ⟨[1], 0⟩), ("b", some ⟨[2], 5⟩)]),
          (1, [("c", some ⟨[3], 100⟩)])]⟩) 10).1 = none ∧
      ((engineOn 1).Set "old" (.json (.str "x")) []).2.record "old" ≠ none ∧
      (((engineOn 1).Set "old" (.json (.str "x")) []).2.RestoreFromDisk
        (.decoded ⟨1, 0, [(0, [("a", some ⟨[1], 0⟩), ("b", some ⟨[2], 5⟩)]),
          (1, [("c", some ⟨[3], 100⟩)])]⟩) 10).2.record "old" = none ∧
      (((engineOn 1).Set "old" (.json (.str "x")) []).2.RestoreFromDisk
        (.decoded ⟨1, 0, [(0, [("a", some ⟨[1], 0⟩), ("b", some ⟨[2], 5⟩)]),
          (1, [("c", some ⟨[3], 100⟩)])]⟩) 10).2.shards
        = [⟨[("a", ⟨[1], 0⟩)]⟩, ⟨[("c", ⟨[3], 100⟩)]⟩] :=
  ⟨rfl, by decide,
    ((restore_replaces_contents ((engineOn 1).Set "old" (.json (.str "x")) []).2
      ⟨1, 0, [(0, [("a", some ⟨[1], 0⟩), ("b", some ⟨[2], 5⟩)]),
        (1, [("c", some ⟨[3], 100⟩)])]⟩ 10 rfl
      (fun i records h => by
        simp only [lookupShard] at h
        split_ifs at h
        · injection h with h
          subst h
          decide
        · injection h with h
          subst h
          decide)).2.2 "old" (fun i hi => by
        have hi2 : i < 2 := hi
        interval_cases i <;> rfl)).2,
    by decide⟩

/-! ### No newline inside a reply -/

theorem digitChar_ne_newline (n : Nat) (h : n < 10) : Nat.digitChar n ≠ '\n' := by
  interval_cases n <;> decide

theorem toDigitsCore_no_newline (fuel : Nat) :
    ∀ (n : Nat) (ds : List Char), '\n' ∉ ds → '\n' ∉ Nat.toDigitsCore 10 fuel n ds := by
  induction fuel with
  | zero => intro n ds h; exact h
  | succ fuel ih =>
    intro n ds h
    have hcons : '\n' ∉ Nat.digitChar (n % 10) :: ds := by
      intro hm
      rcases List.mem_cons.mp hm with h1 | h1
      · exact digitChar_ne_newline _ (Nat.mod_lt n (by decide)) h1.symm
      · exact h h1
    unfold Nat.toDigitsCore
    simp only []
    split
    · exact hcons
    · exact ih _ _ hcons

theorem toString_nat_no_newline (n : Nat) : '\n' ∉ (toString n).data := by
  show '\n' ∉ (Nat.repr n).data
  unfold Nat.repr Nat.toDigits
  exact toDigitsCore_no_newline _ _ _ (List.not_mem_nil _)

theorem toString_int_no_newline (n : Int) : '\n' ∉ (toString n).data := by
  cases n with
  | ofNat m => exact toString_nat_no_newline m
  | negSucc m =>
    show '\n' ∉ ("-" ++ toString (Nat.succ m)).data
    rw [String.data_append, List.mem_append]
    rintro (h | h)
    · exact absurd h (by decide)
    · exact toString_nat_no_newline _ h

theorem hexDigit_ne_newline (n : Nat) : hexDigit n ≠ '\n' := by
  unfold hexDigit
  by_cases h : n < 16
  · interval_cases n <;> decide
  · have : "0123456789abcdef".data.getD n '0' = '0' := by
      apply List.getD_eq_default
      have : "0123456789abcdef".data.length = 16 := rfl
      omega
    rw [this]
    decide

theorem escapeChar_no_newline (c : Char) : '\n' ∉ escapeChar c := by
  have hh := hexDigit_ne_newline
  unfold escapeChar
  split_ifs with h1 h2 h3 h4 h5 h6 h7 h8
  · rcases h1 with h1 | h1 <;> rw [h1] <;> decide
  · decide
  · decide
  · decide
  · decide
  · decide
  · intro hm
    simp only [List.mem_cons, List.mem_singleton, List.not_mem_nil, or_false] at hm
    rcases hm with h | h | h | h | h | h
    · exact absurd h (by decide)
    · exact absurd h (by decide)
    · exact absurd h (by decide)
    · exact absurd h (by decide)
    · exact hh _ h.symm
    · exact hh _ h.symm
  · intro hm
    simp only [List.mem_cons, List.mem_singleton, List.not_mem_nil, or_false] at hm
    rcases hm with h | h | h | h | h | h
    · exact absurd h (by decide)
    · exact absurd h (by decide)
    · exact absurd h (by decide)
    · exact absurd h (by decide)
    · exact absurd h (by decide)
    · exact hh _ h.symm
  · intro hm
    rw [List.mem_singleton] at hm
    exact h4 hm.symm

theorem quote_no_newline (s : String) : '\n' ∉ quote s := by
  unfold quote
  intro hm
  rcases List.mem_cons.mp hm with h | h
  · exact absurd h (by decide)
  · rcases List.mem_append.mp h with h | h
    · obtain ⟨c, _, hc⟩ := List.mem_flatMap.mp h
      exact escapeChar_no_newline c hc
    · exact absurd h (by decide)

theorem setBytes_str_no_newline (v : String) (h : '\n' ∉ v.data) :
    10 ∉ setBytes (.str v) := by
  show 10 ∉ (if isWrapped v then toBytes v else toBytes (String.mk (quote v)))
  split
  · exact fun h10 => h ((newline_mem_toBytes v).mp h10)
  · exact fun h10 => quote_no_newline v ((newline_mem_toBytes _).mp h10)

theorem mapGet_mem (m : List (String × KeyData)) (key : String) (d : KeyData)
    (h : mapGet m key = some d) : (key, d) ∈ m := by
  induction m with
  | nil => cases h
  | cons p rest ih =>
    obtain ⟨k, v⟩ := p
    unfold mapGet at h
    split at h
    · rename_i hk
      injection h with h
      rw [← hk, ← h]
      exact List.mem_cons_self _ _
    · exact List.mem_cons_of_mem _ (ih h)

/-! ### Every reply is one line -/

theorem ttl_ok (me : MemoryEngine) (key : String) (now : Int) (hwf : me.WF) :
    ∃ ttl engine, me.TTL key now = (.ok ttl, engine) := by
  cases hrec : me.record key with
  | none => exact ⟨_, _, ttl_absent_eq me key now hwf hrec⟩
  | some data =>
    by_cases hz : data.ExpiresAt = 0
    · exact ⟨_, _, ttl_noexpiry_eq me key now data hwf hrec hz⟩
    · by_cases hexp : timeUntil data.ExpiresAt now ≤ 0
      · exact ⟨_, _, ttl_expired_eq me key now data hwf hrec hz hexp⟩
      · exact ⟨_, _, ttl_live_eq me key now data hwf hrec hz hexp⟩

theorem record_mem (me : MemoryEngine) (key : String) (data : KeyData)
    (h : me.record key = some data) : ∃ shard ∈ me.shards, (key, data) ∈ shard.data := by
  unfold MemoryEngine.record at h
  cases hgs : me.getShard key with
  | none => rw [hgs] at h; cases h
  | some p =>
    obtain ⟨i, shard⟩ := p
    rw [hgs] at h
    exact ⟨shard, getShard_mem me key i shard hgs, mapGet_mem shard.data key data h⟩

theorem get_writtenBySet (me : MemoryEngine) (key : String) (now : Int) (hwf : me.WF)
    (hset : me.writtenBySet) :
    (∃ engine, me.Get key now = (.error .ErrKeyNotFound, engine)) ∨
      (∃ value, me.Get key now = (.ok value, me) ∧ 10 ∉ value) := by
  cases hrec : me.record key with
  | none => exact Or.inl ⟨_, get_absent_eq me key now hwf hrec⟩
  | some data =>
    by_cases hexp : data.ExpiresAt ≠ 0 ∧ data.ExpiresAt < now
    · exact Or.inl ⟨_, get_expired_eq me key now data hwf hrec hexp⟩
    · right
      obtain ⟨shard, hshard, hmem⟩ := record_mem me key data hrec
      obtain ⟨v, nonce, hv, hn, hval⟩ := hset shard hshard (key, data) hmem
      have hval2 : data.Value = me.seal nonce (setBytes (.str v)) := hval
      refine ⟨setBytes (.str v), ?_, setBytes_str_no_newline v hv⟩
      rw [get_live_eq me key now data hwf hrec hexp, hval2, unseal_seal me nonce _ hn]

theorem executeCommand_single_line (s : Server) (command : String) (nonce : List Nat)
    (now : Int) (hwf : s.Engine.WF) (hset : s.Engine.writtenBySet) :
    (∃ m engine, s.executeCommand command nonce now = (.error (.errorf m), engine) ∧
        '\n' ∉ m.data) ∨
      (∃ engine, s.executeCommand command nonce now = (.error .ErrKeyNotFound, engine)) ∨
      (∃ response engine, s.executeCommand command nonce now = (.ok response, engine) ∧
        10 ∉ response) := by
  cases hf : fields command with
  | nil =>
    left
    refine ⟨"empty command", s.Engine, ?_, by decide⟩
    unfold Server.executeCommand
    rw [hf]
  | cons verb args =>
    by_cases h1 : toUpper verb = "PING"
    · exact Or.inr (Or.inr ⟨_, _, executeCommand_ping s command verb args nonce now hf h1,
        by decide⟩)
    by_cases h2 : toUpper verb = "SET"
    · rcases args with _ | ⟨key, _ | ⟨first, more⟩⟩
      · exact Or.inl ⟨_, _, executeCommand_set_arity s command verb _ nonce now hf h2
          (by decide), by decide⟩
      · exact Or.inl ⟨_, _, executeCommand_set_arity s command verb _ nonce now hf h2
          (by simp), by decide⟩
      · have hex := executeCommand_set s command verb key first more nonce now hf h2
        rw [set_json_eq s.Engine key _ nonce hwf] at hex
        exact Or.inr (Or.inr ⟨toBytes "OK", _, hex, by decide⟩)
    by_cases h3 : toUpper verb = "GET"
    · rcases args with _ | ⟨key, _ | ⟨x, rest⟩⟩
      · exact Or.inl ⟨_, _, executeCommand_get_arity s command verb _ nonce now hf h3
          (by decide), by decide⟩
      · have hex := executeCommand_get s command verb key nonce now hf h3
        rcases get_writtenBySet s.Engine key now hwf hset with ⟨engine, hg⟩ | ⟨value, hg, hv⟩
        · rw [hg] at hex
          exact Or.inr (Or.inr ⟨toBytes "nil", engine, hex, by decide⟩)
        · rw [hg] at hex
          exact Or.inr (Or.inr ⟨value, s.Engine, hex, hv⟩)
      · exact Or.inl ⟨_, _, executeCommand_get_arity s command verb _ nonce now hf h3
          (by simp), by decide⟩
    by_cases h4 : toUpper verb = "DELETE"
    · rcases args with _ | ⟨key, _ | ⟨x, rest⟩⟩
      · exact Or.inl ⟨_, _, executeCommand_delete_arity s command verb _ nonce now hf h4
          (by decide), by decide⟩
      · have hex := executeCommand_delete s command verb key nonce now hf h4
        cases hrec : s.Engine.record key with
        | none =>
          rw [delete_absent_eq s.Engine key hwf hrec] at hex
          exact Or.inr (Or.inl ⟨_, hex⟩)
        | some data =>
          rw [delete_present_eq s.Engine key data hwf hrec] at hex
          exact Or.inr (Or.inr ⟨toBytes "OK", _, hex, by decide⟩)
      · exact Or.inl ⟨_, _, executeCommand_delete_arity s command verb _ nonce now hf h4
          (by simp), by decide⟩
    by_cases h5 : toUpper verb = "TTL"
    · rcases args with _ | ⟨key, _ | ⟨x, rest⟩⟩
      · exact Or.inl ⟨_, _, executeCommand_ttl_arity s command verb _ nonce now hf h5
          (by decide), by decide⟩
      · have hex := executeCommand_ttl s command verb key nonce now hf h5
        obtain ⟨ttl, engine, httl⟩ := ttl_ok s.Engine key now hwf
        rw [httl] at hex
        refine Or.inr (Or.inr ⟨toBytes (toString ttl), engine, hex, ?_⟩)
        exact fun h10 => toString_int_no_newline ttl ((newline_mem_toBytes _).mp h10)
      · exact Or.inl ⟨_, _, executeCommand_ttl_arity s command verb _ nonce now hf h5
          (by simp), by decide⟩
    left
    refine ⟨_, _, executeCommand_unknown s command verb args nonce now hf h1 h2 h3 h4 h5, ?_⟩
    have hverb : verb ∈ fields command := by rw [hf]; exact List.mem_cons_self _ _
    have hup := toUpper_no_newline verb (fields_no_space _ verb hverb)
    rw [String.data_append, List.mem_append]
    rintro (h | h)
    · exact absurd h (by decide)
    · exact hup h

/-- Claim C26: on a well-formed engine whose values were all written through
`SET` commands, whether the connection is authenticated or not, a line that is
not blank is answered with bytes that end in a newline and hold no other
newline; a blank line is answered with nothing, leaves the connection as
authenticated as it was and open, and leaves the engine as it was. -/
theorem reply_single_line (s : Server) (authenticated : Bool) (line : String)
    (nonce : List Nat) (now : Int) (hwf : s.Engine.WF) (hset : s.Engine.writtenBySet) :
    (trimSpace line ≠ "" →
        ∃ body, (s.handleLine authenticated line nonce now).reply = some (body ++ [10]) ∧
          10 ∉ body) ∧
      (trimSpace line = "" →
        (s.handleLine authenticated line nonce now).reply = none ∧
        (s.handleLine authenticated line nonce now).authenticated = authenticated ∧
        (s.handleLine authenticated line nonce now).panicked = false ∧
        (s.handleLine authenticated line nonce now).engine = s.Engine) := by
  constructor
  · intro hne
    cases authenticated with
    | false =>
      unfold Server.handleLine
      rw [if_neg hne, if_pos rfl]
      split
      · split_ifs
        · exact ⟨toBytes "ERROR Authentication required", rfl, by decide⟩
        · exact ⟨toBytes "ERROR Invalid password", rfl, by decide⟩
        · exact ⟨toBytes "OK", rfl, by decide⟩
      · exact ⟨toBytes "ERROR Authentication required", rfl, by decide⟩
    | true =>
      rcases executeCommand_single_line s (trimSpace line) nonce now hwf hset with
        ⟨m, engine, hex, hm⟩ | ⟨engine, hex⟩ | ⟨response, engine, hex, hr⟩
      · rw [handleLine_error s line nonce now m engine hne hex]
        refine ⟨toBytes ("ERROR " ++ m), congrArg some (toBytes_append ("ERROR " ++ m) "\n"), ?_⟩
        intro h10
        rw [toBytes_append, List.mem_append] at h10
        rcases h10 with h | h
        · exact absurd h (by decide)
        · exact hm ((newline_mem_toBytes m).mp h)
      · rw [handleLine_notFound s line nonce now engine hne hex]
        exact ⟨toBytes "ERROR key not found", rfl, by decide⟩
      · by_cases hempty : response = []
        · rw [hempty] at hex
          rw [handleLine_ok_empty s line nonce now engine hne hex]
          exact ⟨toBytes "OK", rfl, by decide⟩
        · rw [handleLine_ok s line nonce now response engine hne hex hempty]
          exact ⟨response, rfl, hr⟩
  · intro hblank
    rw [handleLine_blank s authenticated line nonce now hblank]
    exact ⟨rfl, rfl, rfl, rfl⟩

/-! ### The commands keep the engine one that `SET` wrote -/

theorem joinSpace_mem (tokens : List String) (c : Char) (h : c ∈ joinSpace tokens) :
    c = ' ' ∨ ∃ t ∈ tokens, c ∈ t.data := by
  induction tokens with
  | nil => cases h
  | cons p rest ih =>
    cases rest with
    | nil => exact Or.inr ⟨p, List.mem_cons_self _ _, h⟩
    | cons q more =>
      unfold joinSpace at h
      rcases List.mem_append.mp h with h1 | h1
      · exact Or.inr ⟨p, List.mem_cons_self _ _, h1⟩
      · rcases List.mem_cons.mp h1 with h2 | h2
        · exact Or.inl h2
        · rcases ih h2 with h3 | ⟨t, ht, hc⟩
          · exact Or.inl h3
          · exact Or.inr ⟨t, List.mem_cons_of_mem _ ht, hc⟩

theorem trimQuotePrefix_mem (l : List Char) (c : Char) (h : c ∈ trimQuotePrefix l) : c ∈ l := by
  rw [trimQuotePrefix_eq] at h
  split at h
  · exact List.mem_of_mem_tail h
  · exact h

theorem trimQuoteSuffix_mem (l : List Char) (c : Char) (h : c ∈ trimQuoteSuffix l) : c ∈ l := by
  unfold trimQuoteSuffix at h
  rw [List.mem_reverse] at h
  exact List.mem_reverse.mp (trimQuotePrefix_mem _ c h)

theorem set_value_no_newline (command verb key first : String) (more : List String)
    (hf : fields command = verb :: key :: first :: more) :
    '\n' ∉ trimQuoteSuffix (trimQuotePrefix (joinSpace (first :: more))) := by
  intro h
  rcases joinSpace_mem _ _ (trimQuotePrefix_mem _ _ (trimQuoteSuffix_mem _ _ h)) with
    h1 | ⟨t, ht, hc⟩
  · exact absurd h1 (by decide)
  · have htok : t ∈ fields command := by
      rw [hf]
      exact List.mem_cons_of_mem _ (List.mem_cons_of_mem _ ht)
    have := fields_no_space command t htok '\n' hc
    exact absurd this (by decide)

theorem shardData_mem (me : MemoryEngine) (key : String) (p : String × KeyData)
    (h : p ∈ me.shardData key) : ∃ shard ∈ me.shards, p ∈ shard.data := by
  unfold MemoryEngine.shardData at h
  cases hgs : me.getShard key with
  | none => rw [hgs] at h; cases h
  | some q =>
    obtain ⟨i, shard⟩ := q
    rw [hgs] at h
    exact ⟨shard, getShard_mem me key i shard hgs, h⟩

theorem putShard_writtenBySet (me : MemoryEngine) (i : Nat) (data : List (String × KeyData))
    (hset : me.writtenBySet)
    (hdata : ∀ p ∈ data, ∃ (v : String) (nonce : List Nat), '\n' ∉ v.data ∧
      nonce.length = 16 ∧ p.2.Value = me.seal nonce (setBytes (.str v))) :
    (me.putShard i data).writtenBySet := by
  intro shard hshard p hp
  have hmem : shard ∈ me.shards.set i ⟨data⟩ := hshard
  rcases List.mem_or_eq_of_mem_set hmem with h | h
  · exact hset shard h p hp
  · rw [h] at hp
    exact hdata p hp

theorem put_delete_writtenBySet (me : MemoryEngine) (key : String) (hset : me.writtenBySet) :
    (me.putShard (me.shardIndex key) (mapDelete (me.shardData key) key)).writtenBySet := by
  apply putShard_writtenBySet me _ _ hset
  intro p hp
  unfold mapDelete at hp
  obtain ⟨shard, hshard, hmem⟩ := shardData_mem me key p (List.mem_filter.mp hp).1
  exact hset shard hshard p hmem

theorem put_set_writtenBySet (me : MemoryEngine) (key v : String) (nonce : List Nat)
    (hset : me.writtenBySet) (hv : '\n' ∉ v.data) (hn : nonce.length = 16) :
    (me.putShard (me.shardIndex key)
      (mapSet (me.shardData key) key ⟨me.seal nonce (setBytes (.str v)), 0⟩)).writtenBySet := by
  apply putShard_writtenBySet me _ _ hset
  intro p hp
  unfold mapSet at hp
  rcases List.mem_cons.mp hp with h | h
  · rw [h]
    exact ⟨v, nonce, hv, hn, rfl⟩
  · unfold mapDelete at h
    obtain ⟨shard, hshard, hmem⟩ := shardData_mem me key p (List.mem_filter.mp h).1
    exact hset shard hshard p hmem

theorem get_engine_writtenBySet (me : MemoryEngine) (key : String) (now : Int) (hwf : me.WF)
    (hset : me.writtenBySet) : (me.Get key now).2.writtenBySet := by
  cases hrec : me.record key with
  | none => rw [get_absent_eq me key now hwf hrec]; exact hset
  | some data =>
    by_cases hexp : data.ExpiresAt ≠ 0 ∧ data.ExpiresAt < now
    · rw [get_expired_eq me key now data hwf hrec hexp]
      exact put_delete_writtenBySet me key hset
    · rw [get_live_eq me key now data hwf hrec hexp]
      exact hset

theorem ttl_engine_writtenBySet (me : MemoryEngine) (key : String) (now : Int) (hwf : me.WF)
    (hset : me.writtenBySet) : (me.TTL key now).2.writtenBySet := by
  cases hrec : me.record key with
  | none => rw [ttl_absent_eq me key now hwf hrec]; exact hset
  | some data =>
    by_cases hz : data.ExpiresAt = 0
    · rw [ttl_noexpiry_eq me key now data hwf hrec hz]; exact hset
    · by_cases hexp : timeUntil data.ExpiresAt now ≤ 0
      · rw [ttl_expired_eq me key now data hwf hrec hz hexp]
        exact put_delete_writtenBySet me key hset
      · rw [ttl_live_eq me key now data hwf hrec hz hexp]; exact hset

theorem delete_engine_writtenBySet (me : MemoryEngine) (key : String) (hwf : me.WF)
    (hset : me.writtenBySet) : (me.Delete key).2.writtenBySet := by
  cases hrec : me.record key with
  | none => rw [delete_absent_eq me key hwf hrec]; exact hset
  | some data =>
    rw [delete_present_eq me key data hwf hrec]
    exact put_delete_writtenBySet me key hset

theorem executeCommand_writtenBySet (s : Server) (command : String) (nonce : List Nat)
    (now : Int) (hwf : s.Engine.WF) (hset : s.Engine.writtenBySet) (hn : nonce.length = 16) :
    (s.executeCommand command nonce now).2.writtenBySet := by
  cases hf : fields command with
  | nil =>
    unfold Server.executeCommand
    rw [hf]
    exact hset
  | cons verb args =>
    by_cases h1 : toUpper verb = "PING"
    · rw [executeCommand_ping s command verb args nonce now hf h1]; exact hset
    by_cases h2 : toUpper verb = "SET"
    · rcases args with _ | ⟨key, _ | ⟨first, more⟩⟩
      · rw [executeCommand_set_arity s command verb _ nonce now hf h2 (by decide)]; exact hset
      · rw [executeCommand_set_arity s command verb _ nonce now hf h2 (by simp)]; exact hset
      · have hex := executeCommand_set s command verb key first more nonce now hf h2
        rw [set_json_eq s.Engine key _ nonce hwf] at hex
        rw [hex]
        exact put_set_writtenBySet s.Engine key _ nonce hset
          (set_value_no_newline command verb key first more hf) hn
    by_cases h3 : toUpper verb = "GET"
    · rcases args with _ | ⟨key, _ | ⟨x, rest⟩⟩
      · rw [executeCommand_get_arity s command verb _ nonce now hf h3 (by decide)]; exact hset
      · have hex := executeCommand_get s command verb key nonce now hf h3
        have hg := get_engine_writtenBySet s.Engine key now hwf hset
        rcases hget : s.Engine.Get key now with ⟨r, engine⟩
        rw [hget] at hex hg
        rw [hex]
        rcases r with (_ | _ | _) | value <;> exact hg
      · rw [executeCommand_get_arity s command verb _ nonce now hf h3 (by simp)]; exact hset
    by_cases h4 : toUpper verb = "DELETE"
    · rcases args with _ | ⟨key, _ | ⟨x, rest⟩⟩
      · rw [executeCommand_delete_arity s command verb _ nonce now hf h4 (by decide)]
        exact hset
      · have hex := executeCommand_delete s command verb key nonce now hf h4
        have hg := delete_engine_writtenBySet s.Engine key hwf hset
        rcases hdel : s.Engine.Delete key with ⟨r, engine⟩
        rw [hdel] at hex hg
        rw [hex]
        rcases r with _ | err <;> exact hg
      · rw [executeCommand_delete_arity s command verb _ nonce now hf h4 (by simp)]
        exact hset
    by_cases h5 : toUpper verb = "TTL"
    · rcases args with _ | ⟨key, _ | ⟨x, rest⟩⟩
      · rw [executeCommand_ttl_arity s command verb _ nonce now hf h5 (by decide)]; exact hset
      · have hex := executeCommand_ttl s command verb key nonce now hf h5
        have hg := ttl_engine_writtenBySet s.Engine key now hwf hset
        rcases httl : s.Engine.TTL key now with ⟨r, engine⟩
        rw [httl] at hex hg
        rw [hex]
        rcases r with err | ttl <;> exact hg
      · rw [executeCommand_ttl_arity s command verb _ nonce now hf h5 (by simp)]; exact hset
    rw [executeCommand_unknown s command verb args nonce now hf h1 h2 h3 h4 h5]
    exact hset

theorem handleLine_writtenBySet (s : Server) (authenticated : Bool) (line : String)
    (nonce : List Nat) (now : Int) (hwf : s.Engine.WF) (hset : s.Engine.writtenBySet)
    (hn : nonce.length = 16) :
    (s.handleLine authenticated line nonce now).engine.writtenBySet := by
  by_cases hblank : trimSpace line = ""
  · rw [handleLine_blank s authenticated line nonce now hblank]
    exact hset
  · cases authenticated with
    | false =>
      unfold Server.handleLine
      rw [if_neg hblank, if_pos rfl]
      split
      · split_ifs <;> exact hset
      · exact hset
    | true =>
      have hex := executeCommand_writtenBySet s (trimSpace line) nonce now hwf hset hn
      unfold Server.handleLine
      rw [if_neg hblank, if_neg (by decide)]
      rcases hr : s.executeCommand (trimSpace line) nonce now with ⟨r, engine⟩
      rw [hr] at hex
      rcases r with (_ | _ | _) | response
      · exact hex
      · exact hex
      · exact hex
      · simp only []
        split <;> exact hex

theorem engineOn_writtenBySet (cpus : Nat) : (engineOn cpus).writtenBySet := by
  intro shard hshard p hp
  have hmem : shard ∈ List.replicate (cpus * 2) (⟨[]⟩ : engineShard) := hshard
  rw [(List.mem_replicate.mp hmem).2] at hp
  cases hp

/-- Claim C26 at a concrete engine, the empty one after the line `SET k a b`: the
`GET k` that follows is answered with one line, the stored JSON text, and a
line of blanks is answered with nothing. -/
theorem reply_single_line_witness :
    ((⟨engineOn 1, "pw"⟩ : Server).handleLine true "SET k a b\n" (List.replicate 16 0)
        0).engine.WF ∧
      ((⟨engineOn 1, "pw"⟩ : Server).handleLine true "SET k a b\n" (List.replicate 16 0)
        0).engine.writtenBySet ∧
      (∃ body, ((⟨((⟨engineOn 1, "pw"⟩ : Server).handleLine true "SET k a b\n"
          (List.replicate 16 0) 0).engine, "pw"⟩ : Server).handleLine true "GET k\n" []
          0).reply = some (body ++ [10]) ∧ 10 ∉ body) ∧
      ((⟨((⟨engineOn 1, "pw"⟩ : Server).handleLine true "SET k a b\n"
          (List.replicate 16 0) 0).engine, "pw"⟩ : Server).handleLine true "GET k\n" []
          0).reply = some (toBytes "\"a b\"\n") ∧
      ((⟨((⟨engineOn 1, "pw"⟩ : Server).handleLine true "SET k a b\n"
          (List.replicate 16 0) 0).engine, "pw"⟩ : Server).handleLine false " \t\n" []
          0).reply = none :=
  ⟨by decide,
    handleLine_writtenBySet ⟨engineOn 1, "pw"⟩ true "SET k a b\n" (List.replicate 16 0) 0
      (by decide) (engineOn_writtenBySet 1) (by decide),
    (reply_single_line ⟨((⟨engineOn 1, "pw"⟩ : Server).handleLine true "SET k a b\n"
        (List.replicate 16 0) 0).engine, "pw"⟩ true "GET k\n" [] 0 (by decide)
      (handleLine_writtenBySet ⟨engineOn 1, "pw"⟩ true "SET k a b\n" (List.replicate 16 0) 0
        (by decide) (engineOn_writtenBySet 1) (by decide))).1 (by decide),
    by decide,
    ((reply_single_line ⟨((⟨engineOn 1, "pw"⟩ : Server).handleLine true "SET k a b\n"
        (List.replicate 16 0) 0).engine, "pw"⟩ false " \t\n" [] 0 (by decide)
      (handleLine_writtenBySet ⟨engineOn 1, "pw"⟩ true "SET k a b\n" (List.replicate 16 0) 0
        (by decide) (engineOn_writtenBySet 1) (by decide))).2 (by decide)).1⟩

/-! ### Authentication is kept -/

theorem handleLine_keeps_authenticated (s : Server) (line : String) (nonce : List Nat)
    (now : Int) : (s.handleLine true line nonce now).authenticated = true := by
  unfold Server.handleLine
  split
  · rfl
  · rw [if_neg (by decide)]
    rcases s.executeCommand (trimSpace line) nonce now with ⟨(_ | _ | _) | response, engine⟩
    · rfl
    · rfl
    · rfl
    · simp only []
      split <;> rfl

/-- Claim C31: on an authenticated connection every line, whatever it holds,
leaves the client authenticated, and so does every sequence of lines up to the
end of the read loop; a later `AUTH` line, with the right password or a wrong
one, is answered as an unknown command and changes nothing. -/
theorem authentication_monotone :
    (∀ (s : Server) (line : String) (nonce : List Nat) (now : Int),
        (s.handleLine true line nonce now).authenticated = true) ∧
      (∀ (inputs : List (String × List Nat × Int)) (s : Server),
        (s.handleLines true inputs).1 = true) ∧
      ((⟨engineOn 1, "pw"⟩ : Server).handleLine true "AUTH wrong\n" [] 0).reply
        = some (toBytes "ERROR unknown command: AUTH\n") ∧
      ((⟨engineOn 1, "pw"⟩ : Server).handleLine true "AUTH pw\n" [] 0).reply
        = some (toBytes "ERROR unknown command: AUTH\n") := by
  refine ⟨handleLine_keeps_authenticated, ?_, by decide, by decide⟩
  intro inputs
  induction inputs with
  | nil => intro s; rfl
  | cons input rest ih =>
    intro s
    obtain ⟨line, nonce, now⟩ := input
    unfold Server.handleLines
    rw [handleLine_keeps_authenticated s line nonce now]
    split
    · rfl
    · exact ih _

/-! ### The footprint of the single-key methods -/

theorem getShard_facts (me : MemoryEngine) (key : String) (i : Nat) (shard : engineShard)
    (h : me.getShard key = some (i, shard)) :
    me.numShards % 2 ^ 32 ≠ 0 ∧ i = fnv32a (toBytes key) % (me.numShards % 2 ^ 32) ∧
      me.shards[i]? = some shard := by
  unfold MemoryEngine.getShard at h
  split at h
  · cases h
  · rename_i hn
    split at h
    · cases h
    · rename_i sh hsh
      injection h with h
      injection h with h1 h2
      subst h1
      subst h2
      exact ⟨hn, rfl, hsh⟩

theorem record_putShard_frame (me : MemoryEngine) (key other : String) (i : Nat)
    (shard : engineShard) (data : List (String × KeyData))
    (hgs : me.getShard key = some (i, shard))
    (hdata : mapGet data other = mapGet shard.data other) :
    (me.putShard i data).record other = me.record other := by
  obtain ⟨hn, _, hshard⟩ := getShard_facts me key i shard hgs
  have hlt : i < me.shards.length := by
    by_contra hge
    rw [List.getElem?_eq_none (by omega)] at hshard
    cases hshard
  have hn2 : ¬ (me.putShard i data).numShards % 2 ^ 32 = 0 := hn
  have hshards : (me.putShard i data).shards = me.shards.set i ⟨data⟩ := rfl
  have hnum : (me.putShard i data).numShards = me.numShards := rfl
  unfold MemoryEngine.record MemoryEngine.getShard
  rw [if_neg hn, if_neg hn2, hshards, hnum]
  by_cases hj : fnv32a (toBytes other) % (me.numShards % 2 ^ 32) = i
  · rw [hj, hshard, List.getElem?_set_self hlt]
    exact hdata
  · rw [List.getElem?_set_ne (fun e => hj e.symm)]

theorem set_frame (me : MemoryEngine) (key other : String) (value : GoValue)
    (nonce : List Nat) (hne : other ≠ key) :
    (me.Set key value nonce).2.record other = me.record other := by
  unfold MemoryEngine.Set
  simp only []
  split
  · rfl
  · split
    · rfl
    · split
      · rfl
      · rename_i i shard hgs
        exact record_putShard_frame me key other i shard _ hgs
          (mapGet_mapSet_other shard.data key other _ hne)

theorem setWithTTL_frame (me : MemoryEngine) (key other : String) (value : List Nat)
    (ttl now : Int) (hne : other ≠ key) :
    (me.SetWithTTL key value ttl now).2.record other = me.record other := by
  unfold MemoryEngine.SetWithTTL
  split
  · rfl
  · split
    · rfl
    · rename_i i shard hgs
      exact record_putShard_frame me key other i shard _ hgs
        (mapGet_mapSet_other shard.data key other _ hne)

theorem get_frame (me : MemoryEngine) (key other : String) (now : Int) (hne : other ≠ key) :
    (me.Get key now).2.record other = me.record other := by
  unfold MemoryEngine.Get
  split
  · rfl
  · rename_i i shard hgs
    split
    · rfl
    · split
      · exact record_putShard_frame me key other i shard _ hgs
          (mapGet_mapDelete_other shard.data key other hne)
      · split
        · split <;> rfl
        · rfl

theorem delete_frame (me : MemoryEngine) (key other : String) (hne : other ≠ key) :
    (me.Delete key).2.record other = me.record other := by
  unfold MemoryEngine.Delete
  split
  · rfl
  · rename_i i shard hgs
    split
    · rfl
    · exact record_putShard_frame me key other i shard _ hgs
        (mapGet_mapDelete_other shard.data key other hne)

theorem ttl_frame (me : MemoryEngine) (key other : String) (now : Int) (hne : other ≠ key) :
    (me.TTL key now).2.record other = me.record other := by
  unfold MemoryEngine.TTL
  split
  · rfl
  · rename_i i shard hgs
    split
    · rfl
    · split
      · rfl
      · simp only []
        split
        · exact record_putShard_frame me key other i shard _ hgs
            (mapGet_mapDelete_other shard.data key other hne)
        · rfl

/-- Claim C32: for keys `k` and `other` that differ, each of `Set(k, v)`,
`SetWithTTL(k, b, ttl)`, `Get(k)`, `Delete(k)` and `TTL(k)`, on every engine,
with every argument and at every clock time, so whether it succeeds or fails,
leaves the record of `other`, its presence, value bytes and expiry, as it was;
the two keys may hash to the same shard. -/
theorem single_key_footprint (me : MemoryEngine) (key other : String) (hne : other ≠ key)
    (value : GoValue) (nonce b : List Nat) (ttl now : Int) :
    (me.Set key value nonce).2.record other = me.record other ∧
      (me.SetWithTTL key b ttl now).2.record other = me.record other ∧
      (me.Get key now).2.record other = me.record other ∧
      (me.Delete key).2.record other = me.record other ∧
      (me.TTL key now).2.record other = me.record other :=
  ⟨set_frame me key other value nonce hne, setWithTTL_frame me key other b ttl now hne,
    get_frame me key other now hne, delete_frame me key other hne,
    ttl_frame me key other now hne⟩

/-- Claim C32 at two keys of one shard: `a` and `c` both hash to shard 0 of 2;
with `c` stored under a TTL, writing, reading past its expiry and deleting `a`
leave the record of `c` as it was. -/
theorem single_key_footprint_witness :
    "c" ≠ "a" ∧
      (engineOn 1).shardIndex "a" = (engineOn 1).shardIndex "c" ∧
      (((engineOn 1).SetWithTTL "c" [1] Second 0).2.SetWithTTL "a" [2] Second 0).2.record "c"
        = some ⟨[1], Second⟩ ∧
      ((((engineOn 1).SetWithTTL "c" [1] Second 0).2.SetWithTTL "a" [2] Second 0).2.Set "a"
        (.json .null) []).2.record "c"
        = (((engineOn 1).SetWithTTL "c" [1] Second 0).2.SetWithTTL "a" [2] Second 0).2.record
          "c" ∧
      ((((engineOn 1).SetWithTTL "c" [1] Second 0).2.SetWithTTL "a" [2] Second 0).2.Get "a"
        (5 * Second)).2.record "c"
        = (((engineOn 1).SetWithTTL "c" [1] Second 0).2.SetWithTTL "a" [2] Second 0).2.record
          "c" ∧
      ((((engineOn 1).SetWithTTL "c" [1] Second 0).2.SetWithTTL "a" [2] Second 0).2.Get "a"
        (5 * Second)).2.record "a" = none :=
  ⟨by decide, by decide, by decide,
    (single_key_footprint
      (((engineOn 1).SetWithTTL "c" [1] Second 0).2.SetWithTTL "a" [2] Second 0).2 "a" "c"
      (by decide) (.json .null) [] [] 0 (5 * Second)).1,
    (single_key_footprint
      (((engineOn 1).SetWithTTL "c" [1] Second 0).2.SetWithTTL "a" [2] Second 0).2 "a" "c"
      (by decide) (.json .null) [] [] 0 (5 * Second)).2.2.1,
    by decide⟩

/-! ### Expiry as `Get`, `TTL` and `GetByPattern` see it -/

theorem timeUntil_nonpos_iff (t now : Int) : timeUntil t now ≤ 0 ↔ t ≤ now := by
  unfold timeUntil timeSub minDuration maxDuration
  split_ifs <;> constructor <;> intro h <;> omega

theorem unseal_ne_notFound (me : MemoryEngine) (stored : List Nat) :
    me.unseal stored ≠ .error .ErrKeyNotFound := by
  unfold MemoryEngine.unseal
  split
  · split <;> simp
  · simp

theorem get_ttl_agree_iff (me : MemoryEngine) (key : String) (t : Int) (hwf : me.WF) :
    ((me.Get key t).1 = .error .ErrKeyNotFound ↔ (me.TTL key t).1 = .ok (-2 * Second)) ↔
      ¬ ∃ data, me.record key = some data ∧ data.ExpiresAt ≠ 0 ∧ data.ExpiresAt = t := by
  cases hrec : me.record key with
  | none =>
    rw [get_absent_eq me key t hwf hrec, ttl_absent_eq me key t hwf hrec]
    simp
  | some data =>
    by_cases hz : data.ExpiresAt = 0
    · have hlive : ¬ (data.ExpiresAt ≠ 0 ∧ data.ExpiresAt < t) := fun h => h.1 hz
      rw [get_live_eq me key t data hwf hrec hlive, ttl_noexpiry_eq me key t data hwf hrec hz]
      have h1 := unseal_ne_notFound me data.Value
      have h2 : (Except.ok (-1 * Second) : Except GoError Int) ≠ .ok (-2 * Second) := by
        intro h
        injection h with h
        revert h
        decide
      constructor
      · rintro _ ⟨d, hd, hnz, _⟩
        injection hd with hd
        exact hnz (hd ▸ hz)
      · intro _
        exact ⟨fun h => absurd h h1, fun h => absurd h h2⟩
    · by_cases hlt : data.ExpiresAt < t
      · have hexp : timeUntil data.ExpiresAt t ≤ 0 := (timeUntil_nonpos_iff _ _).mpr (by omega)
        rw [get_expired_eq me key t data hwf hrec ⟨hz, hlt⟩,
          ttl_expired_eq me key t data hwf hrec hz hexp]
        constructor
        · rintro _ ⟨d, hd, _, heq⟩
          injection hd with hd
          rw [← hd] at heq
          omega
        · intro _
          exact ⟨fun _ => rfl, fun _ => rfl⟩
      · have hlive : ¬ (data.ExpiresAt ≠ 0 ∧ data.ExpiresAt < t) := fun h => hlt h.2
        have h1 := unseal_ne_notFound me data.Value
        rw [get_live_eq me key t data hwf hrec hlive]
        by_cases heq : data.ExpiresAt = t
        · have hexp : timeUntil data.ExpiresAt t ≤ 0 :=
            (timeUntil_nonpos_iff _ _).mpr (by omega)
          rw [ttl_expired_eq me key t data hwf hrec hz hexp]
          constructor
          · intro h
            exact absurd (h.mpr rfl) h1
          · intro h
            exact absurd ⟨data, rfl, hz, heq⟩ h
        · have hpos : ¬ timeUntil data.ExpiresAt t ≤ 0 := by
            rw [timeUntil_nonpos_iff]
            omega
          rw [ttl_live_eq me key t data hwf hrec hz hpos]
          have h2 : (Except.ok (timeUntil data.ExpiresAt t) : Except GoError Int)
              ≠ .ok (-2 * Second) := by
            intro h
            injection h with h
            apply hpos
            rw [h]
            decide
          constructor
          · rintro _ ⟨d, hd, _, hdt⟩
            injection hd with hd
            exact heq (hd ▸ hdt)
          · intro _
            exact ⟨fun h => absurd h h1, fun h => absurd h h2⟩

/-- Claim C33, the code at the failing input: a key stored with a TTL of 60
seconds at clock time 0, read at the instant of its expiry, on an engine
without encryption: `Get` returns the value, not `ErrKeyNotFound`, while `TTL`
returns minus two seconds and deletes the record. -/
theorem get_ttl_disagree_at_expiry :
    (engineOn 1).activeEncryptor = none ∧
      ((engineOn 1).SetWithTTL "k" [118] (60 * Second) 0).2.record "k"
        = some ⟨[118], 60 * Second⟩ ∧
      (((engineOn 1).SetWithTTL "k" [118] (60 * Second) 0).2.Get "k" (60 * Second)).1
        = .ok [118] ∧
      (((engineOn 1).SetWithTTL "k" [118] (60 * Second) 0).2.TTL "k" (60 * Second)).1
        = .ok (-2 * Second) ∧
      (((engineOn 1).SetWithTTL "k" [118] (60 * Second) 0).2.TTL "k" (60 * Second)).2.record "k"
        = none :=
  ⟨rfl, by decide, rfl, rfl, by decide⟩

/-- Claim C34, the code at the failing input: a key stored with a TTL of one
second at clock time 0 and not touched since is, at clock time 10 seconds,
reported by `Get` as not found, yet `GetByPattern`, which reads no clock and
tests no expiry, returns it with its value; with `regexp.Compile` as far as it
is modelled. -/
theorem getByPattern_returns_expired (compile : String → Except String Regexp)
    (hgo : GoRegexp compile) :
    ((engineOn 1).SetWithTTL "k" [118] Second 0).2.record "k" = some ⟨[118], Second⟩ ∧
      (((engineOn 1).SetWithTTL "k" [118] Second 0).2.Get "k" (10 * Second)).1
        = .error .ErrKeyNotFound ∧
      ((engineOn 1).SetWithTTL "k" [118] Second 0).2.GetByPattern compile "k"
        = .ok [⟨"k", [118]⟩] := by
  refine ⟨by decide, rfl, ?_⟩
  obtain ⟨re, hre, hmatch⟩ := hgo (globToRegexp "k") [⟨.lit 'k', false⟩] (by decide)
  have hk : re.MatchString "k" = true := by rw [hmatch]; decide
  unfold MemoryEngine.GetByPattern
  rw [hre]
  have hshards : ((engineOn 1).SetWithTTL "k" [118] Second 0).2
      = ⟨[⟨[("k", ⟨[118], Second⟩)]⟩, ⟨[]⟩], 2, none, false, false, "data/dump"⟩ := by
    rfl
  rw [hshards]
  simp [MemoryEngine.matchShards, MemoryEngine.matchShard, hk]

/-- Witness of C34: the same calls with the simple model of `regexp.Compile`. -/
theorem getByPattern_returns_expired_witness :
    ((engineOn 1).SetWithTTL "k" [118] Second 0).2.record "k" = some ⟨[118], Second⟩ ∧
      (((engineOn 1).SetWithTTL "k" [118] Second 0).2.Get "k" (10 * Second)).1
        = .error .ErrKeyNotFound ∧
      ((engineOn 1).SetWithTTL "k" [118] Second 0).2.GetByPattern simpleCompile "k"
        = .ok [⟨"k", [118]⟩] :=
  getByPattern_returns_expired simpleCompile simpleCompile_GoRegexp

/-! ### `json.Marshal` on the bytes of a Go string -/

theorem utf8EncodeChar_head_ge (c : Char) (h : ¬ c.toNat < 128) :
    ∃ b bs, utf8EncodeChar c = b :: bs ∧ 192 ≤ b ∧ 2 ≤ (utf8EncodeChar c).length := by
  unfold utf8EncodeChar
  rw [if_neg h]
  split_ifs
  · exact ⟨_, _, rfl, by omega, by simp⟩
  · exact ⟨_, _, rfl, by omega, by simp⟩
  · exact ⟨_, _, rfl, by omega, by simp⟩

theorem escapeChar_nonascii (c : Char) (h : ¬ c.toNat < 128)
    (hls : ¬ (c.toNat = 8232 ∨ c.toNat = 8233)) : escapeChar c = [c] := by
  have hne : ∀ d : Char, d.toNat < 128 → c ≠ d := fun d hd e => h (e ▸ hd)
  unfold escapeChar
  rw [if_neg (by
      rintro (e | e)
      · exact hne _ (by decide) e
      · exact hne _ (by decide) e),
    if_neg (by omega), if_neg (by omega), if_neg (hne _ (by decide)),
    if_neg (hne _ (by decide)), if_neg (hne _ (by decide)),
    if_neg (by
      rintro (e | e | e | e)
      · omega
      · exact hne _ (by decide) e
      · exact hne _ (by decide) e
      · exact hne _ (by decide) e),
    if_neg hls]

theorem appendStringFuel_encode (cs : List Char) :
    ∀ fuel, (cs.flatMap utf8EncodeChar).length ≤ fuel →
      appendStringFuel fuel (cs.flatMap utf8EncodeChar)
        = (cs.flatMap escapeChar).flatMap utf8EncodeChar := by
  induction cs with
  | nil =>
    intro fuel _
    cases fuel <;> rfl
  | cons c cs ih =>
    intro fuel hfuel
    have hpos := utf8EncodeChar_length_pos c
    rw [List.flatMap_cons, List.length_append] at hfuel
    obtain ⟨f, rfl⟩ : ∃ f, fuel = f + 1 := ⟨fuel - 1, by omega⟩
    have hdec := decodeRune_encode c (cs.flatMap utf8EncodeChar)
    rw [List.flatMap_cons, List.flatMap_cons, List.flatMap_append]
    by_cases hascii : c.toNat < 128
    · have henc : utf8EncodeChar c = [c.toNat] := by
        unfold utf8EncodeChar
        rw [if_pos hascii]
      rw [henc] at hfuel ⊢
      rw [List.singleton_append]
      unfold appendStringFuel
      rw [if_pos hascii, Char.ofNat_toNat, ih f (by rw [List.length_singleton] at hfuel; omega)]
      rfl
    · obtain ⟨b, bs, hbs, hb, hlen⟩ := utf8EncodeChar_head_ge c hascii
      have hih := ih f (by omega)
      rw [hbs] at hdec ⊢
      rw [List.cons_append] at hdec ⊢
      unfold appendStringFuel
      rw [if_neg (by omega), hdec]
      simp only []
      rw [if_neg (by
        rintro ⟨_, h1⟩
        rw [hbs] at hlen
        omega)]
      rw [← List.cons_append, List.drop_left, List.take_left, Char.ofNat_toNat, hih]
      by_cases hls : c.toNat = 8232 ∨ c.toNat = 8233
      · rw [if_pos hls]
        rfl
      · rw [if_neg hls, escapeChar_nonascii c hascii hls, List.flatMap_singleton, hbs]

theorem marshalRawString_toBytes (s : String) :
    marshalRawString (toBytes s) = toBytes (String.mk (quote s)) := by
  unfold marshalRawString
  rw [show toBytes s = s.data.flatMap utf8EncodeChar from rfl,
    appendStringFuel_encode s.data _ (le_refl _)]
  unfold toBytes quote
  simp only [List.flatMap_cons, List.flatMap_append, List.flatMap_nil, List.append_nil]
  rfl

theorem char_eq_of_toNat_eq (c d : Char) (h : c.toNat = d.toNat) : c = d := by
  rw [← Char.ofNat_toNat c, ← Char.ofNat_toNat d, h]

theorem utf8EncodeChar_last_ge (c : Char) (h : ¬ c.toNat < 128) :
    ∃ l, (utf8EncodeChar c).getLast? = some l ∧ 128 ≤ l := by
  unfold utf8EncodeChar
  rw [if_neg h]
  split_ifs
  · exact ⟨128 + c.toNat % 64, rfl, by omega⟩
  · exact ⟨128 + c.toNat % 64, rfl, by omega⟩
  · exact ⟨128 + c.toNat % 64, rfl, by omega⟩

theorem head_flatMap_utf8 (cs : List Char) (d : Char) (hd : d.toNat < 128) :
    (cs.flatMap utf8EncodeChar).head? = some d.toNat ↔ cs.head? = some d := by
  cases cs with
  | nil => simp
  | cons c rest =>
    rw [List.flatMap_cons, List.head?_cons]
    by_cases hascii : c.toNat < 128
    · have henc : utf8EncodeChar c = [c.toNat] := by
        unfold utf8EncodeChar
        rw [if_pos hascii]
      rw [henc]
      simp only [List.singleton_append, List.head?_cons, Option.some.injEq]
      exact ⟨char_eq_of_toNat_eq c d, fun e => by rw [e]⟩
    · obtain ⟨b, bs, hbs, hb, _⟩ := utf8EncodeChar_head_ge c hascii
      rw [hbs]
      simp only [List.cons_append, List.head?_cons, Option.some.injEq]
      constructor
      · intro e
        omega
      · intro e
        rw [e] at hascii
        exact absurd hd hascii

theorem last_flatMap_utf8 (cs : List Char) (d : Char) (hd : d.toNat < 128) :
    (cs.flatMap utf8EncodeChar).getLast? = some d.toNat ↔ cs.getLast? = some d := by
  rcases List.eq_nil_or_concat cs with rfl | ⟨init, c, rfl⟩
  · simp
  · rw [List.concat_eq_append, List.flatMap_append, List.flatMap_singleton,
      List.getLast?_concat]
    have hne : utf8EncodeChar c ≠ [] := by
      intro e
      have := utf8EncodeChar_length_pos c
      rw [e] at this
      cases this
    rw [List.getLast?_append_of_ne_nil _ hne]
    by_cases hascii : c.toNat < 128
    · have henc : utf8EncodeChar c = [c.toNat] := by
        unfold utf8EncodeChar
        rw [if_pos hascii]
      rw [henc]
      simp only [List.getLast?_singleton, Option.some.injEq]
      exact ⟨char_eq_of_toNat_eq c d, fun e => by rw [e]⟩
    · obtain ⟨l, hl, hge⟩ := utf8EncodeChar_last_ge c hascii
      rw [hl]
      simp only [Option.some.injEq]
      constructor
      · intro e
        omega
      · intro e
        rw [e] at hascii
        exact absurd hd hascii

theorem bytesWrapped_toBytes (s : String) : bytesWrapped (toBytes s) = isWrapped s := by
  rw [Bool.eq_iff_iff, isWrapped_iff]
  unfold bytesWrapped bytesStartWith bytesEndWith toBytes
  simp only [Bool.or_eq_true, Bool.and_eq_true, decide_eq_true_eq]
  exact or_congr
    (and_congr (head_flatMap_utf8 s.data '{' (by decide))
      (last_flatMap_utf8 s.data '}' (by decide)))
    (and_congr (head_flatMap_utf8 s.data '[' (by decide))
      (last_flatMap_utf8 s.data ']' (by decide)))

theorem setRawBytes_toBytes (s : String) : setRawBytes (toBytes s) = setBytes (.str s) := by
  unfold setRawBytes
  rw [bytesWrapped_toBytes, marshalRawString_toBytes]
  rfl

theorem set_raw_toBytes (me : MemoryEngine) (key s : String) (nonce : List Nat)
    (hwf : me.WF) :
    me.Set key (.rawString (toBytes s)) nonce = me.Set key (.json (.str s)) nonce := by
  rw [set_raw_eq me key _ nonce hwf, set_json_eq me key _ nonce hwf, setRawBytes_toBytes]

/-! ### Set followed by Get, for every Go value -/

theorem get_after_put_sealed (me : MemoryEngine) (key : String) (data nonce : List Nat)
    (now : Int) (hwf : me.WF) (hn : nonce.length = 16) :
    ((me.putShard (me.shardIndex key)
        (mapSet (me.shardData key) key ⟨me.seal nonce data, 0⟩)).Get key now).1
      = .ok data := by
  rw [get_live_eq _ key now ⟨me.seal nonce data, 0⟩ (putShard_WF me _ _ hwf)
    (record_after_put_set me key _ hwf) (fun h => h.1 rfl)]
  exact unseal_seal me nonce data hn

/-- Claim C1, amended: on a well-formed engine, for every key, every nonce of 16
bytes and every Go value `v` that `json.Marshal` encodes as `text`, as it does
every null, string, number, boolean, array and object, `Set(k, v)` returns no
error.  When `v` is not a string that starts and ends with matching braces or
square brackets, the following `Get(k)` returns exactly `text`, the bytes of
`json.Marshal(v)`, and when `v` is such a string `s` of valid UTF-8 these bytes
decode to the string `s`.  When `v` is a string that does start and end with
matching brackets, `Get(k)` returns the bytes of the string itself.  A string is
given as a Lean string or by its bytes. -/
theorem set_then_get_json (me : MemoryEngine) (key : String) (value : GoValue)
    (text nonce : List Nat) (now : Int) (hwf : me.WF) (hn : nonce.length = 16)
    (hm : jsonMarshal value = .ok text) :
    (me.Set key value nonce).1 = none ∧
      ((∀ s, value = .json (.str s) → isWrapped s = false) →
        (∀ bytes, value = .rawString bytes → bytesWrapped bytes = false) →
        ((me.Set key value nonce).2.Get key now).1 = .ok text) ∧
      (∀ s : String, value = .json (.str s) ∨ value = .rawString (toBytes s) →
        isWrapped s = false →
        ((me.Set key value nonce).2.Get key now).1 = .ok text ∧
          unmarshalString text = some s) ∧
      (∀ s, value = .json (.str s) → isWrapped s = true →
        ((me.Set key value nonce).2.Get key now).1 = .ok (toBytes s)) ∧
      (∀ bytes, value = .rawString bytes → bytesWrapped bytes = true →
        ((me.Set key value nonce).2.Get key now).1 = .ok bytes) := by
  cases value with
  | unsupported => cases hm
  | json j =>
    have htext : text = toBytes (String.mk (marshalText j)) := by
      injection hm with h
      exact h.symm
    subst htext
    rw [set_json_eq me key j nonce hwf]
    have hget := get_after_put_sealed me key (setBytes j) nonce now hwf hn
    refine ⟨rfl, ?_, ?_, ?_, ?_⟩
    · intro hplain _
      rw [hget, setBytes_of_plain j (fun s hs => hplain s (by rw [hs]))]
    · intro s hs hw
      rcases hs with hs | hs
      · injection hs with hs
        subst hs
        rw [hget]
        simp only [setBytes, hw, Bool.false_eq_true, if_false, marshalText]
        exact ⟨trivial, unmarshalString_quote s⟩
      · cases hs
    · intro s hs hw
      injection hs with hs
      subst hs
      rw [hget]
      simp only [setBytes, hw, if_true]
    · intro bytes hb
      cases hb
  | rawString bs =>
    have htext : text = marshalRawString bs := by
      injection hm with h
      exact h.symm
    subst htext
    rw [set_raw_eq me key bs nonce hwf]
    have hget := get_after_put_sealed me key (setRawBytes bs) nonce now hwf hn
    refine ⟨rfl, ?_, ?_, ?_, ?_⟩
    · intro _ hplain
      rw [hget]
      simp only [setRawBytes, hplain bs rfl, Bool.false_eq_true, if_false]
    · intro s hs hw
      rcases hs with hs | hs
      · cases hs
      · injection hs with hs
        subst hs
        rw [hget]
        simp only [setRawBytes, bytesWrapped_toBytes, hw, Bool.false_eq_true, if_false]
        refine ⟨trivial, ?_⟩
        rw [marshalRawString_toBytes]
        exact unmarshalString_quote s
    · intro s hs
      cases hs
    · intro bytes hb hw
      injection hb with hb
      subst hb
      rw [hget]
      simp only [setRawBytes, hw, if_true]
  | encoded t =>
    have htext : text = t := by
      injection hm with h
      exact h.symm
    subst htext
    rw [set_encoded_eq me key text nonce hwf]
    have hget := get_after_put_sealed me key text nonce now hwf hn
    refine ⟨rfl, fun _ _ => hget, ?_, ?_, ?_⟩
    · intro s hs
      rcases hs with hs | hs <;> cases hs
    · intro s hs
      cases hs
    · intro bytes hb
      cases hb


/-- Witness of C1: on an encrypting engine of two shards the string `hello` of
the tests, given by its bytes, comes back as a JSON text that decodes to
`hello`; the integer 42 of the tests comes back as the text `42`, and a
`float64` that `json.Marshal` writes as `3.14` comes back as that text. -/
theorem set_then_get_json_witness :
    (⟨[⟨[]⟩, ⟨[]⟩], 2, some ⟨⟨toyAes [7]⟩⟩, true, false, "data/dump"⟩ : MemoryEngine).WF ∧
      jsonMarshal (.rawString (toBytes "hello")) = .ok (toBytes "\"hello\"") ∧
      ((((⟨[⟨[]⟩, ⟨[]⟩], 2, some ⟨⟨toyAes [7]⟩⟩, true, false, "data/dump"⟩ : MemoryEngine).Set
          "test1" (.rawString (toBytes "hello")) (List.range 16)).2.Get "test1" 0).1
          = .ok (toBytes "\"hello\"") ∧
        unmarshalString (toBytes "\"hello\"") = some "hello") ∧
      (((⟨[⟨[]⟩, ⟨[]⟩], 2, some ⟨⟨toyAes [7]⟩⟩, true, false, "data/dump"⟩ : MemoryEngine).Set
          "test2" (.json (.num 42)) (List.range 16)).2.Get "test2" 0).1
          = .ok (toBytes "42") ∧
      (((⟨[⟨[]⟩, ⟨[]⟩], 2, some ⟨⟨toyAes [7]⟩⟩, true, false, "data/dump"⟩ : MemoryEngine).Set
          "pi" (.encoded (toBytes "3.14")) (List.range 16)).2.Get "pi" 0).1
          = .ok (toBytes "3.14") :=
  ⟨by decide, rfl,
    (set_then_get_json ⟨[⟨[]⟩, ⟨[]⟩], 2, some ⟨⟨toyAes [7]⟩⟩, true, false, "data/dump"⟩
      "test1" (.rawString (toBytes "hello")) (toBytes "\"hello\"") (List.range 16) 0
      (by decide) (by decide) rfl).2.2.1 "hello" (Or.inr rfl) (by decide),
    (set_then_get_json ⟨[⟨[]⟩, ⟨[]⟩], 2, some ⟨⟨toyAes [7]⟩⟩, true, false, "data/dump"⟩
      "test2" (.json (.num 42)) (toBytes "42") (List.range 16) 0
      (by decide) (by decide) rfl).2.1 (fun s hs => by cases hs) (fun b hb => by cases hb),
    (set_then_get_json ⟨[⟨[]⟩, ⟨[]⟩], 2, some ⟨⟨toyAes [7]⟩⟩, true, false, "data/dump"⟩
      "pi" (.encoded (toBytes "3.14")) (toBytes "3.14") (List.range 16) 0
      (by decide) (by decide) rfl).2.1 (fun s hs => by cases hs) (fun b hb => by cases hb)⟩

/-- Counterexample to C1 as stated, in two parts.  After `Set(k, s)` with the
string `s` of the two characters `\x7b\x7d`, `Get(k)` returns the two bytes of
`s` itself; they are not the canonical encoding of the string `s` (the four
bytes of its string literal) and they do not decode to the string `s`.  After
`Set(k, s)` with the Go string `s` of the one byte 255, which is not valid
UTF-8, `Get(k)` returns the literal `json.Marshal` writes, with the escape of
U+FFFD in place of the byte; it decodes to the string of the one character
U+FFFD, whose three bytes are not the byte of `s`. -/
theorem set_get_string_counterexample :
    (((⟨[⟨[]⟩, ⟨[]⟩], 2, none, false, false, "data/dump"⟩ : MemoryEngine).Set
        "k" (.json (.str "\x7b\x7d")) []).2.Get "k" 0).1 = .ok [123, 125] ∧
      jsonMarshal (.json (.str "\x7b\x7d")) = .ok [34, 123, 125, 34] ∧
      unmarshalString [123, 125] ≠ some "\x7b\x7d" ∧
      bytesWrapped [255] = false ∧
      ((⟨[⟨[]⟩, ⟨[]⟩], 2, none, false, false, "data/dump"⟩ : MemoryEngine).Set
        "k" (.rawString [255]) []).1 = none ∧
      (((⟨[⟨[]⟩, ⟨[]⟩], 2, none, false, false, "data/dump"⟩ : MemoryEngine).Set
        "k" (.rawString [255]) []).2.Get "k" 0).1 = .ok (toBytes "\"\\ufffd\"") ∧
      jsonMarshal (.rawString [255]) = .ok (toBytes "\"\\ufffd\"") ∧
      (unmarshalString (toBytes "\"\\ufffd\"")).map toBytes = some [239, 191, 189] ∧
      (∀ s : String, toBytes s ≠ [255]) := by
  refine ⟨rfl, rfl, by decide, by decide, rfl, rfl, rfl, by decide, ?_⟩
  intro s h
  have hfb := fromBytes_toBytes s
  rw [h] at hfb
  have hdata : s.data = [Char.ofNat 65533] := by
    rw [← hfb]
    rfl
  have hbytes : toBytes s = [239, 191, 189] := by
    unfold toBytes
    rw [hdata]
    decide
  rw [h] at hbytes
  exact absurd hbytes (by decide)

/-- Claim C15, the code at the failing input: two engines are built from the
same configuration, one on a host with one CPU (two shards) and one on a host
with two CPUs (four shards).  The first stores `key1` with a TTL of one hour
at clock time 0 and dumps at time 1000; the second restores that file at time
2000 without error.  At time 3000 the original returns the value and the
remaining time for `key1`, which was not expired at the dump and is not
expired now, while the restored engine reports it as not found and returns
minus two seconds: the record sits in shard 1, and `key1` hashes to shard 3 of
four.  Restored on a fresh engine of two shards the key is read as on the
original. -/
theorem dump_restore_loses_key_on_other_host :
    NewMemoryEngine toyAes plainConfig ⟨1, none, .missing, 0⟩ = .ok (engineOn 1) ∧
      NewMemoryEngine toyAes plainConfig ⟨2, none, .missing, 0⟩ = .ok (engineOn 2) ∧
      (((engineOn 1).SetWithTTL "key1" [118] (3600 * Second) 0).2.DumpToDisk 1000 dumpIOok
        .missing).1 = none ∧
      ((engineOn 2).RestoreFromDisk
        (((engineOn 1).SetWithTTL "key1" [118] (3600 * Second) 0).2.DumpToDisk 1000 dumpIOok
          .missing).2 2000).1 = none ∧
      (((engineOn 1).SetWithTTL "key1" [118] (3600 * Second) 0).2.Get "key1" 3000).1
        = .ok [118] ∧
      (((engineOn 1).SetWithTTL "key1" [118] (3600 * Second) 0).2.TTL "key1" 3000).1
        = .ok (3600 * Second - 3000) ∧
      (((engineOn 2).RestoreFromDisk
        (((engineOn 1).SetWithTTL "key1" [118] (3600 * Second) 0).2.DumpToDisk 1000 dumpIOok
          .missing).2 2000).2.Get "key1" 3000).1 = .error .ErrKeyNotFound ∧
      (((engineOn 2).RestoreFromDisk
        (((engineOn 1).SetWithTTL "key1" [118] (3600 * Second) 0).2.DumpToDisk 1000 dumpIOok
          .missing).2 2000).2.TTL "key1" 3000).1 = .ok (-2 * Second) ∧
      ((engineOn 2).RestoreFromDisk
        (((engineOn 1).SetWithTTL "key1" [118] (3600 * Second) 0).2.DumpToDisk 1000 dumpIOok
          .missing).2 2000).2.shards
        = [⟨[]⟩, ⟨[("key1", ⟨[118], 3600 * Second⟩)]⟩, ⟨[]⟩, ⟨[]⟩] ∧
      (((engineOn 1).RestoreFromDisk
        (((engineOn 1).SetWithTTL "key1" [118] (3600 * Second) 0).2.DumpToDisk 1000 dumpIOok
          .missing).2 2000).2.Get "key1" 3000).1 = .ok [118] :=
  ⟨rfl, rfl, rfl, rfl, rfl, rfl, rfl, rfl, by decide, rfl⟩

end JsonDB
